import Mathlib

/-!
Verification of the associative-container family of
`TakingCoding4Granted/data-structure-and-algorithm-in-python`.

The Python sources `src/ch10/map.py` (UnsortedListMap, HashMapBase,
ChainHashMap, ProbeHashMap, SortedTableMap) and
`src/ch11/binary_search_tree.py` (TreeMap) are shallowly embedded below.
Keys and values are `Nat` (in the repository they are ordinary Python
values such as ints and strings; in particular a key has no `.key`
attribute, which matters for `SortedTableMap.find_gt`).  Python loops
that can diverge are given explicit fuel; operations that can raise
`KeyError` return `Option`/`Res`.  The external positional binary tree
`ch8.tree.LinkedBinaryTree` is not part of the sources and is modelled
from the specification (section 4.6), as noted on each such definition.
-/

set_option maxHeartbeats 1000000

namespace DSA

/-- Result of a Python map operation: the call may diverge (an infinite
loop, possible in `ProbeHashMap._find_slot`), raise `KeyError`, or
return normally. -/
inductive Res (α : Type) where
  | div : Res α
  | err : Res α
  | ok : α → Res α
  deriving DecidableEq, Repr

/-! ## UnsortedListMap (src/ch10/map.py, lines 30-66)

The table is a list of `_Item`s; an `_Item` is embedded as a pair
`(key, value)`. -/

/-- `UnsortedListMap.__getitem__` (map.py 36-41): linear scan for the
first item whose key equals `k`; `KeyError` (here `none`) if absent. -/
def uGet : List (Nat × Nat) → Nat → Option Nat
  | [], _ => none
  | it :: rest, k => if k = it.1 then some it.2 else uGet rest k

/-- `UnsortedListMap.__setitem__` (map.py 43-49): overwrite the value of
the first item whose key equals `k`, else append a new item. -/
def uSet : List (Nat × Nat) → Nat → Nat → List (Nat × Nat)
  | [], k, v => [(k, v)]
  | it :: rest, k, v => if k = it.1 then (it.1, v) :: rest else it :: uSet rest k v

/-- `UnsortedListMap.__delitem__` (map.py 51-57): pop the first item
whose key equals `k`; `KeyError` (here `none`) if absent. -/
def uDel : List (Nat × Nat) → Nat → Option (List (Nat × Nat))
  | [], _ => none
  | it :: rest, k => if k = it.1 then some rest else (uDel rest k).map (it :: ·)

/-- `UnsortedListMap.__iter__` (map.py 63-66): the keys in storage order. -/
def uKeys (t : List (Nat × Nat)) : List Nat := t.map Prod.fst

@[simp] theorem uGet_nil (k : Nat) : uGet [] k = none := rfl

theorem uGet_cons (it : Nat × Nat) (rest : List (Nat × Nat)) (k : Nat) :
    uGet (it :: rest) k = if k = it.1 then some it.2 else uGet rest k := rfl

@[simp] theorem uKeys_nil : uKeys [] = [] := rfl

@[simp] theorem uKeys_cons (it : Nat × Nat) (rest : List (Nat × Nat)) :
    uKeys (it :: rest) = it.1 :: uKeys rest := rfl

/-- Round trip for the unsorted list map: a get directly after a set of
the same key sees the written value (no invariant needed: both scans
stop at the first occurrence). -/
theorem uGet_uSet_self (t : List (Nat × Nat)) (k v : Nat) :
    uGet (uSet t k v) k = some v := by
  induction t with
  | nil => simp [uSet, uGet]
  | cons it rest ih =>
    by_cases h : k = it.1
    · simp [uSet, uGet, h]
    · simp [uSet, uGet, h, ih]

theorem uGet_uSet_ne (t : List (Nat × Nat)) (k v k' : Nat) (h : k' ≠ k) :
    uGet (uSet t k v) k' = uGet t k' := by
  induction t with
  | nil => simp [uSet, uGet, h]
  | cons it rest ih =>
    by_cases hk : k = it.1
    · subst hk
      simp [uSet, uGet, h]
    · by_cases hk' : k' = it.1
      · simp [uSet, uGet, hk, hk']
      · simp [uSet, uGet, hk, hk', ih]

theorem uKeys_uSet (t : List (Nat × Nat)) (k v : Nat) :
    uKeys (uSet t k v) = if uGet t k = none then uKeys t ++ [k] else uKeys t := by
  induction t with
  | nil => simp [uSet, uGet, uKeys]
  | cons it rest ih =>
    by_cases h : k = it.1
    · simp [uSet, uGet, uKeys, h]
    · have hstep : uKeys (uSet (it :: rest) k v) = it.1 :: uKeys (uSet rest k v) := by
        simp [uSet, h]
      rw [hstep, ih, uGet_cons, if_neg h]
      by_cases hrest : uGet rest k = none <;> simp [hrest]

theorem length_uSet (t : List (Nat × Nat)) (k v : Nat) :
    (uSet t k v).length = if uGet t k = none then t.length + 1 else t.length := by
  have h := congrArg List.length (uKeys_uSet t k v)
  simpa [uKeys, apply_ite List.length] using h

theorem uGet_eq_none_iff (t : List (Nat × Nat)) (k : Nat) :
    uGet t k = none ↔ k ∉ uKeys t := by
  induction t with
  | nil => simp [uGet, uKeys]
  | cons it rest ih =>
    by_cases h : k = it.1
    · simp [uGet, uKeys, h]
    · simp [uGet, uKeys, h, ih]

theorem uGet_isSome_iff (t : List (Nat × Nat)) (k : Nat) :
    (uGet t k).isSome ↔ k ∈ uKeys t := by
  constructor
  · intro h
    by_contra hk
    rw [← uGet_eq_none_iff] at hk
    simp [hk] at h
  · intro h
    by_contra hs
    have hn : uGet t k = none := Option.not_isSome_iff_eq_none.mp (by simpa using hs)
    exact (uGet_eq_none_iff t k).mp hn h

theorem nodup_uKeys_uSet (t : List (Nat × Nat)) (k v : Nat)
    (h : (uKeys t).Nodup) : (uKeys (uSet t k v)).Nodup := by
  rw [uKeys_uSet]
  by_cases hk : uGet t k = none
  · rw [if_pos hk]
    have hnotin : k ∉ uKeys t := (uGet_eq_none_iff t k).mp hk
    simp [List.nodup_append, h, hnotin]
  · rw [if_neg hk]; exact h

theorem uDel_spec (t : List (Nat × Nat)) (k : Nat) :
    (uGet t k = none ∧ uDel t k = none) ∨
      ∃ t₁ v t₂, t = t₁ ++ (k, v) :: t₂ ∧ k ∉ uKeys t₁ ∧
        uDel t k = some (t₁ ++ t₂) := by
  induction t with
  | nil => exact Or.inl ⟨rfl, rfl⟩
  | cons it rest ih =>
    by_cases h : k = it.1
    · subst h
      exact Or.inr ⟨[], it.2, rest, by simp, by simp, by simp [uDel]⟩
    · rcases ih with ⟨h1, h2⟩ | ⟨t₁, v, t₂, ht, hk, hdel⟩
      · exact Or.inl ⟨by simp [uGet, h, h1], by simp [uDel, h, h2]⟩
      · refine Or.inr ⟨it :: t₁, v, t₂, by simp [ht], ?_, by simp [uDel, h, hdel]⟩
        rw [uKeys_cons]
        intro hmem
        rcases List.mem_cons.mp hmem with hmem | hmem
        · exact h hmem
        · exact hk hmem

theorem uKeys_append (t₁ t₂ : List (Nat × Nat)) :
    uKeys (t₁ ++ t₂) = uKeys t₁ ++ uKeys t₂ := by
  simp [uKeys]

theorem uGet_append_left (t₁ t₂ : List (Nat × Nat)) (k : Nat)
    (h : k ∈ uKeys t₁) : uGet (t₁ ++ t₂) k = uGet t₁ k := by
  induction t₁ with
  | nil => simp [uKeys] at h
  | cons it rest ih =>
    by_cases hk : k = it.1
    · simp [uGet, hk]
    · have hmem : k ∈ uKeys rest := by
        rw [uKeys_cons] at h
        rcases List.mem_cons.mp h with h1 | h1
        · exact absurd h1 hk
        · exact h1
      simp [uGet, hk, ih hmem]

theorem uGet_append_right (t₁ t₂ : List (Nat × Nat)) (k : Nat)
    (h : k ∉ uKeys t₁) : uGet (t₁ ++ t₂) k = uGet t₂ k := by
  induction t₁ with
  | nil => simp
  | cons it rest ih =>
    rw [uKeys_cons] at h
    have h1 : ¬ k = it.1 := fun he => h (he ▸ List.mem_cons_self _ _)
    have h2 : k ∉ uKeys rest := fun hm => h (List.mem_cons_of_mem _ hm)
    simp [uGet, h1, ih h2]

/-- Membership characterises a successful get, given distinct keys. -/
theorem uGet_eq_some_iff_mem (t : List (Nat × Nat)) (k v : Nat)
    (h : (uKeys t).Nodup) : uGet t k = some v ↔ (k, v) ∈ t := by
  induction t with
  | nil => simp [uGet]
  | cons it rest ih =>
    rw [uKeys_cons, List.nodup_cons] at h
    by_cases hk : k = it.1
    · subst hk
      rw [uGet_cons, if_pos rfl]
      constructor
      · intro hv
        have h2 : it.2 = v := Option.some_inj.mp hv
        rw [← h2, Prod.mk.eta]
        exact List.mem_cons_self _ _
      · intro hv
        rcases List.mem_cons.mp hv with hv | hv
        · rw [← hv]
        · exact absurd (List.mem_map_of_mem Prod.fst hv) h.1
    · rw [uGet_cons, if_neg hk, ih h.2]
      constructor
      · exact fun hm => List.mem_cons_of_mem _ hm
      · intro hm
        rcases List.mem_cons.mp hm with hm | hm
        · exact absurd (congrArg Prod.fst hm) hk
        · exact hm

/-! ## SortedTableMap (src/ch10/map.py, lines 205-330)

The table is a list of items kept sorted by key (strictly: keys are
unique).  Python's index accesses are embedded with `List.getD`; every
access the source performs is at an in-range index. -/

/-- Item at index `i` of the table (Python `self._table[i]`). -/
def entryD (t : List (Nat × Nat)) (i : Nat) : Nat × Nat := t.getD i (0, 0)

/-- Key at index `i` of the table (Python `self._table[i].key`). -/
def keyD (t : List (Nat × Nat)) (i : Nat) : Nat := (entryD t i).1

/-- Sorted-table invariant (spec section 3): `table[i].key < table[i+1].key`. -/
def SortedKeys (t : List (Nat × Nat)) : Prop := (t.map Prod.fst).Pairwise (· < ·)

theorem keyD_lt_keyD (t : List (Nat × Nat)) (hs : SortedKeys t) (i j : Nat)
    (hij : i < j) (hj : j < t.length) : keyD t i < keyD t j := by
  have hi : i < t.length := lt_trans hij hj
  have hi' : i < (t.map Prod.fst).length := by simpa using hi
  have hj' : j < (t.map Prod.fst).length := by simpa using hj
  have hmap := List.pairwise_iff_get.mp hs ⟨i, hi'⟩ ⟨j, hj'⟩ hij
  simpa [keyD, entryD, List.getD_eq_getElem, List.getElem_map, hi, hj] using hmap

/-- `SortedTableMap._find_index(k, low, high)` (map.py 212-229): binary
search.  Python's `high` may reach `-1`, so the embedding carries
`hp = high + 1`; the guard `high < low` becomes `hp ≤ low` and the
result `high + 1` is `hp`.  `mid = (low + high) // 2` is
`(low + (hp - 1)) / 2` (only evaluated when `low < hp`, hence
`low + high ≥ 0`). -/
def findIndex (t : List (Nat × Nat)) (k : Nat) (low hp : Nat) : Nat :=
  if h : hp ≤ low then hp
  else
    if k = keyD t ((low + (hp - 1)) / 2) then (low + (hp - 1)) / 2
    else if k < keyD t ((low + (hp - 1)) / 2) then
      findIndex t k low ((low + (hp - 1)) / 2)
    else
      findIndex t k ((low + (hp - 1)) / 2 + 1) hp
termination_by hp - low
decreasing_by
· omega
· omega

/-- Characterisation of `_find_index` on the range `[low, hp)` of a
sorted table whose keys outside the range already bracket `k`: the
result is the first index whose key is `≥ k`. -/
theorem findIndex_bracket (t : List (Nat × Nat)) (hs : SortedKeys t) (k : Nat)
    (low hp : Nat) (hhp : hp ≤ t.length) (hlh : low ≤ hp)
    (hlo : ∀ i, i < low → keyD t i < k)
    (hhi : ∀ i, hp ≤ i → i < t.length → k < keyD t i) :
    low ≤ findIndex t k low hp ∧ findIndex t k low hp ≤ hp ∧
      (∀ i, i < findIndex t k low hp → keyD t i < k) ∧
      (∀ i, findIndex t k low hp ≤ i → i < t.length → k ≤ keyD t i) := by
  rw [findIndex]
  by_cases h : hp ≤ low
  · rw [dif_pos h]
    have heq : low = hp := le_antisymm hlh h
    subst heq
    exact ⟨le_refl _, le_refl _, fun i hi => hlo i hi,
      fun i hi hil => le_of_lt (hhi i hi hil)⟩
  · rw [dif_neg h]
    have hlow : low < hp := Nat.lt_of_not_le h
    have hmidlt : (low + (hp - 1)) / 2 < hp := by omega
    have hmidge : low ≤ (low + (hp - 1)) / 2 := by omega
    have hmidlen : (low + (hp - 1)) / 2 < t.length := lt_of_lt_of_le hmidlt hhp
    set mid := (low + (hp - 1)) / 2 with hmid
    by_cases heq : k = keyD t mid
    · rw [if_pos heq]
      refine ⟨hmidge, le_of_lt hmidlt, ?_, ?_⟩
      · intro i hi
        exact lt_of_lt_of_le (keyD_lt_keyD t hs i mid hi hmidlen) (le_of_eq heq.symm)
      · intro i hi hil
        rcases eq_or_lt_of_le hi with hi | hi
        · exact le_of_eq (hi ▸ heq)
        · exact le_of_lt (lt_of_le_of_lt (le_of_eq heq) (keyD_lt_keyD t hs mid i hi hil))
    · rw [if_neg heq]
      by_cases hlt : k < keyD t mid
      · rw [if_pos hlt]
        have hhi2 : ∀ i, mid ≤ i → i < t.length → k < keyD t i := by
          intro i hi hil
          rcases eq_or_lt_of_le hi with hi | hi
          · exact hi ▸ hlt
          · exact lt_trans hlt (keyD_lt_keyD t hs mid i hi hil)
        have ih := findIndex_bracket t hs k low mid (le_of_lt hmidlen) hmidge hlo hhi2
        exact ⟨ih.1, le_trans ih.2.1 (le_of_lt hmidlt), ih.2.2.1, ih.2.2.2⟩
      · rw [if_neg hlt]
        have hgt : keyD t mid < k :=
          lt_of_le_of_ne (Nat.le_of_not_lt hlt) (fun he => heq he.symm)
        have hlo2 : ∀ i, i < mid + 1 → keyD t i < k := by
          intro i hi
          rcases Nat.lt_succ_iff_lt_or_eq.mp hi with hi | hi
          · exact lt_trans (keyD_lt_keyD t hs i mid hi hmidlen) hgt
          · exact hi ▸ hgt
        have ih := findIndex_bracket t hs k (mid + 1) hp hhp (by omega) hlo2 hhi
        exact ⟨le_trans (le_of_lt (Nat.lt_succ_of_le hmidge)) ih.1, ih.2.1,
          ih.2.2.1, ih.2.2.2⟩
termination_by hp - low
decreasing_by
· omega
· omega

/-- The full-range call used by every public operation. -/
theorem findIndex_spec (t : List (Nat × Nat)) (hs : SortedKeys t) (k : Nat) :
    findIndex t k 0 t.length ≤ t.length ∧
      (∀ i, i < findIndex t k 0 t.length → keyD t i < k) ∧
      (∀ i, findIndex t k 0 t.length ≤ i → i < t.length → k ≤ keyD t i) := by
  have h := findIndex_bracket t hs k 0 t.length (le_refl _) (Nat.zero_le _)
    (fun i hi => absurd hi (Nat.not_lt_zero i)) (fun i hi hil => absurd hil (not_lt.mpr hi))
  exact ⟨h.2.1, h.2.2.1, h.2.2.2⟩

/-- `SortedTableMap.__getitem__` (map.py 235-240): locate `k` with
`_find_index`; `KeyError` (here `none`) when the index is out of range
or holds a different key. -/
def sGet (t : List (Nat × Nat)) (k : Nat) : Option Nat :=
  let j := findIndex t k 0 t.length
  if j = t.length ∨ keyD t j ≠ k then none else some (entryD t j).2

/-- `SortedTableMap.__setitem__` (map.py 242-248): overwrite the value
in place when the key is found, else `list.insert(j, item)` — i.e. the
first `j` items, the new item, then the rest. -/
def sSet (t : List (Nat × Nat)) (k v : Nat) : List (Nat × Nat) :=
  let j := findIndex t k 0 t.length
  if j < t.length ∧ keyD t j = k then t.set j (keyD t j, v)
  else t.take j ++ (k, v) :: t.drop j

/-- `SortedTableMap.__delitem__` (map.py 250-255): `list.pop(j)` on
success, `KeyError` (here `none`) otherwise. -/
def sDel (t : List (Nat × Nat)) (k : Nat) : Option (List (Nat × Nat)) :=
  let j := findIndex t k 0 t.length
  if j = t.length ∨ keyD t j ≠ k then none else some (t.eraseIdx j)

/-- `MapBase._Item.__eq__` (map.py 16-17) applied to a raw key: the body
`self.key == other.key` reads the attribute `key` of `other`; a plain
key (a Python int or str, here a `Nat`) has no such attribute, so the
comparison raises `AttributeError`.  `SortedTableMap.find_gt` is the one
call site that passes a raw key instead of an `_Item`. -/
def itemEqRawKey (_it : Nat × Nat) (_k : Nat) : Except Unit Bool :=
  Except.error ()

/-- `SortedTableMap.find_gt` (map.py 300-308).  The guard
`j < len(self._table) and self._table[j] == k` compares the `_Item` at
`j` against the raw key `k` via `_Item.__eq__`, so it raises
`AttributeError` (the `error` branch) whenever `j` is in range. -/
def sFindGt (t : List (Nat × Nat)) (k : Nat) : Except Unit (Option (Nat × Nat)) := do
  let j0 := findIndex t k 0 t.length
  let j ←
    if j0 < t.length then do
      let b ← itemEqRawKey (entryD t j0) k
      pure (if b then j0 + 1 else j0)
    else pure j0
  if j < t.length then pure (some (entryD t j)) else pure none

/-- `SortedTableMap.find_le` (map.py 289-298). -/
def sFindLe (t : List (Nat × Nat)) (k : Nat) : Option (Nat × Nat) :=
  let j := findIndex t k 0 t.length
  if 0 < j then
    if j < t.length ∧ keyD t j = k then some (entryD t j)
    else some (entryD t (j - 1))
  else none

/-- Bool form of `stop is None or self._table[j].key < stop`. -/
def stopOk (stop : Option Nat) (k : Nat) : Bool :=
  match stop with
  | none => true
  | some s => k < s

/-- Bool form of `start is None or start <= key` (used only to state
range correctness; the source realises it through `_find_index`). -/
def startOk (start : Option Nat) (k : Nat) : Bool :=
  match start with
  | none => true
  | some s => s ≤ k

/-- The `while` loop of `SortedTableMap.find_range` (map.py 328-330):
starting at index `j`, yield items while in range and below `stop`. -/
def sRangeLoop (t : List (Nat × Nat)) (stop : Option Nat) (j : Nat) :
    List (Nat × Nat) :=
  if h : j < t.length ∧ stopOk stop (keyD t j) then
    entryD t j :: sRangeLoop t stop (j + 1)
  else []
termination_by t.length - j
decreasing_by omega

/-- `SortedTableMap.find_range` (map.py 318-330). -/
def sFindRange (t : List (Nat × Nat)) (start stop : Option Nat) :
    List (Nat × Nat) :=
  let j :=
    match start with
    | none => 0
    | some s => findIndex t s 0 t.length
  sRangeLoop t stop j

/-- States of a `SortedTableMap` reachable from the empty constructor
through the map contract (`get` and failed deletes do not change the
state, so only successful `set`/`delete` steps appear). -/
inductive SortedReachable : List (Nat × Nat) → Prop where
  | init : SortedReachable []
  | set (t k v) : SortedReachable t → SortedReachable (sSet t k v)
  | del (t k t') : SortedReachable t → sDel t k = some t' → SortedReachable t'

/-! ### Index bookkeeping for the sorted table -/

theorem sortedKeys_of_keyD (t : List (Nat × Nat))
    (h : ∀ i j, i < j → j < t.length → keyD t i < keyD t j) : SortedKeys t := by
  rw [SortedKeys, List.pairwise_iff_getElem]
  intro i j hi hj hij
  have hj' : j < t.length := by simpa using hj
  have hi' : i < t.length := by simpa using hi
  have hk := h i j hij hj'
  simpa [keyD, entryD, List.getD_eq_getElem, List.getElem_map, hi', hj'] using hk

theorem length_sInsert (t : List (Nat × Nat)) (j k v : Nat) (hj : j ≤ t.length) :
    (t.take j ++ (k, v) :: t.drop j).length = t.length + 1 := by
  simp [List.length_take, List.length_drop]
  omega

theorem keyD_sInsert_lt (t : List (Nat × Nat)) (j k v i : Nat)
    (hi : i < j) (hj : j ≤ t.length) :
    keyD (t.take j ++ (k, v) :: t.drop j) i = keyD t i := by
  have hlen : i < (t.take j).length := by simp [List.length_take]; omega
  rw [keyD, entryD, List.getD_append _ _ _ _ hlen, List.getD_eq_getElem _ _ hlen,
    List.getElem_take]
  rw [keyD, entryD, List.getD_eq_getElem _ _ (by omega : i < t.length)]

theorem entryD_sInsert_self (t : List (Nat × Nat)) (j k v : Nat) (hj : j ≤ t.length) :
    entryD (t.take j ++ (k, v) :: t.drop j) j = (k, v) := by
  have hlen : (t.take j).length = j := by simp [List.length_take]; omega
  rw [entryD, List.getD_append_right _ _ _ _ (le_of_eq hlen), hlen]
  simp

theorem keyD_sInsert_gt (t : List (Nat × Nat)) (j k v i : Nat)
    (hij : j < i) (hj : j ≤ t.length) :
    keyD (t.take j ++ (k, v) :: t.drop j) i = keyD t (i - 1) := by
  have hlen : (t.take j).length = j := by simp [List.length_take]; omega
  rw [keyD, entryD, List.getD_append_right _ _ _ _ (by omega), hlen]
  have hpos : 0 < i - j := by omega
  rcases Nat.exists_eq_add_of_lt hij with ⟨m, hm⟩
  subst hm
  have hsub : j + m + 1 - j = m + 1 := by omega
  have hsub2 : j + m + 1 - 1 = j + m := by omega
  rw [hsub, hsub2]
  simp only [List.getD_cons_succ]
  by_cases hmlen : m < (t.drop j).length
  · have hjm : j + m < t.length := by simp [List.length_drop] at hmlen; omega
    rw [List.getD_eq_getElem _ _ hmlen, keyD, entryD, List.getD_eq_getElem _ _ hjm]
    simp [List.getElem_drop]
  · have hjm : ¬ j + m < t.length := by simp [List.length_drop] at hmlen; omega
    rw [List.getD_eq_default _ _ (by omega), keyD, entryD,
      List.getD_eq_default _ _ (by omega)]

theorem keyD_set_value (t : List (Nat × Nat)) (j v i : Nat) :
    keyD (t.set j (keyD t j, v)) i = keyD t i := by
  simp only [keyD, entryD]
  by_cases hi : i < t.length
  · rw [List.getD_eq_getElem _ _ (by simpa using hi), List.getD_eq_getElem _ _ hi,
      List.getElem_set]
    by_cases hij : j = i
    · subst hij
      simp [List.getD, List.getElem?_eq_getElem hi]
    · rw [if_neg hij]
  · rw [List.getD_eq_default _ _ (by simpa using not_lt.mp hi),
      List.getD_eq_default _ _ (not_lt.mp hi)]

theorem entryD_set_self (t : List (Nat × Nat)) (j : Nat) (e : Nat × Nat)
    (hj : j < t.length) : entryD (t.set j e) j = e := by
  rw [entryD, List.getD_eq_getElem _ _ (by simpa using hj), List.getElem_set_self]

theorem keyD_eraseIdx_lt (t : List (Nat × Nat)) (j i : Nat) (hi : i < j)
    (hj : j < t.length) : keyD (t.eraseIdx j) i = keyD t i := by
  rw [List.eraseIdx_eq_take_drop_succ]
  have hlen : i < (t.take j).length := by simp [List.length_take]; omega
  rw [keyD, entryD, List.getD_append _ _ _ _ hlen, List.getD_eq_getElem _ _ hlen,
    List.getElem_take, keyD, entryD, List.getD_eq_getElem _ _ (by omega : i < t.length)]

theorem keyD_eraseIdx_ge (t : List (Nat × Nat)) (j i : Nat) (hi : j ≤ i)
    (hj : j < t.length) : keyD (t.eraseIdx j) i = keyD t (i + 1) := by
  rw [List.eraseIdx_eq_take_drop_succ]
  have hlen : (t.take j).length = j := by simp [List.length_take]; omega
  rw [keyD, entryD, List.getD_append_right _ _ _ _ (by omega), hlen]
  by_cases hins : i - j < (t.drop (j + 1)).length
  · have hlt : i + 1 < t.length := by simp [List.length_drop] at hins; omega
    rw [List.getD_eq_getElem _ _ hins, keyD, entryD, List.getD_eq_getElem _ _ hlt]
    have := List.getElem_drop t (i := j + 1) (j := i - j) (h := hins)
    rw [this]
    congr 2
    omega
  · have hge : ¬ i + 1 < t.length := by simp [List.length_drop] at hins; omega
    rw [List.getD_eq_default _ _ (by omega), keyD, entryD,
      List.getD_eq_default _ _ (by omega)]

/-- `_find_index` is determined by the first-index-with-key-`≥ k`
property (used to recompute the index after a mutation). -/
theorem findIndex_eq_of_bracket (t : List (Nat × Nat)) (hs : SortedKeys t)
    (k j : Nat) (hj : j ≤ t.length)
    (h1 : ∀ i, i < j → keyD t i < k)
    (h2 : ∀ i, j ≤ i → i < t.length → k ≤ keyD t i) :
    findIndex t k 0 t.length = j := by
  have hspec := findIndex_spec t hs k
  rcases lt_trichotomy (findIndex t k 0 t.length) j with h | h | h
  · exact absurd (hspec.2.2 _ (le_refl _) (by omega)) (not_le.mpr (h1 _ h))
  · exact h
  · exact absurd (h2 _ (le_refl _) (by omega)) (not_le.mpr (hspec.2.1 _ h))

/-- In the insert branch of `__setitem__`, the keys at and after the
insertion point are strictly greater than `k`. -/
theorem keyD_gt_of_insert_branch (t : List (Nat × Nat)) (hs : SortedKeys t)
    (k : Nat) (hcase : ¬ (findIndex t k 0 t.length < t.length ∧
      keyD t (findIndex t k 0 t.length) = k)) :
    ∀ i, findIndex t k 0 t.length ≤ i → i < t.length → k < keyD t i := by
  set j := findIndex t k 0 t.length with hjdef
  intro i hi hil
  have hspec := findIndex_spec t hs k
  have hle := hspec.2.2 i hi hil
  rcases eq_or_lt_of_le hle with heq | hlt
  · exfalso
    have hjlen : j < t.length := lt_of_le_of_lt hi hil
    have hkj : k ≤ keyD t j := hspec.2.2 j (le_refl _) hjlen
    rcases eq_or_lt_of_le hi with hji | hji
    · refine hcase ⟨hjlen, ?_⟩
      rw [hji]
      exact heq.symm
    · exact absurd hkj (not_le.mpr (heq ▸ keyD_lt_keyD t hs j i hji hil))
  · exact hlt

theorem sortedKeys_sSet (t : List (Nat × Nat)) (k v : Nat)
    (hs : SortedKeys t) : SortedKeys (sSet t k v) := by
  rw [sSet]
  have hspec := findIndex_spec t hs k
  set j := findIndex t k 0 t.length with hjdef
  by_cases hcase : j < t.length ∧ keyD t j = k
  · rw [if_pos hcase]
    apply sortedKeys_of_keyD
    intro a b hab hb
    rw [keyD_set_value, keyD_set_value]
    exact keyD_lt_keyD t hs a b hab (by simpa using hb)
  · rw [if_neg hcase]
    have hjlen : j ≤ t.length := hspec.1
    have hstrict := keyD_gt_of_insert_branch t hs k hcase
    apply sortedKeys_of_keyD
    intro a b hab hb
    rw [length_sInsert t j k v hjlen] at hb
    rcases lt_trichotomy b j with hbj | hbj | hbj
    · rw [keyD_sInsert_lt t j k v b hbj hjlen, keyD_sInsert_lt t j k v a (by omega) hjlen]
      exact keyD_lt_keyD t hs a b hab (by omega)
    · have hb' : keyD (t.take j ++ (k, v) :: t.drop j) j = k := by
        rw [keyD, entryD_sInsert_self t j k v hjlen]
      rw [hbj, hb', keyD_sInsert_lt t j k v a (by omega) hjlen]
      exact hspec.2.1 a (by omega)
    · have hbk : k < keyD (t.take j ++ (k, v) :: t.drop j) b := by
        rw [keyD_sInsert_gt t j k v b hbj hjlen]
        exact hstrict (b - 1) (by omega) (by omega)
      rcases lt_trichotomy a j with haj | haj | haj
      · rw [keyD_sInsert_lt t j k v a haj hjlen]
        exact lt_trans (hspec.2.1 a haj) hbk
      · have ha' : keyD (t.take j ++ (k, v) :: t.drop j) j = k := by
          rw [keyD, entryD_sInsert_self t j k v hjlen]
        rw [haj, ha']
        exact hbk
      · rw [keyD_sInsert_gt t j k v a haj hjlen, keyD_sInsert_gt t j k v b hbj hjlen]
        exact keyD_lt_keyD t hs (a - 1) (b - 1) (by omega) (by omega)

theorem sortedKeys_sDel (t : List (Nat × Nat)) (k : Nat) (t' : List (Nat × Nat))
    (hs : SortedKeys t) (hdel : sDel t k = some t') : SortedKeys t' := by
  rw [sDel] at hdel
  by_cases hcase : findIndex t k 0 t.length = t.length ∨
      keyD t (findIndex t k 0 t.length) ≠ k
  · rw [if_pos hcase] at hdel
    exact absurd hdel (by simp)
  · rw [if_neg hcase] at hdel
    push_neg at hcase
    have hjlen : findIndex t k 0 t.length < t.length :=
      lt_of_le_of_ne (findIndex_spec t hs k).1 hcase.1
    set j := findIndex t k 0 t.length with hjdef
    have ht' : t' = t.eraseIdx j := (Option.some_inj.mp hdel).symm
    subst ht'
    apply sortedKeys_of_keyD
    intro a b hab hb
    rw [List.length_eraseIdx, if_pos hjlen] at hb
    rcases lt_trichotomy b j with hbj | hbj | hbj
    · rw [keyD_eraseIdx_lt t j b hbj hjlen, keyD_eraseIdx_lt t j a (by omega) hjlen]
      exact keyD_lt_keyD t hs a b hab (by omega)
    · rw [hbj, keyD_eraseIdx_ge t j j (le_refl _) hjlen,
        keyD_eraseIdx_lt t j a (by omega) hjlen]
      exact keyD_lt_keyD t hs a (j + 1) (by omega) (by omega)
    · rw [keyD_eraseIdx_ge t j b (by omega) hjlen]
      rcases lt_or_ge a j with haj | haj
      · rw [keyD_eraseIdx_lt t j a haj hjlen]
        exact keyD_lt_keyD t hs a (b + 1) (by omega) (by omega)
      · rw [keyD_eraseIdx_ge t j a haj hjlen]
        exact keyD_lt_keyD t hs (a + 1) (b + 1) (by omega) (by omega)

/-- Every reachable `SortedTableMap` state satisfies the sorted-table
invariant. -/
theorem sortedReachable_sorted (t : List (Nat × Nat))
    (h : SortedReachable t) : SortedKeys t := by
  induction h with
  | init => simp [SortedKeys]
  | set t k v _ ih => exact sortedKeys_sSet t k v ih
  | del t k t' _ hdel ih => exact sortedKeys_sDel t k t' ih hdel

/-- If index `j` of a sorted table carries key `k`, then `__getitem__ k`
returns the value stored there. -/
theorem sGet_of_keyAt (t : List (Nat × Nat)) (hs : SortedKeys t) (k j : Nat)
    (hj : j < t.length) (hkey : keyD t j = k) :
    sGet t k = some (entryD t j).2 := by
  have hfind : findIndex t k 0 t.length = j := by
    apply findIndex_eq_of_bracket t hs k j (le_of_lt hj)
    · intro i hi
      exact hkey ▸ keyD_lt_keyD t hs i j hi hj
    · intro i hi hil
      rcases eq_or_lt_of_le hi with hji | hji
      · exact le_of_eq (by rw [← hji, hkey])
      · exact le_of_lt (hkey ▸ keyD_lt_keyD t hs j i hji hil)
  simp only [sGet, hfind]
  rw [if_neg]
  push_neg
  exact ⟨Nat.ne_of_lt hj, hkey⟩

/-- Round trip for `SortedTableMap`: `get` after `set` of the same key
returns the value just written. -/
theorem sGet_sSet_self (t : List (Nat × Nat)) (k v : Nat) (hs : SortedKeys t) :
    sGet (sSet t k v) k = some v := by
  have hs' := sortedKeys_sSet t k v hs
  have hspec := findIndex_spec t hs k
  rw [sSet] at hs' ⊢
  set j := findIndex t k 0 t.length with hjdef
  by_cases hcase : j < t.length ∧ keyD t j = k
  · rw [if_pos hcase] at hs' ⊢
    have hj' : j < (t.set j (keyD t j, v)).length := by
      rw [List.length_set]; exact hcase.1
    have hkey : keyD (t.set j (keyD t j, v)) j = k := by
      rw [keyD_set_value]; exact hcase.2
    rw [sGet_of_keyAt _ hs' k j hj' hkey, entryD_set_self t j _ hcase.1]
  · rw [if_neg hcase] at hs' ⊢
    have hjlen : j ≤ t.length := hspec.1
    have hj' : j < (t.take j ++ (k, v) :: t.drop j).length := by
      rw [length_sInsert t j k v hjlen]; omega
    have hkey : keyD (t.take j ++ (k, v) :: t.drop j) j = k := by
      rw [keyD, entryD_sInsert_self t j k v hjlen]
    rw [sGet_of_keyAt _ hs' k j hj' hkey, entryD_sInsert_self t j k v hjlen]

/-- For a sorted table, a successful `get` is exactly membership of the
pair in the table. -/
theorem sGet_eq_some_iff (t : List (Nat × Nat)) (hs : SortedKeys t) (k v : Nat) :
    sGet t k = some v ↔ (k, v) ∈ t := by
  constructor
  · intro h
    by_cases hcase : findIndex t k 0 t.length = t.length ∨
        keyD t (findIndex t k 0 t.length) ≠ k
    · simp only [sGet, if_pos hcase] at h
      exact absurd h (by simp)
    · simp only [sGet, if_neg hcase] at h
      push_neg at hcase
      have hjlen : findIndex t k 0 t.length < t.length :=
        lt_of_le_of_ne (findIndex_spec t hs k).1 hcase.1
      have hv : (entryD t (findIndex t k 0 t.length)).2 = v := Option.some_inj.mp h
      have hfull : entryD t (findIndex t k 0 t.length) = (k, v) :=
        Prod.ext_iff.mpr ⟨hcase.2, hv⟩
      rw [← hfull, entryD, List.getD_eq_getElem _ _ hjlen]
      exact List.getElem_mem hjlen
  · intro h
    rcases List.mem_iff_getElem.mp h with ⟨i, hi, hti⟩
    have hkey : keyD t i = k := by
      rw [keyD, entryD, List.getD_eq_getElem _ _ hi, hti]
    rw [sGet_of_keyAt t hs k i hi hkey, entryD, List.getD_eq_getElem _ _ hi, hti]

theorem stopOk_mono (stop : Option Nat) (a b : Nat) (hab : a ≤ b)
    (h : stopOk stop b) : stopOk stop a := by
  cases stop with
  | none => rfl
  | some s =>
    simp [stopOk] at h ⊢
    omega

/-- The range loop is a `takeWhile` over the tail of the table. -/
theorem sRangeLoop_eq_takeWhile (t : List (Nat × Nat)) (stop : Option Nat)
    (j : Nat) :
    sRangeLoop t stop j = (t.drop j).takeWhile (fun e => stopOk stop e.1) := by
  rw [sRangeLoop]
  by_cases h : j < t.length ∧ stopOk stop (keyD t j)
  · rw [dif_pos h]
    have hdrop : t.drop j = t[j] :: t.drop (j + 1) := List.drop_eq_getElem_cons h.1
    have hkey : entryD t j = t[j] := by
      rw [entryD, List.getD_eq_getElem _ _ h.1]
    rw [hdrop, List.takeWhile_cons]
    have hj1 : j < t.length := h.1
    have hok : stopOk stop (t[j]).1 = true := by
      have := h.2
      rw [keyD, hkey] at this
      exact this
    rw [if_pos hok, sRangeLoop_eq_takeWhile t stop (j + 1), hkey]
  · rw [dif_neg h]
    by_cases hj : j < t.length
    · have hstop : ¬ stopOk stop (keyD t j) := fun hc => h ⟨hj, hc⟩
      have hdrop : t.drop j = t[j] :: t.drop (j + 1) := List.drop_eq_getElem_cons hj
      rw [hdrop, List.takeWhile_cons, if_neg]
      have hkey : entryD t j = t[j] := by
        rw [entryD, List.getD_eq_getElem _ _ hj]
      rw [keyD, hkey] at hstop
      exact hstop
    · rw [List.drop_eq_nil_of_le (le_of_not_lt hj)]
      rfl
termination_by t.length - j
decreasing_by omega

/-- On a sorted table, keys below `stop` form an initial segment, so the
loop's `takeWhile` collects exactly the matching items. -/
theorem takeWhile_eq_filter_sorted (t : List (Nat × Nat)) (hs : SortedKeys t)
    (p : Nat → Bool) (hp : ∀ a b, a ≤ b → p b = true → p a = true) :
    t.takeWhile (fun e => p e.1) = t.filter (fun e => p e.1) := by
  induction t with
  | nil => rfl
  | cons it rest ih =>
    rw [SortedKeys, List.map_cons, List.pairwise_cons] at hs
    by_cases h : p it.1 = true
    · rw [List.takeWhile_cons, if_pos h, List.filter_cons_of_pos (by simpa using h),
        ih hs.2]
    · rw [List.takeWhile_cons, if_neg (by simpa using h), List.filter_cons_of_neg
        (by simpa using h)]
      symm
      rw [List.filter_eq_nil_iff]
      intro e he hpe
      have hlt : it.1 < e.1 := hs.1 e.1 (List.mem_map_of_mem Prod.fst he)
      exact h (hp it.1 e.1 (le_of_lt hlt) (by simpa using hpe))

theorem keyD_eq_getElem (t : List (Nat × Nat)) (i : Nat) (h : i < t.length) :
    keyD t i = (t[i]).1 := by
  rw [keyD, entryD, List.getD_eq_getElem _ _ h]

theorem sortedKeys_drop (t : List (Nat × Nat)) (hs : SortedKeys t) (j : Nat) :
    SortedKeys (t.drop j) := by
  rw [SortedKeys, List.map_drop]
  exact (hs.sublist (List.drop_sublist _ _))

/-- `find_range` on a sorted table yields exactly the items whose key is
in `[start, stop)` (with `None` bounds meaning unbounded), in table
order. -/
theorem sFindRange_eq_filter (t : List (Nat × Nat)) (hs : SortedKeys t)
    (start stop : Option Nat) :
    sFindRange t start stop =
      t.filter (fun e => startOk start e.1 && stopOk stop e.1) := by
  cases start with
  | none =>
    simp only [sFindRange]
    rw [sRangeLoop_eq_takeWhile, List.drop_zero,
      takeWhile_eq_filter_sorted t hs _ (stopOk_mono stop)]
    apply List.filter_congr
    intro e _
    simp [startOk]
  | some s =>
    simp only [sFindRange]
    have hspec := findIndex_spec t hs s
    set j := findIndex t s 0 t.length with hjdef
    rw [sRangeLoop_eq_takeWhile,
      takeWhile_eq_filter_sorted (t.drop j) (sortedKeys_drop t hs j) _ (stopOk_mono stop)]
    conv_rhs => rw [← List.take_append_drop j t]
    rw [List.filter_append]
    have h1 : (t.take j).filter (fun e => startOk (some s) e.1 && stopOk stop e.1)
        = [] := by
      rw [List.filter_eq_nil_iff]
      intro e he
      rcases List.mem_iff_getElem.mp he with ⟨i, hi, hei⟩
      have hij : i < j := by
        have := hi
        simp [List.length_take] at this
        omega
      have hilen : i < t.length := by
        have := hi
        simp [List.length_take] at this
        omega
      have hkey : e.1 < s := by
        have hks := hspec.2.1 i hij
        rw [keyD_eq_getElem t i hilen] at hks
        rw [← hei, List.getElem_take]
        exact hks
      simp [startOk, stopOk]
      intro hst
      omega
    have h2 : (t.drop j).filter (fun e => startOk (some s) e.1 && stopOk stop e.1)
        = (t.drop j).filter (fun e => stopOk stop e.1) := by
      apply List.filter_congr
      intro e he
      rcases List.mem_iff_getElem.mp he with ⟨i, hi, hei⟩
      have hlen : j + i < t.length := by
        have := hi
        simp [List.length_drop] at this
        omega
      have hge : s ≤ e.1 := by
        have hks := hspec.2.2 (j + i) (Nat.le_add_right _ _) hlen
        rw [keyD_eq_getElem t _ hlen] at hks
        rw [← hei, List.getElem_drop]
        exact hks
      simp [startOk, hge]
    rw [h1, h2]
    simp

/-! ## HashMapBase and ProbeHashMap (src/ch10/map.py, lines 69-202)

`HashMapBase.__init__` draws the MAD parameters `_prime`, `_scale`,
`_shift` once; they are fixed for the container's lifetime (also across
resizes).  All operations below take the composed function
`hf k = (scale * hash(k) + shift) % prime` as a parameter; the bucket
index of `_hash_function` (lines 80-82) is then `hf k % capacity`. -/

/-- One cell of `ProbeHashMap._table`: `None`, the `_AVAIL` tombstone
sentinel, or an `_Item`. -/
inductive PSlot where
  | empty
  | avail
  | item (k v : Nat)
  deriving DecidableEq, Repr

/-- State of a `ProbeHashMap`: the slot array and the live counter `_n`. -/
structure ProbeMap where
  table : List PSlot
  n : Nat
  deriving DecidableEq, Repr

/-- `ProbeHashMap._find_slot` (map.py 162-177), one fuel unit per
iteration of the `while True` loop; `fa` is `first_avail`.  The loop
does not terminate when no slot is `None` and the key is absent, which
the embedding renders as `none` for every amount of fuel. -/
def findSlot (t : List PSlot) (k : Nat) : Nat → Nat → Option Nat → Option (Bool × Nat)
  | 0, _, _ => none
  | fuel + 1, j, fa =>
    match t.getD j PSlot.empty with
    | PSlot.empty => some (false, fa.getD j)
    | PSlot.avail => findSlot t k fuel ((j + 1) % t.length) (some (fa.getD j))
    | PSlot.item k2 _ =>
      if k = k2 then some (true, j)
      else findSlot t k fuel ((j + 1) % t.length) fa

/-- `ProbeHashMap._bucket_getitem` (map.py 179-183).  A `found` result
always points at an `item` slot (proved below), so the final match arm
is unreachable. -/
def bucketGet (m : ProbeMap) (j k : Nat) : Res Nat :=
  match findSlot m.table k m.table.length j none with
  | none => Res.div
  | some (false, _) => Res.err
  | some (true, s) =>
    match m.table.getD s PSlot.empty with
    | PSlot.item _ v => Res.ok v
    | _ => Res.err

/-- `ProbeHashMap._bucket_setitem` (map.py 185-191).  On `found` the
source writes `self._table[s].value = v`; the slot's key is `k` there,
so the embedding stores `item k v` in both branches. -/
def bucketSet (m : ProbeMap) (j k v : Nat) : Option ProbeMap :=
  match findSlot m.table k m.table.length j none with
  | none => none
  | some (false, s) => some ⟨m.table.set s (PSlot.item k v), m.n + 1⟩
  | some (true, s) => some ⟨m.table.set s (PSlot.item k v), m.n⟩

/-- `ProbeHashMap._bucket_delitem` (map.py 193-197): tombstone the slot. -/
def bucketDel (m : ProbeMap) (j k : Nat) : Res ProbeMap :=
  match findSlot m.table k m.table.length j none with
  | none => Res.div
  | some (false, _) => Res.err
  | some (true, s) => Res.ok ⟨m.table.set s PSlot.avail, m.n⟩

/-- `HashMapBase.__getitem__` (map.py 99-101) for the probing variant. -/
def probeGet (hf : Nat → Nat) (m : ProbeMap) (k : Nat) : Res Nat :=
  bucketGet m (hf k % m.table.length) k

/-- `HashMapBase.__delitem__` (map.py 109-112) for the probing variant:
bucket delete, then `self._n -= 1`. -/
def probeDel (hf : Nat → Nat) (m : ProbeMap) (k : Nat) : Res ProbeMap :=
  match bucketDel m (hf k % m.table.length) k with
  | Res.div => Res.div
  | Res.err => Res.err
  | Res.ok m2 => Res.ok ⟨m2.table, m2.n - 1⟩

/-- `ProbeHashMap.__iter__` (map.py 199-202): keys of the non-available
slots, in slot order. -/
def probeKeys (t : List PSlot) : List Nat :=
  t.filterMap (fun s =>
    match s with
    | PSlot.item k _ => some k
    | _ => none)

/-- The `(key, value)` pairs held by the table in slot order.
`HashMapBase._resize` snapshots `list(self.items())`; on every state
satisfying the probe invariant the `MutableMapping.items()` mixin
(iterate keys, look each one up) yields exactly the item stored in each
non-available slot, which is this list. -/
def probeItems (t : List PSlot) : List (Nat × Nat) :=
  t.filterMap (fun s =>
    match s with
    | PSlot.item k v => some (k, v)
    | _ => none)

/-- The reinsertion loop of `_resize` (`for k, v in old: self[k] = v`,
map.py 119-120), abstracted over the `__setitem__` implementation so
that `probeSetAux` below stays structurally recursive on the resize
depth. -/
def reinsertWith {σ : Type} (step : σ → Nat → Nat → Option σ) :
    List (Nat × Nat) → σ → Option σ
  | [], m => some m
  | (k, v) :: rest, m =>
    match step m k v with
    | none => none
    | some m2 => reinsertWith step rest m2

/-- `HashMapBase.__setitem__` (map.py 103-107) for the probing variant,
with `HashMapBase._resize` (114-120) inlined: snapshot the items,
reallocate at `2 * capacity - 1`, reinsert through `__setitem__`.
`rfuel` bounds the depth of nested `_resize` calls; `none` means the
call does not complete within that depth (on reachable states depth 2
always suffices, and a diverging `_find_slot` yields `none` for every
depth). -/
def probeSetAux (hf : Nat → Nat) : Nat → ProbeMap → Nat → Nat → Option ProbeMap
  | 0, _, _, _ => none
  | rfuel + 1, m, k, v =>
    match bucketSet m (hf k % m.table.length) k v with
    | none => none
    | some m2 =>
      if m2.n > m2.table.length / 2 then
        reinsertWith (fun mm kk vv => probeSetAux hf rfuel mm kk vv)
          (probeItems m2.table)
          ⟨List.replicate (2 * m2.table.length - 1) PSlot.empty, 0⟩
      else some m2

/-- States of a `ProbeHashMap` with hash parameters `hf`, reachable from
the constructor (`cap=11`, map.py 72) through the map contract. -/
inductive ProbeReachable (hf : Nat → Nat) : ProbeMap → Prop where
  | init : ProbeReachable hf ⟨List.replicate 11 PSlot.empty, 0⟩
  | set (m k v f m') : ProbeReachable hf m → probeSetAux hf f m k v = some m' →
      ProbeReachable hf m'
  | del (m k m') : ProbeReachable hf m → probeDel hf m k = Res.ok m' →
      ProbeReachable hf m'

/-! ### Probe-sequence arithmetic -/

/-- `(s + len - home) % len` is the number of probe steps from `home`
to `s`; stepping that far from `home` lands on `s`. -/
theorem mod_cycle (home s len : Nat) (hh : home < len) (hs : s < len) :
    (home + (s + len - home) % len) % len = s := by
  rw [Nat.add_mod_mod]
  have h2 : home + (s + len - home) = s + len := by omega
  rw [h2, Nat.add_mod_right]
  exact Nat.mod_eq_of_lt hs

/-- Within one lap of the table, distinct step counts land on distinct
slots. -/
theorem walkpos_inj (home i j len : Nat) (hi : i < len) (hj : j < len)
    (h : (home + i) % len = (home + j) % len) : i = j := by
  rcases le_total i j with hij | hij
  · have hdvd : len ∣ (home + j) - (home + i) :=
      (Nat.modEq_iff_dvd' (by omega)).mp h
    have hsub : (home + j) - (home + i) = j - i := by omega
    rw [hsub] at hdvd
    have := Nat.eq_zero_of_dvd_of_lt hdvd
    omega
  · have hdvd : len ∣ (home + i) - (home + j) :=
      (Nat.modEq_iff_dvd' (by omega)).mp h.symm
    have hsub : (home + i) - (home + j) = i - j := by omega
    rw [hsub] at hdvd
    have := Nat.eq_zero_of_dvd_of_lt hdvd
    omega

/-! ### Behaviour of `_find_slot` -/

/-- A `found` answer always points at an `item` slot holding the sought
key. -/
theorem findSlot_true_item (t : List PSlot) (k : Nat) :
    ∀ fuel j fa s, findSlot t k fuel j fa = some (true, s) →
      ∃ v, t.getD s PSlot.empty = PSlot.item k v := by
  intro fuel
  induction fuel with
  | zero =>
    intro j fa s h
    exact absurd h (by simp [findSlot])
  | succ fuel ih =>
    intro j fa s h
    rw [findSlot] at h
    split at h
    · simp at h
    · exact ih _ _ _ h
    · rename_i k2 v2 hslot
      by_cases hk : k = k2
      · rw [if_pos hk] at h
        simp at h
        refine ⟨v2, ?_⟩
        rw [← h, hslot, hk]
      · rw [if_neg hk] at h
        exact ih _ _ _ h

/-- An `available` (not-found) answer always points at an empty or
tombstone slot (given that the accumulated `first_avail` does). -/
theorem findSlot_false_avail (t : List PSlot) (k : Nat) :
    ∀ fuel j fa s, j < t.length →
      (∀ x, fa = some x →
        t.getD x PSlot.empty = PSlot.empty ∨ t.getD x PSlot.empty = PSlot.avail) →
      findSlot t k fuel j fa = some (false, s) →
      t.getD s PSlot.empty = PSlot.empty ∨ t.getD s PSlot.empty = PSlot.avail := by
  intro fuel
  induction fuel with
  | zero =>
    intro j fa s _ _ h
    exact absurd h (by simp [findSlot])
  | succ fuel ih =>
    intro j fa s hj hfa h
    rw [findSlot] at h
    split at h
    · rename_i hslot
      simp at h
      cases hfac : fa with
      | none =>
        rw [hfac] at h
        simp at h
        rw [← h]
        exact Or.inl hslot
      | some x =>
        rw [hfac] at h
        simp at h
        rw [← h]
        exact hfa x hfac
    · rename_i hslot
      refine ih _ _ _ (Nat.mod_lt _ (by omega)) ?_ h
      intro x hx
      cases hfac : fa with
      | none =>
        rw [hfac] at hx
        simp at hx
        rw [← hx]
        exact Or.inr hslot
      | some y =>
        rw [hfac] at hx
        simp at hx
        rw [← hx]
        exact hfa y hfac
    · rename_i k2 v2 hslot
      by_cases hk : k = k2
      · rw [if_pos hk] at h
        simp at h
      · rw [if_neg hk] at h
        exact ih _ _ _ (Nat.mod_lt _ (by omega)) hfa h

/-- If the probe loop runs out of fuel, none of the visited slots was
empty. -/
theorem findSlot_none_no_empty (t : List PSlot) (k : Nat) :
    ∀ fuel j fa, j < t.length → findSlot t k fuel j fa = none →
      ∀ i, i < fuel → t.getD ((j + i) % t.length) PSlot.empty ≠ PSlot.empty := by
  intro fuel
  induction fuel with
  | zero =>
    intro j fa _ _ i hi
    omega
  | succ fuel ih =>
    intro j fa hj h i hi
    rw [findSlot] at h
    split at h
    · simp at h
    · rename_i hslot
      rcases Nat.eq_zero_or_pos i with hi0 | hipos
      · subst hi0
        rw [Nat.add_zero, Nat.mod_eq_of_lt hj, hslot]
        simp
      · have hstep : ((j + 1) % t.length + (i - 1)) % t.length = (j + i) % t.length := by
          rw [Nat.mod_add_mod]
          congr 1
          omega
        have := ih _ _ (Nat.mod_lt _ (by omega)) h (i - 1) (by omega)
        rw [hstep] at this
        exact this
    · rename_i k2 v2 hslot
      by_cases hk : k = k2
      · rw [if_pos hk] at h
        simp at h
      · rw [if_neg hk] at h
        rcases Nat.eq_zero_or_pos i with hi0 | hipos
        · subst hi0
          rw [Nat.add_zero, Nat.mod_eq_of_lt hj, hslot]
          simp
        · have hstep : ((j + 1) % t.length + (i - 1)) % t.length = (j + i) % t.length := by
            rw [Nat.mod_add_mod]
            congr 1
            omega
          have := ih _ _ (Nat.mod_lt _ (by omega)) h (i - 1) (by omega)
          rw [hstep] at this
          exact this

/-- A full-table amount of fuel suffices whenever the table still has a
truly empty slot: the probe loop terminates. -/
theorem findSlot_total (t : List PSlot) (k j : Nat) (hj : j < t.length)
    (e : Nat) (he : e < t.length) (hemp : t.getD e PSlot.empty = PSlot.empty)
    (fa : Option Nat) : findSlot t k t.length j fa ≠ none := by
  intro h
  have hi := findSlot_none_no_empty t k t.length j fa hj h
    ((e + t.length - j) % t.length) (Nat.mod_lt _ (by omega))
  rw [mod_cycle j e t.length hj he] at hi
  exact hi hemp

theorem findSlot_empty_step (t : List PSlot) (k fuel j : Nat) (fa : Option Nat)
    (h : t.getD j PSlot.empty = PSlot.empty) :
    findSlot t k (fuel + 1) j fa = some (false, fa.getD j) := by
  rw [findSlot, h]

theorem findSlot_avail_step (t : List PSlot) (k fuel j : Nat) (fa : Option Nat)
    (h : t.getD j PSlot.empty = PSlot.avail) :
    findSlot t k (fuel + 1) j fa =
      findSlot t k fuel ((j + 1) % t.length) (some (fa.getD j)) := by
  rw [findSlot, h]

theorem findSlot_item_step (t : List PSlot) (k fuel j : Nat) (fa : Option Nat)
    (k2 v2 : Nat) (h : t.getD j PSlot.empty = PSlot.item k2 v2) :
    findSlot t k (fuel + 1) j fa =
      if k = k2 then some (true, j)
      else findSlot t k fuel ((j + 1) % t.length) fa := by
  rw [findSlot, h]

/-- If key `k` sits in slot `s` and every chain slot before it is
non-empty and holds no item with key `k`, the probe loop starting `p`
steps into the chain reports `found` at `s`. -/
theorem findSlot_reaches (t : List PSlot) (k home s d : Nat)
    (hlen : 0 < t.length) (hhome : home < t.length)
    (hsd : s = (home + d) % t.length) (hd : d < t.length)
    (hnonempty : ∀ i, i < d →
      t.getD ((home + i) % t.length) PSlot.empty ≠ PSlot.empty)
    (hnotk : ∀ i, i < d → ∀ v2,
      t.getD ((home + i) % t.length) PSlot.empty ≠ PSlot.item k v2)
    (hitem : ∃ v, t.getD s PSlot.empty = PSlot.item k v) :
    ∀ fuel p fa, p ≤ d → d - p < fuel →
      findSlot t k fuel ((home + p) % t.length) fa = some (true, s) := by
  intro fuel
  induction fuel with
  | zero =>
    intro p fa hp hfl
    omega
  | succ fuel ih =>
    intro p fa hp hfl
    rcases eq_or_lt_of_le hp with hpd | hpd
    · rcases hitem with ⟨v, hv⟩
      have hv2 : t.getD ((home + p) % t.length) PSlot.empty = PSlot.item k v := by
        rw [hpd, ← hsd]
        exact hv
      rw [findSlot_item_step t k fuel _ fa k v hv2, if_pos rfl, hpd, ← hsd]
    · have hne := hnonempty p hpd
      cases hslot : t.getD ((home + p) % t.length) PSlot.empty with
      | empty => exact absurd hslot hne
      | avail =>
        rw [findSlot_avail_step t k fuel _ fa hslot, Nat.mod_add_mod]
        exact ih (p + 1) _ (by omega) (by omega)
      | item k2 v2 =>
        have hk2 : ¬ k = k2 := by
          intro he
          exact hnotk p hpd v2 (by rw [← he] at hslot; exact hslot)
        rw [findSlot_item_step t k fuel _ fa k2 v2 hslot, if_neg hk2, Nat.mod_add_mod]
        exact ih (p + 1) fa (by omega) (by omega)

/-- Walk analysis of a not-found probe: the resulting slot lies on the
probe chain, with no empty slot strictly before it. -/
theorem findSlot_false_spec (t : List PSlot) (k home : Nat)
    (hlen : 0 < t.length) (hhome : home < t.length) :
    ∀ fuel p fa s,
      p + fuel ≤ t.length →
      (∀ i, i < p → t.getD ((home + i) % t.length) PSlot.empty ≠ PSlot.empty) →
      (∀ x, fa = some x → ∃ pa, pa < p ∧ x = (home + pa) % t.length) →
      findSlot t k fuel ((home + p) % t.length) fa = some (false, s) →
      ∃ ps, ps < t.length ∧ s = (home + ps) % t.length ∧
        (∀ i, i < ps → t.getD ((home + i) % t.length) PSlot.empty ≠ PSlot.empty) := by
  intro fuel
  induction fuel with
  | zero =>
    intro p fa s _ _ _ h
    exact absurd h (by simp [findSlot])
  | succ fuel ih =>
    intro p fa s hple hvis hfa h
    cases hslot : t.getD ((home + p) % t.length) PSlot.empty with
    | empty =>
      rw [findSlot_empty_step t k fuel _ fa hslot] at h
      simp at h
      cases hfac : fa with
      | none =>
        rw [hfac] at h
        simp at h
        exact ⟨p, by omega, h.symm, hvis⟩
      | some x =>
        rw [hfac] at h
        simp at h
        rcases hfa x hfac with ⟨pa, hpa, hx⟩
        refine ⟨pa, by omega, by rw [← h, hx], fun i hi => hvis i (by omega)⟩
    | avail =>
      rw [findSlot_avail_step t k fuel _ fa hslot, Nat.mod_add_mod] at h
      refine ih (p + 1) _ s (by omega) ?_ ?_ h
      · intro i hi
        rcases Nat.lt_succ_iff_lt_or_eq.mp hi with hi | hi
        · exact hvis i hi
        · rw [hi, hslot]
          simp
      · intro x hx
        cases hfac : fa with
        | none =>
          rw [hfac] at hx
          simp at hx
          exact ⟨p, by omega, hx.symm⟩
        | some y =>
          rw [hfac] at hx
          simp at hx
          rcases hfa y hfac with ⟨pa, hpa, hy⟩
          exact ⟨pa, by omega, by rw [← hx, hy]⟩
    | item k2 v2 =>
      rw [findSlot_item_step t k fuel _ fa k2 v2 hslot] at h
      by_cases hk : k = k2
      · rw [if_pos hk] at h
        simp at h
      · rw [if_neg hk, Nat.mod_add_mod] at h
        refine ih (p + 1) fa s (by omega) ?_ ?_ h
        · intro i hi
          rcases Nat.lt_succ_iff_lt_or_eq.mp hi with hi | hi
          · exact hvis i hi
          · rw [hi, hslot]
            simp
        · intro x hx
          rcases hfa x hx with ⟨pa, hpa, hxx⟩
          exact ⟨pa, by omega, hxx⟩

/-! ### The probe-table invariant -/

/-- Probe-chain invariant for one live key (spec section 3): no slot
strictly between the key's home slot and its slot (in probe order) is
`None`. -/
def ChainOK (hf : Nat → Nat) (t : List PSlot) (k s : Nat) : Prop :=
  ∀ i, i < (s + t.length - hf k % t.length) % t.length →
    t.getD ((hf k % t.length + i) % t.length) PSlot.empty ≠ PSlot.empty

/-- Well-formedness of a probe-map state: the capacity never shrinks
below the constructor's 11, `_n` counts the item slots, the load factor
stays at most one half, live keys are pairwise distinct, and every item
slot is reachable from its home slot. -/
structure ProbeWF (hf : Nat → Nat) (m : ProbeMap) : Prop where
  csize : 11 ≤ m.table.length
  count : m.n = (probeKeys m.table).length
  load : 2 * m.n ≤ m.table.length
  nodup : (probeKeys m.table).Nodup
  chain : ∀ s, s < m.table.length → ∀ k v,
    m.table.getD s PSlot.empty = PSlot.item k v → ChainOK hf m.table k s

/-- Keys contributed by a single slot. -/
def slotKeys (x : PSlot) : List Nat :=
  match x with
  | PSlot.item k _ => [k]
  | _ => []

theorem probeKeys_append (t1 t2 : List PSlot) :
    probeKeys (t1 ++ t2) = probeKeys t1 ++ probeKeys t2 :=
  List.filterMap_append ..

theorem probeKeys_cons (x : PSlot) (l : List PSlot) :
    probeKeys (x :: l) = slotKeys x ++ probeKeys l := by
  cases x <;> simp [probeKeys, slotKeys, List.filterMap_cons]

theorem getD_drop_pslot (l : List PSlot) (nn i : Nat) (h : nn + i < l.length) :
    (l.drop nn).getD i PSlot.empty = l.getD (nn + i) PSlot.empty := by
  have hi : i < (l.drop nn).length := by simp [List.length_drop]; omega
  rw [List.getD_eq_getElem _ _ hi, List.getD_eq_getElem _ _ h, List.getElem_drop]

theorem getD_take_pslot (l : List PSlot) (nn i : Nat) (h : i < nn)
    (hlen : i < l.length) :
    (l.take nn).getD i PSlot.empty = l.getD i PSlot.empty := by
  have hi : i < (l.take nn).length := by simp [List.length_take]; omega
  rw [List.getD_eq_getElem _ _ hi, List.getD_eq_getElem _ _ hlen, List.getElem_take]

theorem probeKeys_decomp (t : List PSlot) (s : Nat) (hs : s < t.length) :
    probeKeys t = probeKeys (t.take s) ++
      (slotKeys (t.getD s PSlot.empty) ++ probeKeys (t.drop (s + 1))) := by
  conv_lhs => rw [← List.take_append_drop s t, List.drop_eq_getElem_cons hs]
  rw [probeKeys_append, probeKeys_cons]
  congr 2
  rw [List.getD_eq_getElem _ _ hs]

theorem probeKeys_set_decomp (t : List PSlot) (s : Nat) (hs : s < t.length)
    (x : PSlot) :
    probeKeys (t.set s x) = probeKeys (t.take s) ++
      (slotKeys x ++ probeKeys (t.drop (s + 1))) := by
  rw [List.set_eq_take_append_cons_drop, if_pos hs, probeKeys_append, probeKeys_cons]

theorem getD_set_self_pslot (t : List PSlot) (s : Nat) (x : PSlot)
    (hs : s < t.length) : (t.set s x).getD s PSlot.empty = x := by
  rw [List.getD_eq_getElem _ _ (by simpa using hs), List.getElem_set_self]

theorem getD_set_ne_pslot (t : List PSlot) (s i : Nat) (x : PSlot)
    (hne : s ≠ i) : (t.set s x).getD i PSlot.empty = t.getD i PSlot.empty := by
  by_cases hi : i < t.length
  · rw [List.getD_eq_getElem _ _ (by simpa using hi), List.getD_eq_getElem _ _ hi,
      List.getElem_set, if_neg hne]
  · rw [List.getD_eq_default _ _ (by simpa using not_lt.mp hi),
      List.getD_eq_default _ _ (not_lt.mp hi)]

theorem mem_probeKeys_of_slot (t : List PSlot) (s k v : Nat) (hs : s < t.length)
    (h : t.getD s PSlot.empty = PSlot.item k v) : k ∈ probeKeys t := by
  rw [probeKeys_decomp t s hs, h]
  simp [slotKeys]

/-- Two distinct item slots of a duplicate-free table carry distinct
keys. -/
theorem probeKeys_unique_slot (t : List PSlot) (hnd : (probeKeys t).Nodup)
    (p q kp vp kq vq : Nat) (hp : p < t.length) (hq : q < t.length) (hpq : p ≠ q)
    (h1 : t.getD p PSlot.empty = PSlot.item kp vp)
    (h2 : t.getD q PSlot.empty = PSlot.item kq vq) : kp ≠ kq := by
  have key : ∀ a b ka va kb vb, a < b → b < t.length →
      t.getD a PSlot.empty = PSlot.item ka va →
      t.getD b PSlot.empty = PSlot.item kb vb → ka ≠ kb := by
    intro a b ka va kb vb hab hb ha1 hb1
    have hdec := probeKeys_decomp t a (by omega)
    rw [ha1] at hdec
    rw [hdec] at hnd
    have hmem : kb ∈ probeKeys (t.drop (a + 1)) := by
      apply mem_probeKeys_of_slot (t.drop (a + 1)) (b - (a + 1)) kb vb
      · simp [List.length_drop]
        omega
      · rw [getD_drop_pslot t (a + 1) (b - (a + 1)) (by omega)]
        have : a + 1 + (b - (a + 1)) = b := by omega
        rw [this]
        exact hb1
    have hn2 := (List.nodup_append.mp hnd).2.1
    rw [slotKeys] at hn2
    simp at hn2
    exact fun he => hn2.1 (he ▸ hmem)
  rcases lt_or_gt_of_ne hpq with h | h
  · exact key p q kp vp kq vq h hq h1 h2
  · exact fun he => (key q p kq vq kp vp h hp h2 h1) he.symm

/-- Building the chain invariant from a walk certificate. -/
theorem chainOK_of_walk (hf : Nat → Nat) (t : List PSlot) (k s ps : Nat)
    (hlen : 0 < t.length) (hps : ps < t.length)
    (hs : s = (hf k % t.length + ps) % t.length)
    (hchain : ∀ i, i < ps →
      t.getD ((hf k % t.length + i) % t.length) PSlot.empty ≠ PSlot.empty) :
    ChainOK hf t k s := by
  intro i hi
  have hslt : s < t.length := by
    rw [hs]
    exact Nat.mod_lt _ (by omega)
  have hcyc := mod_cycle (hf k % t.length) s t.length (Nat.mod_lt _ (by omega)) hslt
  have hd : (s + t.length - hf k % t.length) % t.length = ps := by
    apply walkpos_inj (hf k % t.length) _ _ t.length (Nat.mod_lt _ (by omega)) hps
    rw [hcyc, ← hs]
  rw [hd] at hi
  exact hchain i hi

/-- The distance form of the chain invariant: a slot is reached from the
home slot in `(s + len - home) % len` steps. -/
theorem chainOK_dist (hf : Nat → Nat) (t : List PSlot) (k s : Nat)
    (hlen : 0 < t.length) (hs : s < t.length) :
    s = (hf k % t.length +
      (s + t.length - hf k % t.length) % t.length) % t.length :=
  (mod_cycle (hf k % t.length) s t.length (Nat.mod_lt _ (by omega)) hs).symm

/-- A key listed by the iterator sits in some item slot. -/
theorem slot_of_mem_probeKeys (t : List PSlot) (k : Nat) (h : k ∈ probeKeys t) :
    ∃ s v, s < t.length ∧ t.getD s PSlot.empty = PSlot.item k v := by
  rw [probeKeys, List.mem_filterMap] at h
  rcases h with ⟨x, hx, hfx⟩
  rcases List.mem_iff_getElem.mp hx with ⟨s, hs, hsx⟩
  cases x with
  | empty => simp at hfx
  | avail => simp at hfx
  | item kk vv =>
    simp at hfx
    exact ⟨s, vv, hs, by rw [List.getD_eq_getElem _ _ hs, hsx, hfx]⟩

/-- Chains survive any update that keeps non-empty slots non-empty. -/
theorem chainOK_mono (hf : Nat → Nat) (t t2 : List PSlot)
    (hlen : t2.length = t.length)
    (hpres : ∀ q, t.getD q PSlot.empty ≠ PSlot.empty →
      t2.getD q PSlot.empty ≠ PSlot.empty)
    (k s : Nat) (h : ChainOK hf t k s) : ChainOK hf t2 k s := by
  intro i hi
  rw [ChainOK] at h
  rw [hlen] at hi ⊢
  exact hpres _ (h i hi)

/-- Writing a non-`None` value into any slot preserves every chain. -/
theorem chainOK_set (hf : Nat → Nat) (t : List PSlot) (s : Nat) (x : PSlot)
    (hx : x ≠ PSlot.empty) (k2 s2 : Nat) (h : ChainOK hf t k2 s2) :
    ChainOK hf (t.set s x) k2 s2 := by
  apply chainOK_mono hf t _ (List.length_set ..) _ k2 s2 h
  intro q hq
  by_cases hqs : s = q
  · rw [← hqs]
    by_cases hs : s < t.length
    · rw [getD_set_self_pslot t s x hs]
      exact hx
    · rw [List.getD_eq_default _ _ (by simp; omega)]
      rw [← hqs] at hq
      rw [List.getD_eq_default _ _ (by omega)] at hq
      exact hq
  · rw [getD_set_ne_pslot t s q x hqs]
    exact hq

/-- A key stored in a well-chained, duplicate-free table is looked up
successfully, returning the stored value. -/
theorem probeGet_of_slot (hf : Nat → Nat) (m : ProbeMap)
    (hlen : 0 < m.table.length)
    (hnd : (probeKeys m.table).Nodup)
    (hch : ∀ s2, s2 < m.table.length → ∀ k2 v2,
      m.table.getD s2 PSlot.empty = PSlot.item k2 v2 → ChainOK hf m.table k2 s2)
    (k v s : Nat) (hs : s < m.table.length)
    (hitem : m.table.getD s PSlot.empty = PSlot.item k v) :
    probeGet hf m k = Res.ok v := by
  have hhome : hf k % m.table.length < m.table.length := Nat.mod_lt _ (by omega)
  have hdlt : (s + m.table.length - hf k % m.table.length) % m.table.length
      < m.table.length := Nat.mod_lt _ (by omega)
  have hsd := chainOK_dist hf m.table k s hlen hs
  have hchain := hch s hs k v hitem
  have hnotk : ∀ i,
      i < (s + m.table.length - hf k % m.table.length) % m.table.length → ∀ v2,
      m.table.getD ((hf k % m.table.length + i) % m.table.length) PSlot.empty ≠
        PSlot.item k v2 := by
    intro i hi v2 hbad
    have hqs : (hf k % m.table.length + i) % m.table.length ≠ s := by
      intro he
      have heq2 := he.trans hsd
      have := walkpos_inj (hf k % m.table.length) i _ m.table.length
        (by omega) hdlt heq2
      omega
    exact probeKeys_unique_slot m.table hnd _ s k v2 k v
      (Nat.mod_lt _ (by omega)) hs hqs hbad hitem rfl
  have hfound := findSlot_reaches m.table k (hf k % m.table.length) s _ hlen hhome
    hsd hdlt hchain hnotk ⟨v, hitem⟩ m.table.length 0 none (by omega) (by omega)
  rw [Nat.add_zero, Nat.mod_eq_of_lt hhome] at hfound
  simp only [probeGet, bucketGet, hfound, hitem]

/-- A key that `_find_slot` reports absent is indeed not live (otherwise
the probe would have found it). -/
theorem not_mem_of_findSlot_false (hf : Nat → Nat) (m : ProbeMap)
    (hlen : 0 < m.table.length)
    (hnd : (probeKeys m.table).Nodup)
    (hch : ∀ s2, s2 < m.table.length → ∀ k2 v2,
      m.table.getD s2 PSlot.empty = PSlot.item k2 v2 → ChainOK hf m.table k2 s2)
    (k s : Nat)
    (hfind : findSlot m.table k m.table.length (hf k % m.table.length) none =
      some (false, s)) :
    k ∉ probeKeys m.table := by
  intro hmem
  rcases slot_of_mem_probeKeys m.table k hmem with ⟨s0, v0, hs0, hitem0⟩
  have := probeGet_of_slot hf m hlen hnd hch k v0 s0 hs0 hitem0
  simp only [probeGet, bucketGet, hfind] at this
  exact absurd this (by simp)

/-- Full effect of the insert branch of `_bucket_setitem` on a
well-chained table: the key was absent, the written slot was available,
and every invariant field survives with the count increased by one. -/
theorem insert_step (hf : Nat → Nat) (m : ProbeMap) (k v s : Nat)
    (hlen : 0 < m.table.length)
    (hnd : (probeKeys m.table).Nodup)
    (hch : ∀ s2, s2 < m.table.length → ∀ k2 v2,
      m.table.getD s2 PSlot.empty = PSlot.item k2 v2 → ChainOK hf m.table k2 s2)
    (hfind : findSlot m.table k m.table.length (hf k % m.table.length) none =
      some (false, s)) :
    s < m.table.length ∧
    (m.table.getD s PSlot.empty = PSlot.empty ∨
      m.table.getD s PSlot.empty = PSlot.avail) ∧
    k ∉ probeKeys m.table ∧
    (m.table.set s (PSlot.item k v)).getD s PSlot.empty = PSlot.item k v ∧
    (probeKeys (m.table.set s (PSlot.item k v))).length =
      (probeKeys m.table).length + 1 ∧
    (probeKeys (m.table.set s (PSlot.item k v))).Nodup ∧
    (∀ s2, s2 < (m.table.set s (PSlot.item k v)).length → ∀ k2 v2,
      (m.table.set s (PSlot.item k v)).getD s2 PSlot.empty = PSlot.item k2 v2 →
      ChainOK hf (m.table.set s (PSlot.item k v)) k2 s2) ∧
    (∀ x, x ∈ probeKeys (m.table.set s (PSlot.item k v)) ↔
      x = k ∨ x ∈ probeKeys m.table) := by
  have hhome : hf k % m.table.length < m.table.length := Nat.mod_lt _ (by omega)
  have hfind0 : findSlot m.table k m.table.length
      ((hf k % m.table.length + 0) % m.table.length) none = some (false, s) := by
    rw [Nat.add_zero, Nat.mod_eq_of_lt hhome]
    exact hfind
  rcases findSlot_false_spec m.table k _ hlen hhome m.table.length 0 none s
    (by omega) (fun i hi => absurd hi (by omega)) (fun x hx => by simp at hx) hfind0
    with ⟨ps, hps, hs_eq, hcert⟩
  have hs : s < m.table.length := by
    rw [hs_eq]
    exact Nat.mod_lt _ (by omega)
  have havail := findSlot_false_avail m.table k m.table.length _ none s hhome
    (fun x hx => by simp at hx) hfind
  have hfresh := not_mem_of_findSlot_false hf m hlen hnd hch k s hfind
  have hnew_s := getD_set_self_pslot m.table s (PSlot.item k v) hs
  have hdec_old := probeKeys_decomp m.table s hs
  have hdec_new := probeKeys_set_decomp m.table s hs (PSlot.item k v)
  have hslotkeys_old : slotKeys (m.table.getD s PSlot.empty) = [] := by
    rcases havail with h | h <;> rw [h] <;> rfl
  rw [hslotkeys_old, List.nil_append] at hdec_old
  have hslotkeys_new : slotKeys (PSlot.item k v) = [k] := rfl
  rw [hslotkeys_new] at hdec_new
  refine ⟨hs, havail, hfresh, hnew_s, ?_, ?_, ?_, ?_⟩
  · rw [hdec_new, hdec_old]
    simp
    omega
  · rw [hdec_new]
    rw [show probeKeys (m.table.take s) ++ ([k] ++ probeKeys (m.table.drop (s + 1)))
        = probeKeys (m.table.take s) ++ k :: probeKeys (m.table.drop (s + 1)) by simp]
    rw [List.nodup_middle]
    rw [List.nodup_cons]
    constructor
    · rw [← hdec_old]
      exact hfresh
    · rw [← hdec_old]
      exact hnd
  · intro s2 hs2 k2 v2 hitem2
    rw [List.length_set] at hs2
    by_cases hss : s2 = s
    · subst hss
      rw [hnew_s] at hitem2
      injection hitem2 with hk2 hv2
      subst hk2
      apply chainOK_of_walk hf _ k s2 ps (by simp; omega) (by simp; omega)
      · simp only [List.length_set]
        exact hs_eq
      · intro i hi
        simp only [List.length_set]
        have hqs : (hf k % m.table.length + i) % m.table.length ≠ s2 := by
          intro he
          have := walkpos_inj (hf k % m.table.length) i ps m.table.length
            (by omega) hps (he.trans hs_eq)
          omega
        rw [getD_set_ne_pslot _ _ _ _ (fun he => hqs he.symm)]
        exact hcert i hi
    · have hold : m.table.getD s2 PSlot.empty = PSlot.item k2 v2 := by
        rw [← getD_set_ne_pslot m.table s s2 (PSlot.item k v) (fun he => hss he.symm)]
        exact hitem2
      exact chainOK_set hf m.table s (PSlot.item k v) (by simp) k2 s2
        (hch s2 hs2 k2 v2 hold)
  · intro x
    rw [hdec_new, hdec_old]
    simp [List.mem_append]
    tauto

/-- Effect of the overwrite branch of `_bucket_setitem`: the key list is
unchanged and every invariant field survives. -/
theorem overwrite_step (hf : Nat → Nat) (m : ProbeMap) (k v s : Nat)
    (hlen : 0 < m.table.length)
    (hnd : (probeKeys m.table).Nodup)
    (hch : ∀ s2, s2 < m.table.length → ∀ k2 v2,
      m.table.getD s2 PSlot.empty = PSlot.item k2 v2 → ChainOK hf m.table k2 s2)
    (hfind : findSlot m.table k m.table.length (hf k % m.table.length) none =
      some (true, s)) :
    s < m.table.length ∧
    (m.table.set s (PSlot.item k v)).getD s PSlot.empty = PSlot.item k v ∧
    probeKeys (m.table.set s (PSlot.item k v)) = probeKeys m.table ∧
    (∀ s2, s2 < (m.table.set s (PSlot.item k v)).length → ∀ k2 v2,
      (m.table.set s (PSlot.item k v)).getD s2 PSlot.empty = PSlot.item k2 v2 →
      ChainOK hf (m.table.set s (PSlot.item k v)) k2 s2) := by
  rcases findSlot_true_item m.table k m.table.length _ none s hfind with ⟨v0, hv0⟩
  have hs : s < m.table.length := by
    by_contra hge
    rw [List.getD_eq_default _ _ (by omega)] at hv0
    exact absurd hv0 (by simp)
  have hnew_s := getD_set_self_pslot m.table s (PSlot.item k v) hs
  refine ⟨hs, hnew_s, ?_, ?_⟩
  · rw [probeKeys_set_decomp m.table s hs, probeKeys_decomp m.table s hs, hv0]
    simp [slotKeys]
  · intro s2 hs2 k2 v2 hitem2
    rw [List.length_set] at hs2
    by_cases hss : s2 = s
    · subst hss
      rw [hnew_s] at hitem2
      injection hitem2 with hk2 hv2
      subst hk2
      exact chainOK_set hf m.table s2 (PSlot.item k v) (by simp) k s2
        (hch s2 hs k v0 hv0)
    · have hold : m.table.getD s2 PSlot.empty = PSlot.item k2 v2 := by
        rw [← getD_set_ne_pslot m.table s s2 (PSlot.item k v) (fun he => hss he.symm)]
        exact hitem2
      exact chainOK_set hf m.table s (PSlot.item k v) (by simp) k2 s2
        (hch s2 hs2 k2 v2 hold)

theorem probeKeys_replicate (cap : Nat) :
    probeKeys (List.replicate cap PSlot.empty) = [] := by
  induction cap with
  | zero => rfl
  | succ cap ih => rw [List.replicate_succ, probeKeys_cons, ih]; rfl

theorem getD_replicate_empty (cap q : Nat) :
    (List.replicate cap PSlot.empty).getD q PSlot.empty = PSlot.empty := by
  by_cases hq : q < cap
  · rw [List.getD_eq_getElem _ _ (by simpa using hq), List.getElem_replicate]
  · rw [List.getD_eq_default _ _ (by simpa using not_lt.mp hq)]

theorem probeItems_map_fst (t : List PSlot) :
    (probeItems t).map Prod.fst = probeKeys t := by
  induction t with
  | nil => rfl
  | cons x rest ih =>
    cases x <;> simp [probeItems, probeKeys, List.filterMap_cons] at * <;>
      simpa [probeItems, probeKeys] using ih

theorem probeItems_length (t : List PSlot) :
    (probeItems t).length = (probeKeys t).length := by
  rw [← probeItems_map_fst, List.length_map]

theorem mem_probeItems_of_slot (t : List PSlot) (s k v : Nat) (hs : s < t.length)
    (h : t.getD s PSlot.empty = PSlot.item k v) : (k, v) ∈ probeItems t := by
  rw [probeItems, List.mem_filterMap]
  refine ⟨PSlot.item k v, ?_, rfl⟩
  rw [List.getD_eq_getElem _ _ hs] at h
  rw [← h]
  exact List.getElem_mem hs

/-- Inversion of a successful get: the key is stored with that value in
some slot. -/
theorem probeGet_ok_inv (hf : Nat → Nat) (m : ProbeMap) (k v : Nat)
    (h : probeGet hf m k = Res.ok v) :
    ∃ s, s < m.table.length ∧ m.table.getD s PSlot.empty = PSlot.item k v := by
  simp only [probeGet, bucketGet] at h
  split at h
  · exact absurd h (by simp)
  · exact absurd h (by simp)
  · rename_i s hfind
    rcases findSlot_true_item m.table k m.table.length _ none s hfind with ⟨v1, hv1⟩
    have hs : s < m.table.length := by
      by_contra hge
      rw [List.getD_eq_default _ _ (by omega)] at hv1
      exact absurd hv1 (by simp)
    split at h
    · rename_i k2 v2 hslot
      rw [hv1] at hslot
      injection hslot with hk2 hv2
      refine ⟨s, hs, ?_⟩
      rw [hv1, hv2]
      injection h with hv
      rw [hv]
    · exact absurd h (by simp)

/-- Effect of a successful `__delitem__` (tombstone integrity): the
invariant survives, the count drops by one, and every other live key is
still found with its value. -/
theorem probeDel_spec (hf : Nat → Nat) (m : ProbeMap) (hw : ProbeWF hf m)
    (k : Nat) (m' : ProbeMap) (h : probeDel hf m k = Res.ok m') :
    ProbeWF hf m' ∧ m'.n = m.n - 1 ∧ 1 ≤ m.n ∧
    (∀ k2 v2, k2 ≠ k → probeGet hf m k2 = Res.ok v2 →
      probeGet hf m' k2 = Res.ok v2) := by
  have hlen : 0 < m.table.length := by have := hw.csize; omega
  simp only [probeDel, bucketDel] at h
  split at h
  · exact absurd h (by simp)
  · exact absurd h (by simp)
  · rename_i m2 hinner
    split at hinner
    · exact absurd hinner (by simp)
    · exact absurd hinner (by simp)
    · rename_i s hfind
      rcases findSlot_true_item m.table k m.table.length _ none s hfind with ⟨v0, hv0⟩
      have hs : s < m.table.length := by
        by_contra hge
        rw [List.getD_eq_default _ _ (by omega)] at hv0
        exact absurd hv0 (by simp)
      have hm2 : m2 = ProbeMap.mk (m.table.set s PSlot.avail) m.n := by
        injection hinner with h2
        rw [h2]
      subst hm2
      have hm' : m' = ⟨m.table.set s PSlot.avail, m.n - 1⟩ := by
        injection h with h2
        rw [← h2]
      subst hm'
      have hkmem : k ∈ probeKeys m.table := mem_probeKeys_of_slot m.table s k v0 hs hv0
      have hpos : 1 ≤ (probeKeys m.table).length := List.length_pos.mpr
        (fun he => by rw [he] at hkmem; exact absurd hkmem (by simp))
      have hdec_old := probeKeys_decomp m.table s hs
      rw [hv0] at hdec_old
      have hdec_new := probeKeys_set_decomp m.table s hs PSlot.avail
      have hsk : slotKeys PSlot.avail = [] := rfl
      rw [hsk, List.nil_append] at hdec_new
      have hsk2 : slotKeys (PSlot.item k v0) = [k] := rfl
      rw [hsk2] at hdec_old
      have hchain' : ∀ s2, s2 < (m.table.set s PSlot.avail).length → ∀ k2 v2,
          (m.table.set s PSlot.avail).getD s2 PSlot.empty = PSlot.item k2 v2 →
          ChainOK hf (m.table.set s PSlot.avail) k2 s2 := by
        intro s2 hs2 k2 v2 hitem2
        rw [List.length_set] at hs2
        by_cases hss : s2 = s
        · subst hss
          rw [getD_set_self_pslot m.table s2 PSlot.avail hs] at hitem2
          exact absurd hitem2 (by simp)
        · have hold : m.table.getD s2 PSlot.empty = PSlot.item k2 v2 := by
            rw [← getD_set_ne_pslot m.table s s2 PSlot.avail (fun he => hss he.symm)]
            exact hitem2
          exact chainOK_set hf m.table s PSlot.avail (by simp) k2 s2
            (hw.chain s2 hs2 k2 v2 hold)
      have hnd' : (probeKeys (m.table.set s PSlot.avail)).Nodup := by
        rw [hdec_new]
        have hsub : List.Sublist
            (probeKeys (m.table.take s) ++ probeKeys (m.table.drop (s + 1)))
            (probeKeys (m.table.take s) ++
              ([k] ++ probeKeys (m.table.drop (s + 1)))) :=
          List.Sublist.append_left (List.sublist_cons_self _ _) _
        have := hw.nodup
        rw [hdec_old] at this
        exact List.Nodup.sublist hsub this
      refine ⟨⟨?_, ?_, ?_, hnd', hchain'⟩, rfl, ?_, ?_⟩
      · simp
        exact hw.csize
      · simp only
        rw [hdec_new]
        have hcnt := hw.count
        rw [hdec_old] at hcnt
        simp at hcnt ⊢
        omega
      · simp only
        have := hw.load
        rw [List.length_set]
        omega
      · rw [hw.count]
        exact hpos
      · intro k2 v2 hk2 hget
        rcases probeGet_ok_inv hf m k2 v2 hget with ⟨s2, hs2, hitem2⟩
        have hss : s2 ≠ s := by
          intro he
          rw [he, hv0] at hitem2
          injection hitem2 with hx hy
          exact hk2 hx.symm
        apply probeGet_of_slot hf ⟨m.table.set s PSlot.avail, m.n - 1⟩
          (by simp; omega) hnd' hchain' k2 v2 s2 (by simp; omega)
        simp only
        rw [getD_set_ne_pslot m.table s s2 PSlot.avail (fun he => hss he.symm)]
        exact hitem2

/-- Invariant of the `_resize` reinsertion loop: inserting fresh,
pairwise-distinct keys into an under-half-full well-chained table never
triggers a nested resize, reestablishes every invariant field, leaves
already-written item slots untouched, and makes every reinserted pair
retrievable. -/
theorem probeReinsert_spec (hf : Nat → Nat) :
    ∀ (items : List (Nat × Nat)) (rfuel : Nat) (m m' : ProbeMap),
      reinsertWith (fun mm kk vv => probeSetAux hf rfuel mm kk vv) items m
        = some m' →
      0 < m.table.length →
      m.n = (probeKeys m.table).length →
      (probeKeys m.table).Nodup →
      (∀ s, s < m.table.length → ∀ k v,
        m.table.getD s PSlot.empty = PSlot.item k v → ChainOK hf m.table k s) →
      (items.map Prod.fst).Nodup →
      (∀ kk, kk ∈ items.map Prod.fst → kk ∉ probeKeys m.table) →
      2 * (m.n + items.length) ≤ m.table.length →
      m'.table.length = m.table.length ∧
      m'.n = m.n + items.length ∧
      m'.n = (probeKeys m'.table).length ∧
      (probeKeys m'.table).Nodup ∧
      (∀ s, s < m'.table.length → ∀ k v,
        m'.table.getD s PSlot.empty = PSlot.item k v → ChainOK hf m'.table k s) ∧
      (∀ q kk vv, m.table.getD q PSlot.empty = PSlot.item kk vv →
        m'.table.getD q PSlot.empty = PSlot.item kk vv) ∧
      (∀ kk vv, (kk, vv) ∈ items → probeGet hf m' kk = Res.ok vv) := by
  intro items
  induction items with
  | nil =>
    intro rfuel m m' h hlen hcount hnd hch hind hfresh hbound
    rw [reinsertWith] at h
    injection h with h
    subst h
    exact ⟨rfl, by simp, hcount, hnd, hch, fun q kk vv hq => hq,
      fun kk vv hm => absurd hm (by simp)⟩
  | cons head rest ih =>
    intro rfuel m m' h hlen hcount hnd hch hind hfresh hbound
    rcases head with ⟨kk, vv⟩
    rw [reinsertWith] at h
    split at h
    · exact absurd h (by simp)
    · rename_i m2 hset0
      have hset : probeSetAux hf rfuel m kk vv = some m2 := hset0
      cases rfuel with
      | zero => exact absurd hset (by simp [probeSetAux])
      | succ g =>
        rw [probeSetAux] at hset
        split at hset
        · exact absurd hset (by simp)
        · rename_i m3 hbs
          rw [bucketSet] at hbs
          split at hbs
          · exact absurd hbs (by simp)
          · rename_i s hfind
            injection hbs with hbs
            subst hbs
            rcases insert_step hf m kk vv s hlen hnd hch hfind with
              ⟨hs, havail, hfresh1, hnew_s, hcnt1, hnd1, hch1, hmem1⟩
            have hcond : ¬ ((ProbeMap.mk (m.table.set s (PSlot.item kk vv))
                (m.n + 1)).n >
                (ProbeMap.mk (m.table.set s (PSlot.item kk vv))
                  (m.n + 1)).table.length / 2) := by
              simp at hbound ⊢
              omega
            rw [if_neg hcond] at hset
            injection hset with hset
            subst hset
            have hrest := ih (Nat.succ g)
              (ProbeMap.mk (m.table.set s (PSlot.item kk vv)) (m.n + 1)) m' h
              (by show 0 < (m.table.set s (PSlot.item kk vv)).length
                  simp only [List.length_set]
                  omega)
              (by show m.n + 1 = (probeKeys (m.table.set s (PSlot.item kk vv))).length
                  rw [hcnt1, hcount])
              hnd1 hch1
              ((List.nodup_cons.mp (by simpa using hind)).2)
              ?hfresh2
              (by show 2 * ((m.n + 1) + rest.length) ≤
                    (m.table.set s (PSlot.item kk vv)).length
                  simp only [List.length_set]
                  simp at hbound
                  omega)
            case hfresh2 =>
              intro x hx hmem
              rcases (hmem1 x).mp hmem with hxk | hxold
              · exact (List.nodup_cons.mp (by simpa using hind)).1 (hxk ▸ hx)
              · have hxin : x ∈ ((kk, vv) :: rest).map Prod.fst := by
                  rw [List.map_cons]
                  exact List.mem_cons_of_mem _ hx
                exact hfresh x hxin hxold
            rcases hrest with ⟨hl2, hn2, hc2, hnd2, hch2, hpers2, hlook2⟩
            refine ⟨?_, ?_, hc2, hnd2, hch2, ?_, ?_⟩
            · rw [hl2]
              simp
            · rw [hn2]
              simp
              omega
            · intro q kk0 vv0 hq
              apply hpers2
              have hqs : q ≠ s := by
                intro he
                rw [he] at hq
                rcases havail with ha | ha <;> rw [hq] at ha <;> simp at ha
              simp only
              rw [getD_set_ne_pslot m.table s q _ (fun he => hqs he.symm)]
              exact hq
            · intro kk2 vv2 hmm
              rcases List.mem_cons.mp hmm with hmm | hmm
              · have hitem2 : m'.table.getD s PSlot.empty = PSlot.item kk vv :=
                  hpers2 s kk vv hnew_s
                injection hmm with h1 h2
                subst h1
                subst h2
                exact probeGet_of_slot hf m' (by rw [hl2]; simp; omega) hnd2 hch2
                  kk2 vv2 s (by rw [hl2]; simp; omega) hitem2
              · exact hlook2 kk2 vv2 hmm
          · rename_i s hfind
            exfalso
            rcases findSlot_true_item m.table kk m.table.length _ none s hfind
              with ⟨v1, hv1⟩
            have hs : s < m.table.length := by
              by_contra hge
              rw [List.getD_eq_default _ _ (by omega)] at hv1
              exact absurd hv1 (by simp)
            exact hfresh kk (by simp) (mem_probeKeys_of_slot m.table s kk v1 hs hv1)

/-- Effect of a completed `__setitem__` on a well-formed state: the
invariant survives (also through a resize) and the key reads back with
the written value. -/
theorem probeSetAux_spec (hf : Nat → Nat) (f : Nat) (m : ProbeMap) (k v : Nat)
    (m' : ProbeMap) (hw : ProbeWF hf m) (h : probeSetAux hf f m k v = some m') :
    ProbeWF hf m' ∧ probeGet hf m' k = Res.ok v := by
  have hlen : 0 < m.table.length := by have := hw.csize; omega
  cases f with
  | zero => exact absurd h (by simp [probeSetAux])
  | succ g =>
    rw [probeSetAux] at h
    split at h
    · exact absurd h (by simp)
    · rename_i m3 hbs
      rw [bucketSet] at hbs
      split at hbs
      · exact absurd hbs (by simp)
      · rename_i s hfind
        injection hbs with hbs
        subst hbs
        rcases insert_step hf m k v s hlen hw.nodup hw.chain hfind with
          ⟨hs, havail, hfresh1, hnew_s, hcnt1, hnd1, hch1, hmem1⟩
        have hkeyslen : (probeKeys (m.table.set s (PSlot.item k v))).length
            = m.n + 1 := by
          rw [hcnt1, ← hw.count]
        by_cases hcond : (ProbeMap.mk (m.table.set s (PSlot.item k v)) (m.n + 1)).n >
            (ProbeMap.mk (m.table.set s (PSlot.item k v)) (m.n + 1)).table.length / 2
        · rw [if_pos hcond] at h
          have hitemslen : (probeItems (m.table.set s (PSlot.item k v))).length
              = m.n + 1 := by
            rw [probeItems_length, hkeyslen]
          have hrest := probeReinsert_spec hf
            (probeItems ((ProbeMap.mk (m.table.set s (PSlot.item k v))
              (m.n + 1)).table)) g
            (ProbeMap.mk (List.replicate
              (2 * (ProbeMap.mk (m.table.set s (PSlot.item k v))
                (m.n + 1)).table.length - 1) PSlot.empty) 0) m' h
            (by simp only [List.length_replicate, List.length_set]
                have := hw.csize
                omega)
            (by simp only [probeKeys_replicate]
                rfl)
            (by show (probeKeys (List.replicate _ PSlot.empty)).Nodup
                rw [probeKeys_replicate]
                exact List.nodup_nil)
            (by intro s0 hs0 k0 v0 hitem0
                rw [getD_replicate_empty] at hitem0
                exact absurd hitem0 (by simp))
            (by show ((probeItems (m.table.set s (PSlot.item k v))).map Prod.fst).Nodup
                rw [probeItems_map_fst]
                exact hnd1)
            (by intro kk hkk
                show kk ∉ probeKeys (List.replicate _ PSlot.empty)
                rw [probeKeys_replicate]
                simp)
            (by simp only [List.length_replicate, List.length_set]
                show 2 * (0 + (probeItems (m.table.set s (PSlot.item k v))).length) ≤
                  2 * m.table.length - 1
                rw [hitemslen]
                have := hw.load
                have := hw.csize
                omega)
          rcases hrest with ⟨hl2, hn2, hc2, hnd2, hch2, hpers2, hlook2⟩
          have hlen2 : m'.table.length = 2 * m.table.length - 1 := by
            rw [hl2]
            simp only [List.length_replicate, List.length_set]
          constructor
          · refine ⟨?_, hc2, ?_, hnd2, hch2⟩
            · rw [hlen2]
              have := hw.csize
              omega
            · have hitemslen2 : (probeItems ((ProbeMap.mk
                  (m.table.set s (PSlot.item k v)) (m.n + 1)).table)).length
                  = m.n + 1 := hitemslen
              rw [hlen2, hn2, hitemslen2]
              show 2 * (0 + (m.n + 1)) ≤ 2 * m.table.length - 1
              have := hw.load
              have := hw.csize
              omega
          · apply hlook2 k v
            exact mem_probeItems_of_slot _ s k v (by simp only [List.length_set]; omega)
              hnew_s
        · rw [if_neg hcond] at h
          injection h with h
          subst h
          have hload2 : 2 * (m.n + 1) ≤ m.table.length := by
            simp at hcond
            omega
          constructor
          · refine ⟨?_, ?_, ?_, hnd1, hch1⟩
            · show 11 ≤ (m.table.set s (PSlot.item k v)).length
              simp only [List.length_set]
              exact hw.csize
            · show m.n + 1 = (probeKeys (m.table.set s (PSlot.item k v))).length
              rw [hkeyslen]
            · show 2 * (m.n + 1) ≤ (m.table.set s (PSlot.item k v)).length
              simp only [List.length_set]
              exact hload2
          · exact probeGet_of_slot hf
              (ProbeMap.mk (m.table.set s (PSlot.item k v)) (m.n + 1))
              (by simp only [List.length_set]; omega) hnd1 hch1 k v s
              (by simp only [List.length_set]; omega) hnew_s
      · rename_i s hfind
        injection hbs with hbs
        subst hbs
        rcases overwrite_step hf m k v s hlen hw.nodup hw.chain hfind with
          ⟨hs, hnew_s, hkeys, hch1⟩
        have hcond : ¬ ((ProbeMap.mk (m.table.set s (PSlot.item k v)) m.n).n >
            (ProbeMap.mk (m.table.set s (PSlot.item k v)) m.n).table.length / 2) := by
          have := hw.load
          simp
          omega
        rw [if_neg hcond] at h
        injection h with h
        subst h
        constructor
        · refine ⟨?_, ?_, ?_, ?_, hch1⟩
          · show 11 ≤ (m.table.set s (PSlot.item k v)).length
            simp only [List.length_set]
            exact hw.csize
          · show m.n = (probeKeys (m.table.set s (PSlot.item k v))).length
            rw [hkeys]
            exact hw.count
          · show 2 * m.n ≤ (m.table.set s (PSlot.item k v)).length
            simp only [List.length_set]
            exact hw.load
          · show (probeKeys (m.table.set s (PSlot.item k v))).Nodup
            rw [hkeys]
            exact hw.nodup
        · exact probeGet_of_slot hf
            (ProbeMap.mk (m.table.set s (PSlot.item k v)) m.n)
            (by simp only [List.length_set]; omega) (by rw [hkeys]; exact hw.nodup)
            hch1 k v s (by simp only [List.length_set]; omega) hnew_s

/-- Every reachable `ProbeHashMap` state is well-formed. -/
theorem probeReachable_wf (hf : Nat → Nat) (m : ProbeMap)
    (h : ProbeReachable hf m) : ProbeWF hf m := by
  induction h with
  | init =>
    refine ⟨by simp, ?_, by simp, ?_, ?_⟩
    · show 0 = (probeKeys (List.replicate 11 PSlot.empty)).length
      rw [probeKeys_replicate]
      rfl
    · show (probeKeys (List.replicate 11 PSlot.empty)).Nodup
      rw [probeKeys_replicate]
      exact List.nodup_nil
    · intro s hs k v hitem
      rw [getD_replicate_empty] at hitem
      exact absurd hitem (by simp)
  | set m k v f m' _ hstep ih => exact (probeSetAux_spec hf f m k v m' ih hstep).1
  | del m k m' _ hstep ih => exact (probeDel_spec hf m ih k m' hstep).1

/-- A successful get is exactly membership of the key in the iteration
(on a well-formed state). -/
theorem probeGet_ok_iff_mem (hf : Nat → Nat) (m : ProbeMap) (hw : ProbeWF hf m)
    (k : Nat) : (∃ v, probeGet hf m k = Res.ok v) ↔ k ∈ probeKeys m.table := by
  constructor
  · intro ⟨v, hv⟩
    rcases probeGet_ok_inv hf m k v hv with ⟨s, hs, hitem⟩
    exact mem_probeKeys_of_slot m.table s k v hs hitem
  · intro hmem
    rcases slot_of_mem_probeKeys m.table k hmem with ⟨s, v, hs, hitem⟩
    exact ⟨v, probeGet_of_slot hf m (by have := hw.csize; omega) hw.nodup hw.chain
      k v s hs hitem⟩

/-- If no slot is `None` and no item slot holds key `k`, the probe loop
of `_find_slot` never returns: the `while True` loop runs forever. -/
theorem findSlot_diverges (t : List PSlot) (k : Nat)
    (hnoempty : ∀ q, q < t.length → t.getD q PSlot.empty ≠ PSlot.empty)
    (hnok : ∀ q, q < t.length → ∀ v, t.getD q PSlot.empty ≠ PSlot.item k v)
    (hlen : 0 < t.length) :
    ∀ fuel j fa, j < t.length → findSlot t k fuel j fa = none := by
  intro fuel
  induction fuel with
  | zero =>
    intro j fa _
    rfl
  | succ fuel ih =>
    intro j fa hj
    cases hslot : t.getD j PSlot.empty with
    | empty => exact absurd hslot (hnoempty j hj)
    | avail =>
      rw [findSlot_avail_step t k fuel j fa hslot]
      exact ih _ _ (Nat.mod_lt _ (by omega))
    | item k2 v2 =>
      have hk : ¬ k = k2 := by
        intro he
        exact hnok j hj v2 (by rw [← he] at hslot; exact hslot)
      rw [findSlot_item_step t k fuel j fa k2 v2 hslot, if_neg hk]
      exact ih _ _ (Nat.mod_lt _ (by omega))

/-! ### A reachable all-tombstone state (the degenerate case of the
resize policy) -/

/-- A concrete MAD composite: `scale = 1`, `shift = 0` (both are
possible draws of `HashMapBase.__init__`), `prime = 109345121`, applied
to Python's `hash`, which is the identity on small ints. -/
def madExample : Nat → Nat := fun k => (1 * k + 0) % 109345121

/-- The probe table after `i` insert-then-delete rounds with keys
`0, 1, ..., i-1`: `i` tombstones followed by `11 - i` empty slots. -/
def stA (i : Nat) : ProbeMap :=
  ⟨List.replicate i PSlot.avail ++ List.replicate (11 - i) PSlot.empty, 0⟩

/-- The table of round `i` right after `set(i, 0)`. -/
def stB (i : Nat) : ProbeMap :=
  ⟨List.replicate i PSlot.avail ++
    PSlot.item i 0 :: List.replicate (10 - i) PSlot.empty, 1⟩

theorem step_set_stA : ∀ i : Fin 11,
    probeSetAux madExample 2 (stA i) i 0 = some (stB i) := by decide

theorem step_del_stB : ∀ i : Fin 11,
    probeDel madExample (stB i) i = Res.ok (stA (i + 1)) := by decide

theorem stA_reachable : ∀ i, i ≤ 11 → ProbeReachable madExample (stA i) := by
  intro i
  induction i with
  | zero =>
    intro _
    exact ProbeReachable.init
  | succ j ih =>
    intro hle
    have hj : j < 11 := by omega
    have h1 := ProbeReachable.set (stA j) j 0 2 (stB j) (ih (by omega))
      (step_set_stA ⟨j, hj⟩)
    exact ProbeReachable.del (stB j) j (stA (j + 1)) h1 (step_del_stB ⟨j, hj⟩)

/-- After eleven insert/delete rounds every slot is a tombstone; this
state is reachable, yet `get` of an absent key never terminates: the
probe loop returns nothing for any amount of fuel. -/
theorem allAvail_get_diverges :
    ProbeReachable madExample (stA 11) ∧
    probeGet madExample (stA 11) 100 = Res.div ∧
    (∀ fuel fa, findSlot (stA 11).table 100 fuel
      (madExample 100 % (stA 11).table.length) fa = none) := by
  refine ⟨stA_reachable 11 (le_refl _), ?_, ?_⟩
  · decide
  · have hall : ∀ q, q < (stA 11).table.length →
        (stA 11).table.getD q PSlot.empty = PSlot.avail := by decide
    intro fuel fa
    apply findSlot_diverges (stA 11).table 100
      (fun q hq => by rw [hall q hq]; simp)
      (fun q hq v => by rw [hall q hq]; simp)
      (by decide)
      fuel _ fa
    decide

/-! ## ChainHashMap (src/ch10/map.py, lines 123-150)

A bucket is `None` or an `UnsortedListMap` (embedded, as in section 1,
as a list of pairs). -/

/-- State of a `ChainHashMap`: slot array of optional buckets and the
live counter `_n`. -/
structure ChainMap where
  table : List (Option (List (Nat × Nat)))
  n : Nat
  deriving DecidableEq, Repr

/-- `ChainHashMap.__iter__` (map.py 146-150): all bucket keys, in slot
order then insertion order. -/
def chainKeys : List (Option (List (Nat × Nat))) → List Nat
  | [] => []
  | none :: rest => chainKeys rest
  | some bucket :: rest => uKeys bucket ++ chainKeys rest

/-- The `(key, value)` pairs of the table in iteration order
(`list(self.items())` in `_resize`; the `MutableMapping.items()` mixin
looks each key up in its own bucket, which yields exactly the stored
pairs). -/
def chainItems : List (Option (List (Nat × Nat))) → List (Nat × Nat)
  | [] => []
  | none :: rest => chainItems rest
  | some bucket :: rest => bucket ++ chainItems rest

/-- `ChainHashMap._bucket_getitem` (map.py 126-130); `none` is
`KeyError` (missing bucket or key absent from the bucket). -/
def chainBucketGet (m : ChainMap) (j k : Nat) : Option Nat :=
  match m.table.getD j none with
  | none => none
  | some bucket => uGet bucket k

/-- `HashMapBase.__getitem__` (map.py 99-101) for the chaining variant. -/
def chainGet (hf : Nat → Nat) (m : ChainMap) (k : Nat) : Option Nat :=
  chainBucketGet m (hf k % m.table.length) k

/-- `ChainHashMap._bucket_setitem` (map.py 132-138): lazily create the
bucket, insert through the `UnsortedListMap`, and bump `_n` exactly when
the bucket grew. -/
def chainBucketSet (m : ChainMap) (j k v : Nat) : ChainMap :=
  let bucket := (m.table.getD j none).getD []
  let bucket2 := uSet bucket k v
  ⟨m.table.set j (some bucket2),
    if bucket2.length > bucket.length then m.n + 1 else m.n⟩

/-- `ChainHashMap._bucket_delitem` (map.py 140-144). -/
def chainBucketDel (m : ChainMap) (j k : Nat) : Option ChainMap :=
  match m.table.getD j none with
  | none => none
  | some bucket =>
    match uDel bucket k with
    | none => none
    | some bucket2 => some ⟨m.table.set j (some bucket2), m.n⟩

/-- `HashMapBase.__delitem__` (map.py 109-112) for the chaining
variant. -/
def chainDel (hf : Nat → Nat) (m : ChainMap) (k : Nat) : Option ChainMap :=
  match chainBucketDel m (hf k % m.table.length) k with
  | none => none
  | some m2 => some ⟨m2.table, m2.n - 1⟩

/-- `HashMapBase.__setitem__` (map.py 103-107) for the chaining variant,
with `_resize` (114-120) inlined exactly as in `probeSetAux`. -/
def chainSetAux (hf : Nat → Nat) : Nat → ChainMap → Nat → Nat → Option ChainMap
  | 0, _, _, _ => none
  | rfuel + 1, m, k, v =>
    let m2 := chainBucketSet m (hf k % m.table.length) k v
    if m2.n > m2.table.length / 2 then
      reinsertWith (fun mm kk vv => chainSetAux hf rfuel mm kk vv)
        (chainItems m2.table)
        ⟨List.replicate (2 * m2.table.length - 1) none, 0⟩
    else some m2

/-- States of a `ChainHashMap` with hash parameters `hf`, reachable from
the constructor through the map contract. -/
inductive ChainReachable (hf : Nat → Nat) : ChainMap → Prop where
  | init : ChainReachable hf ⟨List.replicate 11 none, 0⟩
  | set (m k v f m') : ChainReachable hf m → chainSetAux hf f m k v = some m' →
      ChainReachable hf m'
  | del (m k m') : ChainReachable hf m → chainDel hf m k = some m' →
      ChainReachable hf m'

/-- Keys contributed by one bucket slot. -/
def bKeys (b : Option (List (Nat × Nat))) : List Nat :=
  match b with
  | none => []
  | some bucket => uKeys bucket

/-- Well-formedness of a chaining state: capacity at least the initial
11, `_n` counts all bucket entries, load factor at most one half, keys
globally distinct, and every bucket holds only keys hashing to its
slot. -/
structure ChainWF (hf : Nat → Nat) (m : ChainMap) : Prop where
  csize : 11 ≤ m.table.length
  count : m.n = (chainKeys m.table).length
  load : 2 * m.n ≤ m.table.length
  nodup : (chainKeys m.table).Nodup
  buckets : ∀ j, j < m.table.length → ∀ kk,
    kk ∈ bKeys (m.table.getD j none) → hf kk % m.table.length = j

theorem chainKeys_cons (b : Option (List (Nat × Nat)))
    (rest : List (Option (List (Nat × Nat)))) :
    chainKeys (b :: rest) = bKeys b ++ chainKeys rest := by
  cases b <;> simp [chainKeys, bKeys]

theorem chainItems_cons (b : Option (List (Nat × Nat)))
    (rest : List (Option (List (Nat × Nat)))) :
    chainItems (b :: rest) = b.getD [] ++ chainItems rest := by
  cases b <;> simp [chainItems]

theorem chainItems_fst (t : List (Option (List (Nat × Nat)))) :
    (chainItems t).map Prod.fst = chainKeys t := by
  induction t with
  | nil => rfl
  | cons b rest ih =>
    rw [chainItems_cons, chainKeys_cons, List.map_append, ih]
    cases b <;> simp [bKeys, uKeys]

theorem chainKeys_append (t1 t2 : List (Option (List (Nat × Nat)))) :
    chainKeys (t1 ++ t2) = chainKeys t1 ++ chainKeys t2 := by
  induction t1 with
  | nil => rfl
  | cons b rest ih =>
    rw [List.cons_append, chainKeys_cons, chainKeys_cons, ih, List.append_assoc]

theorem getD_set_self_opt (t : List (Option (List (Nat × Nat)))) (j : Nat)
    (x : Option (List (Nat × Nat))) (hj : j < t.length) :
    (t.set j x).getD j none = x := by
  rw [List.getD_eq_getElem _ _ (by simpa using hj), List.getElem_set_self]

theorem getD_set_ne_opt (t : List (Option (List (Nat × Nat)))) (j i : Nat)
    (x : Option (List (Nat × Nat))) (hne : j ≠ i) :
    (t.set j x).getD i none = t.getD i none := by
  by_cases hi : i < t.length
  · rw [List.getD_eq_getElem _ _ (by simpa using hi), List.getD_eq_getElem _ _ hi,
      List.getElem_set, if_neg hne]
  · rw [List.getD_eq_default _ _ (by simpa using not_lt.mp hi),
      List.getD_eq_default _ _ (not_lt.mp hi)]

theorem chainKeys_decomp (t : List (Option (List (Nat × Nat)))) (j : Nat)
    (hj : j < t.length) :
    chainKeys t = chainKeys (t.take j) ++
      (bKeys (t.getD j none) ++ chainKeys (t.drop (j + 1))) := by
  conv_lhs => rw [← List.take_append_drop j t, List.drop_eq_getElem_cons hj]
  rw [chainKeys_append, chainKeys_cons]
  congr 2
  rw [List.getD_eq_getElem _ _ hj]

theorem chainKeys_set_decomp (t : List (Option (List (Nat × Nat)))) (j : Nat)
    (hj : j < t.length) (x : Option (List (Nat × Nat))) :
    chainKeys (t.set j x) = chainKeys (t.take j) ++
      (bKeys x ++ chainKeys (t.drop (j + 1))) := by
  rw [List.set_eq_take_append_cons_drop, if_pos hj, chainKeys_append, chainKeys_cons]

theorem slot_of_mem_chainKeys (t : List (Option (List (Nat × Nat)))) (k : Nat)
    (h : k ∈ chainKeys t) : ∃ j, j < t.length ∧ k ∈ bKeys (t.getD j none) := by
  induction t with
  | nil => simp [chainKeys] at h
  | cons b rest ih =>
    rw [chainKeys_cons] at h
    rcases List.mem_append.mp h with h | h
    · exact ⟨0, by simp, h⟩
    · rcases ih h with ⟨j, hj, hmem⟩
      refine ⟨j + 1, by simp; omega, ?_⟩
      rw [List.getD_cons_succ]
      exact hmem

theorem chainKeys_replicate (cap : Nat) :
    chainKeys (List.replicate cap none) = [] := by
  induction cap with
  | zero => rfl
  | succ cap ih => rw [List.replicate_succ]; exact ih

theorem getD_replicate_none (cap q : Nat) :
    (List.replicate cap (none : Option (List (Nat × Nat)))).getD q none = none := by
  by_cases hq : q < cap
  · rw [List.getD_eq_getElem _ _ (by simpa using hq), List.getElem_replicate]
  · rw [List.getD_eq_default _ _ (by simpa using not_lt.mp hq)]

/-- Evaluation of `__getitem__` when the home bucket exists. -/
theorem chainGet_eval (hf : Nat → Nat) (m : ChainMap) (k : Nat)
    (bu : List (Nat × Nat))
    (hb : m.table.getD (hf k % m.table.length) none = some bu) :
    chainGet hf m k = uGet bu k := by
  show (match m.table.getD (hf k % m.table.length) none with
    | none => none
    | some bucket => uGet bucket k) = uGet bu k
  rw [hb]

/-- Evaluation of `__getitem__` when the home bucket is missing
(`KeyError`). -/
theorem chainGet_eval_none (hf : Nat → Nat) (m : ChainMap) (k : Nat)
    (hb : m.table.getD (hf k % m.table.length) none = none) :
    chainGet hf m k = none := by
  show (match m.table.getD (hf k % m.table.length) none with
    | none => none
    | some bucket => uGet bucket k) = none
  rw [hb]

/-- The key is in the iteration exactly when it is in its home bucket
(on a state whose buckets are hash-consistent). -/
theorem chainKeys_mem_iff_bucket (hf : Nat → Nat) (m : ChainMap)
    (hw : ChainWF hf m) (k : Nat) :
    k ∈ chainKeys m.table ↔
      k ∈ bKeys (m.table.getD (hf k % m.table.length) none) := by
  have hlen : 0 < m.table.length := by have := hw.csize; omega
  constructor
  · intro hmem
    rcases slot_of_mem_chainKeys _ _ hmem with ⟨j2, hj2, hmem2⟩
    have hh := hw.buckets j2 hj2 k hmem2
    rw [← hh] at hmem2
    exact hmem2
  · intro hmem
    rw [chainKeys_decomp m.table (hf k % m.table.length)
      (Nat.mod_lt _ (by omega))]
    exact List.mem_append.mpr (Or.inr (List.mem_append.mpr (Or.inl hmem)))

/-- The get of a key is determined by its home bucket through `uGet`
(with the missing bucket read as the empty one). -/
theorem chainGet_eq_uGet (hf : Nat → Nat) (m : ChainMap) (k : Nat) :
    chainGet hf m k =
      uGet ((m.table.getD (hf k % m.table.length) none).getD []) k := by
  cases hb : m.table.getD (hf k % m.table.length) none with
  | none =>
    rw [chainGet_eval_none hf m k hb]
    rfl
  | some bu =>
    rw [chainGet_eval hf m k bu hb]
    rfl

/-- Effect of `_bucket_setitem` at the key's home slot on a well-formed
state: everything except the load bound, which `__setitem__` restores
through the resize check. -/
theorem chainBucketSet_step (hf : Nat → Nat) (m : ChainMap) (k v : Nat)
    (hw : ChainWF hf m) :
    (chainBucketSet m (hf k % m.table.length) k v).table.length
      = m.table.length ∧
    chainGet hf (chainBucketSet m (hf k % m.table.length) k v) k = some v ∧
    (chainBucketSet m (hf k % m.table.length) k v).n =
      (chainKeys (chainBucketSet m (hf k % m.table.length) k v).table).length ∧
    (chainKeys (chainBucketSet m (hf k % m.table.length) k v).table).Nodup ∧
    (∀ j2, j2 < m.table.length → ∀ kk, kk ∈ bKeys
      ((chainBucketSet m (hf k % m.table.length) k v).table.getD j2 none) →
      hf kk % m.table.length = j2) ∧
    (k ∉ chainKeys m.table →
      (chainBucketSet m (hf k % m.table.length) k v).n = m.n + 1) ∧
    (k ∈ chainKeys m.table →
      (chainBucketSet m (hf k % m.table.length) k v).n = m.n) ∧
    (∀ k2 v2, k2 ≠ k → chainGet hf m k2 = some v2 →
      chainGet hf (chainBucketSet m (hf k % m.table.length) k v) k2 = some v2) ∧
    (∀ x, x ∈ chainKeys (chainBucketSet m (hf k % m.table.length) k v).table ↔
      x = k ∨ x ∈ chainKeys m.table) := by
  have hlen : 0 < m.table.length := by have := hw.csize; omega
  have hj : hf k % m.table.length < m.table.length := Nat.mod_lt _ (by omega)
  have hbk : bKeys (m.table.getD (hf k % m.table.length) none)
      = uKeys ((m.table.getD (hf k % m.table.length) none).getD []) := by
    cases m.table.getD (hf k % m.table.length) none <;> simp [bKeys, uKeys]
  have hmemiff := chainKeys_mem_iff_bucket hf m hw k
  rw [hbk] at hmemiff
  have hgrow : ∀ bu : List (Nat × Nat),
      ((uSet bu k v).length > bu.length) ↔ uGet bu k = none := by
    intro bu
    rw [length_uSet]
    by_cases hu : uGet bu k = none
    · simp [hu]
    · simp [hu]
  have hm2 : chainBucketSet m (hf k % m.table.length) k v = ChainMap.mk
      (m.table.set (hf k % m.table.length)
        (some (uSet ((m.table.getD (hf k % m.table.length) none).getD []) k v)))
      (if (uSet ((m.table.getD (hf k % m.table.length) none).getD []) k v).length
          > ((m.table.getD (hf k % m.table.length) none).getD []).length
        then m.n + 1 else m.n) := rfl
  rw [hm2]
  have hlen2 : ∀ nn : Nat, (ChainMap.mk (m.table.set (hf k % m.table.length)
      (some (uSet ((m.table.getD (hf k % m.table.length) none).getD []) k v)))
      nn).table.length = m.table.length := fun _ => List.length_set ..
  have hidx : ∀ k2 : Nat, hf k2 % (m.table.set (hf k % m.table.length)
      (some (uSet ((m.table.getD (hf k % m.table.length) none).getD []) k v))).length
      = hf k2 % m.table.length := by
    intro k2
    rw [List.length_set]
  have hget : ∀ nn : Nat, chainGet hf (ChainMap.mk
      (m.table.set (hf k % m.table.length)
        (some (uSet ((m.table.getD (hf k % m.table.length) none).getD []) k v)))
      nn) k = some v := by
    intro nn
    rw [chainGet_eval hf _ k (uSet ((m.table.getD (hf k % m.table.length) none).getD []) k v)
      (by rw [show (ChainMap.mk (m.table.set (hf k % m.table.length) _) nn).table
            = m.table.set (hf k % m.table.length)
              (some (uSet ((m.table.getD (hf k % m.table.length) none).getD []) k v))
            from rfl, hidx k]
          exact getD_set_self_opt _ _ _ hj)]
    exact uGet_uSet_self _ k v
  have hpres : ∀ nn : Nat, ∀ k2 v2, k2 ≠ k → chainGet hf m k2 = some v2 →
      chainGet hf (ChainMap.mk (m.table.set (hf k % m.table.length)
        (some (uSet ((m.table.getD (hf k % m.table.length) none).getD []) k v)))
        nn) k2 = some v2 := by
    intro nn k2 v2 hk2 hget2
    rw [chainGet_eq_uGet] at hget2 ⊢
    rw [show (ChainMap.mk (m.table.set (hf k % m.table.length) _) nn).table
        = m.table.set (hf k % m.table.length)
          (some (uSet ((m.table.getD (hf k % m.table.length) none).getD []) k v))
        from rfl, hidx k2]
    by_cases hjj : hf k2 % m.table.length = hf k % m.table.length
    · rw [hjj, getD_set_self_opt _ _ _ hj]
      show uGet (uSet ((m.table.getD (hf k % m.table.length) none).getD []) k v) k2
        = some v2
      rw [uGet_uSet_ne _ _ _ _ hk2, ← hjj]
      exact hget2
    · rw [getD_set_ne_opt _ _ _ _ (fun he => hjj he.symm)]
      exact hget2
  have hkeys_new := chainKeys_set_decomp m.table (hf k % m.table.length) hj
    (some (uSet ((m.table.getD (hf k % m.table.length) none).getD []) k v))
  have hkeys_old := chainKeys_decomp m.table (hf k % m.table.length) hj
  rw [hbk] at hkeys_old
  have hbknew : bKeys (some (uSet ((m.table.getD (hf k % m.table.length) none).getD []) k v))
      = uKeys (uSet ((m.table.getD (hf k % m.table.length) none).getD []) k v) := rfl
  rw [hbknew] at hkeys_new
  by_cases habs : uGet ((m.table.getD (hf k % m.table.length) none).getD []) k = none
  · have hkabs : k ∉ chainKeys m.table := by
      rw [uGet_eq_none_iff] at habs
      intro hc
      exact habs (hmemiff.mp hc)
    have hukeys2 : uKeys (uSet ((m.table.getD (hf k % m.table.length) none).getD []) k v)
        = uKeys ((m.table.getD (hf k % m.table.length) none).getD []) ++ [k] := by
      rw [uKeys_uSet, if_pos habs]
    have hcond := (hgrow _).mpr habs
    rw [if_pos hcond]
    refine ⟨hlen2 _, hget _, ?_, ?_, ?_, fun _ => rfl, fun hmem => absurd hmem hkabs,
      hpres _, ?_⟩
    · show m.n + 1 = (chainKeys (m.table.set (hf k % m.table.length)
        (some (uSet ((m.table.getD (hf k % m.table.length) none).getD []) k v)))).length
      rw [hkeys_new, hukeys2, hw.count, hkeys_old]
      simp
      omega
    · show (chainKeys (m.table.set (hf k % m.table.length)
        (some (uSet ((m.table.getD (hf k % m.table.length) none).getD []) k v)))).Nodup
      rw [hkeys_new, hukeys2]
      have hnd := hw.nodup
      rw [hkeys_old] at hnd
      have hkabs2 := hkabs
      rw [hkeys_old] at hkabs2
      rw [show chainKeys (m.table.take (hf k % m.table.length)) ++
          ((uKeys ((m.table.getD (hf k % m.table.length) none).getD []) ++ [k]) ++
            chainKeys (m.table.drop (hf k % m.table.length + 1)))
          = (chainKeys (m.table.take (hf k % m.table.length)) ++
              uKeys ((m.table.getD (hf k % m.table.length) none).getD [])) ++
            k :: chainKeys (m.table.drop (hf k % m.table.length + 1)) by
        simp [List.append_assoc]]
      rw [List.nodup_middle, List.nodup_cons]
      constructor
      · intro hc
        apply hkabs2
        simp at hc ⊢
        tauto
      · simp [List.append_assoc] at hnd ⊢
        exact hnd
    · intro j2 hj2 kk hkk
      by_cases hjj : j2 = hf k % m.table.length
      · rw [hjj, getD_set_self_opt _ _ _ hj, hbknew, hukeys2] at hkk
        rcases List.mem_append.mp hkk with hkk | hkk
        · rw [hjj]
          apply hw.buckets (hf k % m.table.length) hj kk
          rw [hbk]
          exact hkk
        · simp at hkk
          rw [hkk, hjj]
      · rw [getD_set_ne_opt _ _ _ _ (fun he => hjj he.symm)] at hkk
        exact hw.buckets j2 hj2 kk hkk
    · intro x
      show x ∈ chainKeys (m.table.set (hf k % m.table.length)
        (some (uSet ((m.table.getD (hf k % m.table.length) none).getD []) k v))) ↔
        x = k ∨ x ∈ chainKeys m.table
      rw [hkeys_new, hukeys2, hkeys_old]
      simp [List.mem_append]
      tauto
  · have hkpres : k ∈ chainKeys m.table := by
      apply hmemiff.mpr
      by_cases hx : k ∈ uKeys ((m.table.getD (hf k % m.table.length) none).getD [])
      · exact hx
      · exact absurd ((uGet_eq_none_iff _ k).mpr hx) habs
    have hukeys2 : uKeys (uSet ((m.table.getD (hf k % m.table.length) none).getD []) k v)
        = uKeys ((m.table.getD (hf k % m.table.length) none).getD []) := by
      rw [uKeys_uSet, if_neg habs]
    have hcond : ¬ ((uSet ((m.table.getD (hf k % m.table.length) none).getD []) k v).length
        > ((m.table.getD (hf k % m.table.length) none).getD []).length) := by
      rw [hgrow _]
      exact habs
    rw [if_neg hcond]
    refine ⟨hlen2 _, hget _, ?_, ?_, ?_, fun hmem => absurd hkpres hmem, fun _ => rfl,
      hpres _, ?_⟩
    · show m.n = (chainKeys (m.table.set (hf k % m.table.length)
        (some (uSet ((m.table.getD (hf k % m.table.length) none).getD []) k v)))).length
      rw [hkeys_new, hukeys2, hw.count, hkeys_old]
    · show (chainKeys (m.table.set (hf k % m.table.length)
        (some (uSet ((m.table.getD (hf k % m.table.length) none).getD []) k v)))).Nodup
      rw [hkeys_new, hukeys2, ← hkeys_old]
      exact hw.nodup
    · intro j2 hj2 kk hkk
      by_cases hjj : j2 = hf k % m.table.length
      · rw [hjj, getD_set_self_opt _ _ _ hj, hbknew, hukeys2] at hkk
        rw [hjj]
        apply hw.buckets (hf k % m.table.length) hj kk
        rw [hbk]
        exact hkk
      · rw [getD_set_ne_opt _ _ _ _ (fun he => hjj he.symm)] at hkk
        exact hw.buckets j2 hj2 kk hkk
    · intro x
      show x ∈ chainKeys (m.table.set (hf k % m.table.length)
        (some (uSet ((m.table.getD (hf k % m.table.length) none).getD []) k v))) ↔
        x = k ∨ x ∈ chainKeys m.table
      rw [hkeys_new, hukeys2, ← hkeys_old]
      constructor
      · exact fun hx => Or.inr hx
      · intro hx
        rcases hx with hx | hx
        · rw [hx]
          exact hkpres
        · exact hx

theorem chainItems_append (t1 t2 : List (Option (List (Nat × Nat)))) :
    chainItems (t1 ++ t2) = chainItems t1 ++ chainItems t2 := by
  induction t1 with
  | nil => rfl
  | cons b rest ih =>
    rw [List.cons_append, chainItems_cons, chainItems_cons, ih, List.append_assoc]

theorem chainItems_decomp (t : List (Option (List (Nat × Nat)))) (j : Nat)
    (hj : j < t.length) :
    chainItems t = chainItems (t.take j) ++
      ((t.getD j none).getD [] ++ chainItems (t.drop (j + 1))) := by
  conv_lhs => rw [← List.take_append_drop j t, List.drop_eq_getElem_cons hj]
  rw [chainItems_append, chainItems_cons]
  congr 2
  rw [List.getD_eq_getElem _ _ hj]

/-- Per-bucket keys are duplicate-free whenever the whole iteration is. -/
theorem bucket_nodup_of_nodup (t : List (Option (List (Nat × Nat)))) (j : Nat)
    (hj : j < t.length) (hnd : (chainKeys t).Nodup) :
    (uKeys ((t.getD j none).getD [])).Nodup := by
  rw [chainKeys_decomp t j hj] at hnd
  have h1 := (List.nodup_append.mp hnd).2.1
  have h2 := (List.nodup_append.mp h1).1
  cases hb : t.getD j none with
  | none => simp [uKeys]
  | some bu =>
    rw [hb] at h2
    exact h2

/-- A successful get certifies membership of the pair in the items
snapshot. -/
theorem chainItems_of_get (hf : Nat → Nat) (m : ChainMap) (k v : Nat)
    (hlen : 0 < m.table.length) (hnd : (chainKeys m.table).Nodup)
    (h : chainGet hf m k = some v) : (k, v) ∈ chainItems m.table := by
  rw [chainGet_eq_uGet] at h
  have hj : hf k % m.table.length < m.table.length := Nat.mod_lt _ (by omega)
  have hbnd := bucket_nodup_of_nodup m.table _ hj hnd
  have hmem := (uGet_eq_some_iff_mem _ k v hbnd).mp h
  rw [chainItems_decomp m.table _ hj]
  exact List.mem_append.mpr (Or.inr (List.mem_append.mpr (Or.inl hmem)))

/-- A successful get is exactly membership of the key in the iteration
(on a hash-consistent state). -/
theorem chainGet_some_iff_mem (hf : Nat → Nat) (m : ChainMap) (hw : ChainWF hf m)
    (k : Nat) : (∃ v, chainGet hf m k = some v) ↔ k ∈ chainKeys m.table := by
  have hbk : bKeys (m.table.getD (hf k % m.table.length) none)
      = uKeys ((m.table.getD (hf k % m.table.length) none).getD []) := by
    cases m.table.getD (hf k % m.table.length) none <;> simp [bKeys, uKeys]
  have hmemiff := chainKeys_mem_iff_bucket hf m hw k
  rw [hbk] at hmemiff
  constructor
  · intro ⟨v, hv⟩
    rw [chainGet_eq_uGet] at hv
    apply hmemiff.mpr
    rw [← uGet_isSome_iff, hv]
    rfl
  · intro hmem
    have hs := (uGet_isSome_iff _ k).mpr (hmemiff.mp hmem)
    rcases Option.isSome_iff_exists.mp hs with ⟨v, hv⟩
    exact ⟨v, by rw [chainGet_eq_uGet]; exact hv⟩

/-- Invariant of the chaining `_resize` reinsertion loop (mirror of
`probeReinsert_spec`). -/
theorem chainReinsert_spec (hf : Nat → Nat) :
    ∀ (items : List (Nat × Nat)) (rfuel : Nat) (m m' : ChainMap),
      reinsertWith (fun mm kk vv => chainSetAux hf rfuel mm kk vv) items m
        = some m' →
      11 ≤ m.table.length →
      m.n = (chainKeys m.table).length →
      (chainKeys m.table).Nodup →
      (∀ j, j < m.table.length → ∀ kk, kk ∈ bKeys (m.table.getD j none) →
        hf kk % m.table.length = j) →
      (items.map Prod.fst).Nodup →
      (∀ kk, kk ∈ items.map Prod.fst → kk ∉ chainKeys m.table) →
      2 * (m.n + items.length) ≤ m.table.length →
      m'.table.length = m.table.length ∧
      m'.n = m.n + items.length ∧
      m'.n = (chainKeys m'.table).length ∧
      (chainKeys m'.table).Nodup ∧
      (∀ j, j < m'.table.length → ∀ kk, kk ∈ bKeys (m'.table.getD j none) →
        hf kk % m'.table.length = j) ∧
      (∀ kk vv, chainGet hf m kk = some vv → chainGet hf m' kk = some vv) ∧
      (∀ kk vv, (kk, vv) ∈ items → chainGet hf m' kk = some vv) := by
  intro items
  induction items with
  | nil =>
    intro rfuel m m' h hcs hcount hnd hbu hind hfresh hbound
    rw [reinsertWith] at h
    injection h with h
    subst h
    exact ⟨rfl, by simp, hcount, hnd, hbu, fun kk vv hg => hg,
      fun kk vv hm => absurd hm (by simp)⟩
  | cons head rest ih =>
    intro rfuel m m' h hcs hcount hnd hbu hind hfresh hbound
    rcases head with ⟨kk, vv⟩
    rw [reinsertWith] at h
    split at h
    · exact absurd h (by simp)
    · rename_i m2 hset0
      have hset : chainSetAux hf rfuel m kk vv = some m2 := hset0
      cases rfuel with
      | zero => exact absurd hset (by simp [chainSetAux])
      | succ g =>
        have hw : ChainWF hf m :=
          ⟨hcs, hcount, by simp at hbound; omega, hnd, hbu⟩
        rcases chainBucketSet_step hf m kk vv hw with
          ⟨hst_len, hst_get, hst_count, hst_nd, hst_bu, hst_newn, _, hst_pres, hst_mem⟩
        have hkfresh : kk ∉ chainKeys m.table := hfresh kk (by simp)
        have hn2 : (chainBucketSet m (hf kk % m.table.length) kk vv).n = m.n + 1 :=
          hst_newn hkfresh
        rw [chainSetAux] at hset
        rw [show (chainBucketSet m (hf kk % m.table.length) kk vv).table.length / 2
            = m.table.length / 2 by rw [hst_len]] at hset
        rw [hn2] at hset
        rw [if_neg (by simp at hbound ⊢; omega)] at hset
        injection hset with hset
        subst hset
        have hrest := ih (Nat.succ g)
          (chainBucketSet m (hf kk % m.table.length) kk vv) m' h
          (by rw [hst_len]; exact hcs)
          hst_count hst_nd
          (by rw [hst_len]; exact hst_bu)
          ((List.nodup_cons.mp (by simpa using hind)).2)
          ?hfresh2
          (by rw [hst_len, hn2]; simp at hbound ⊢; omega)
        case hfresh2 =>
          intro x hx hmem
          rcases (hst_mem x).mp hmem with hxk | hxold
          · exact (List.nodup_cons.mp (by simpa using hind)).1 (hxk ▸ hx)
          · have hxin : x ∈ ((kk, vv) :: rest).map Prod.fst := by
              rw [List.map_cons]
              exact List.mem_cons_of_mem _ hx
            exact hfresh x hxin hxold
        rcases hrest with ⟨hl2, hn2b, hc2, hnd2, hbu2, hpres2, hlook2⟩
        refine ⟨by rw [hl2, hst_len], ?_, hc2, hnd2, hbu2, ?_, ?_⟩
        · rw [hn2b, hn2]
          simp
          omega
        · intro kk2 vv2 hg
          apply hpres2
          have hkk2 : kk2 ∈ chainKeys m.table := by
            rw [← chainGet_some_iff_mem hf m hw kk2]
            exact ⟨vv2, hg⟩
          have hne : kk2 ≠ kk := fun he => hkfresh (he ▸ hkk2)
          exact hst_pres kk2 vv2 hne hg
        · intro kk2 vv2 hmm
          rcases List.mem_cons.mp hmm with hmm | hmm
          · injection hmm with h1 h2
            subst h1
            subst h2
            exact hpres2 kk2 vv2 hst_get
          · exact hlook2 kk2 vv2 hmm

/-- `__setitem__` on a well-formed chaining state preserves the
invariant (resizing included) and makes the key retrievable. -/
theorem chainSetAux_spec (hf : Nat → Nat) (f : Nat) (m : ChainMap) (k v : Nat)
    (m' : ChainMap) (hw : ChainWF hf m) (h : chainSetAux hf f m k v = some m') :
    ChainWF hf m' ∧ chainGet hf m' k = some v := by
  cases f with
  | zero => exact absurd h (by simp [chainSetAux])
  | succ g =>
    rcases chainBucketSet_step hf m k v hw with
      ⟨hst_len, hst_get, hst_count, hst_nd, hst_bu, hst_newn, hst_oldn, _, _⟩
    rw [chainSetAux] at h
    rw [show (chainBucketSet m (hf k % m.table.length) k v).table.length / 2
        = m.table.length / 2 by rw [hst_len]] at h
    by_cases hcond : (chainBucketSet m (hf k % m.table.length) k v).n >
        m.table.length / 2
    · rw [if_pos hcond] at h
      -- a resize only fires on a strictly growing insert
      have hfresh : k ∉ chainKeys m.table := by
        intro hmem
        have hn := hst_oldn hmem
        have := hw.load
        omega
      have hn1 : (chainBucketSet m (hf k % m.table.length) k v).n = m.n + 1 :=
        hst_newn hfresh
      have hitemslen : (chainItems
          (chainBucketSet m (hf k % m.table.length) k v).table).length
          = m.n + 1 := by
        have hmapl := congrArg List.length
          (chainItems_fst (chainBucketSet m (hf k % m.table.length) k v).table)
        rw [List.length_map] at hmapl
        rw [hmapl, ← hst_count, hn1]
      have hrest := chainReinsert_spec hf
        (chainItems (chainBucketSet m (hf k % m.table.length) k v).table) g
        (ChainMap.mk (List.replicate
          (2 * (chainBucketSet m (hf k % m.table.length) k v).table.length - 1)
          none) 0) m' h
        (by show 11 ≤ (List.replicate
              (2 * (chainBucketSet m (hf k % m.table.length) k v).table.length - 1)
              (none : Option (List (Nat × Nat)))).length
            rw [List.length_replicate, hst_len]
            have := hw.csize
            omega)
        (by show 0 = (chainKeys (List.replicate _ none)).length
            rw [chainKeys_replicate]
            rfl)
        (by show (chainKeys (List.replicate _ none)).Nodup
            rw [chainKeys_replicate]
            exact List.nodup_nil)
        (by intro j hj kk hkk
            rw [getD_replicate_none] at hkk
            exact absurd hkk (by simp [bKeys]))
        (by rw [chainItems_fst]
            exact hst_nd)
        (by intro kk hkk
            show kk ∉ chainKeys (List.replicate _ none)
            rw [chainKeys_replicate]
            simp)
        (by show 2 * (0 + (chainItems
              (chainBucketSet m (hf k % m.table.length) k v).table).length) ≤
              (List.replicate
                (2 * (chainBucketSet m (hf k % m.table.length) k v).table.length - 1)
                (none : Option (List (Nat × Nat)))).length
            rw [List.length_replicate, hitemslen, hst_len]
            have := hw.load
            have := hw.csize
            omega)
      rcases hrest with ⟨hl2, hn2, hc2, hnd2, hbu2, _, hlook2⟩
      have hlen2 : m'.table.length =
          2 * (chainBucketSet m (hf k % m.table.length) k v).table.length - 1 := by
        rw [hl2, List.length_replicate]
      constructor
      · refine ⟨?_, hc2, ?_, hnd2, hbu2⟩
        · rw [hlen2, hst_len]
          have := hw.csize
          omega
        · have hn2b : m'.n = 0 + (chainItems
              (chainBucketSet m (hf k % m.table.length) k v).table).length := hn2
          rw [hlen2, hn2b, hitemslen, hst_len]
          have := hw.load
          have := hw.csize
          omega
      · apply hlook2 k v
        exact chainItems_of_get hf _ k v
          (by rw [hst_len]; have := hw.csize; omega) hst_nd hst_get
    · rw [if_neg hcond] at h
      injection h with h
      subst h
      refine ⟨⟨?_, hst_count, ?_, hst_nd, ?_⟩, hst_get⟩
      · rw [hst_len]
        exact hw.csize
      · rw [hst_len]
        simp at hcond
        omega
      · rw [hst_len]
        exact hst_bu

/-- `__delitem__` on a well-formed chaining state preserves the
invariant and decrements `_n` (which was positive). -/
theorem chainDel_spec (hf : Nat → Nat) (m : ChainMap) (k : Nat) (m' : ChainMap)
    (hw : ChainWF hf m) (h : chainDel hf m k = some m') :
    ChainWF hf m' ∧ m'.n = m.n - 1 ∧ 1 ≤ m.n := by
  have hlen : 0 < m.table.length := by have := hw.csize; omega
  have hj : hf k % m.table.length < m.table.length := Nat.mod_lt _ hlen
  rw [chainDel] at h
  split at h
  · exact absurd h (by simp)
  · rename_i m2 hbd
    injection h with h
    subst h
    rw [chainBucketDel] at hbd
    split at hbd
    · exact absurd hbd (by simp)
    · rename_i bucket hb
      split at hbd
      · exact absurd hbd (by simp)
      · rename_i bucket2 hud
        injection hbd with hbd
        subst hbd
        rcases uDel_spec bucket k with ⟨_, hnone⟩ | ⟨b1, v0, b2, hbeq, hkb1, hsome⟩
        · rw [hnone] at hud
          exact absurd hud (by simp)
        · rw [hsome] at hud
          injection hud with hud
          subst hud
          have hkeys_old : chainKeys m.table
              = chainKeys (m.table.take (hf k % m.table.length)) ++
                ((uKeys b1 ++ k :: uKeys b2) ++
                  chainKeys (m.table.drop (hf k % m.table.length + 1))) := by
            have hbk : bKeys (some bucket) = uKeys bucket := rfl
            rw [chainKeys_decomp m.table _ hj, hb, hbk, hbeq, uKeys_append,
              uKeys_cons]
          have hkeys_new : chainKeys (m.table.set (hf k % m.table.length)
              (some (b1 ++ b2)))
              = chainKeys (m.table.take (hf k % m.table.length)) ++
                ((uKeys b1 ++ uKeys b2) ++
                  chainKeys (m.table.drop (hf k % m.table.length + 1))) := by
            have hbk2 : bKeys (some (b1 ++ b2)) = uKeys (b1 ++ b2) := rfl
            rw [chainKeys_set_decomp m.table _ hj, hbk2, uKeys_append]
          have hcnt_old : m.n
              = (chainKeys (m.table.take (hf k % m.table.length))).length +
                ((uKeys b1).length + (1 + (uKeys b2).length) +
                  (chainKeys (m.table.drop (hf k % m.table.length + 1))).length) := by
            rw [hw.count, hkeys_old]
            simp [Nat.add_assoc, Nat.add_comm, Nat.add_left_comm]
          have hnd_old := hw.nodup
          rw [hkeys_old] at hnd_old
          have hnd_reassoc : ((chainKeys (m.table.take (hf k % m.table.length)) ++
              uKeys b1) ++ k :: (uKeys b2 ++
                chainKeys (m.table.drop (hf k % m.table.length + 1)))).Nodup := by
            simpa [List.append_assoc] using hnd_old
          have hnd_mid := List.nodup_middle.mp hnd_reassoc
          refine ⟨⟨?_, ?_, ?_, ?_, ?_⟩, rfl, by omega⟩
          · show 11 ≤ (m.table.set _ _).length
            rw [List.length_set]
            exact hw.csize
          · show m.n - 1 = _
            rw [hkeys_new]
            simp only [List.length_append, List.length_cons]
            omega
          · show 2 * (m.n - 1) ≤ (m.table.set _ _).length
            rw [List.length_set]
            have := hw.load
            omega
          · show (chainKeys (m.table.set _ _)).Nodup
            rw [hkeys_new]
            have h2 := (List.nodup_cons.mp hnd_mid).2
            simpa [List.append_assoc] using h2
          · intro j2 hj2 kk hkk
            have hj2b : j2 < m.table.length := by simpa using hj2
            have hkkb : kk ∈ bKeys ((m.table.set (hf k % m.table.length)
                (some (b1 ++ b2))).getD j2 none) := hkk
            show hf kk % (m.table.set (hf k % m.table.length)
              (some (b1 ++ b2))).length = j2
            rw [List.length_set]
            by_cases hjj : hf k % m.table.length = j2
            · subst hjj
              rw [getD_set_self_opt _ _ _ hj] at hkkb
              apply hw.buckets _ hj kk
              rw [hb]
              show kk ∈ uKeys bucket
              rw [hbeq, uKeys_append, uKeys_cons]
              have hkk2 : kk ∈ uKeys (b1 ++ b2) := hkkb
              rw [uKeys_append] at hkk2
              rcases List.mem_append.mp hkk2 with hkk3 | hkk3
              · exact List.mem_append.mpr (Or.inl hkk3)
              · exact List.mem_append.mpr (Or.inr (List.mem_cons_of_mem _ hkk3))
            · rw [getD_set_ne_opt _ _ _ _ hjj] at hkkb
              exact hw.buckets j2 hj2b kk hkkb

/-- Every reachable chaining state is well-formed. -/
theorem chainReachable_wf (hf : Nat → Nat) (m : ChainMap)
    (h : ChainReachable hf m) : ChainWF hf m := by
  induction h with
  | init =>
    refine ⟨by simp, ?_, by simp, ?_, ?_⟩
    · show 0 = (chainKeys (List.replicate 11 none)).length
      rw [chainKeys_replicate]
      rfl
    · show (chainKeys (List.replicate 11 none)).Nodup
      rw [chainKeys_replicate]
      exact List.nodup_nil
    · intro j hj kk hkk
      have hkk2 : kk ∈ bKeys ((List.replicate 11
          (none : Option (List (Nat × Nat)))).getD j none) := hkk
      rw [getD_replicate_none] at hkk2
      exact absurd hkk2 (by simp [bKeys])
  | set m k v f m' _ hset ih => exact (chainSetAux_spec hf f m k v m' ih hset).1
  | del m k m' _ hdel ih => exact (chainDel_spec hf m k m' ih hdel).1

/-! ## TreeMap (src/ch11/binary_search_tree.py)

`TreeMap` inherits from `ch8.tree.LinkedBinaryTree`, which is not part
of this repository's sources.  The positional binary-tree abstraction it
provides (`root`, `left`, `right`, `parent`, `_add_root`, `_add_left`,
`_add_right`, `_replace`, `_delete`, `is_empty`) is therefore modelled
from the spec: a node stores an entry and two subtrees, a position is
the path of left/right moves from the root to a node, and `_delete`
removes a node with at most one child, promoting that child.  All
`TreeMap` methods themselves are translated from the source file. -/

/-- Modelled from the spec: one step of a position path (left or right
child link of the positional tree abstraction). -/
inductive Dir where
  | L
  | R
  deriving DecidableEq, Repr

/-- Modelled from the spec: a linked binary tree whose nodes each hold
one `_Item` (key and value); `leaf` is the absence of a node. -/
inductive BTree where
  | leaf
  | node (l : BTree) (k v : Nat) (r : BTree)
  deriving DecidableEq, Repr

/-- In-order entry list of a tree (verification device: the sequence the
spec's ascending iteration must produce). -/
def inorder : BTree → List (Nat × Nat)
  | BTree.leaf => []
  | BTree.node l k v r => inorder l ++ (k, v) :: inorder r

/-- Modelled from the spec: `LinkedBinaryTree.__len__`, the number of
entries stored in the tree. -/
def treeSize : BTree → Nat
  | BTree.leaf => 0
  | BTree.node l _ _ r => treeSize l + 1 + treeSize r

/-- Modelled from the spec: resolve a position (path from the root) to
the subtree rooted at its node; `none` is an invalid position. -/
def subtreeAt : BTree → List Dir → Option BTree
  | t, [] => some t
  | BTree.leaf, _ :: _ => none
  | BTree.node l _ _ _, Dir.L :: q => subtreeAt l q
  | BTree.node _ _ _ r, Dir.R :: q => subtreeAt r q

/-- `Position.key()/value()` (binary_search_tree.py 11-17): the entry at
a position, defaulting to `(0, 0)` on an invalid position. -/
def entryAtD (t : BTree) (p : List Dir) : Nat × Nat :=
  match subtreeAt t p with
  | some (BTree.node _ k v _) => (k, v)
  | _ => (0, 0)

/-- `Position.key()` (binary_search_tree.py 11-13). -/
def keyAtD (t : BTree) (p : List Dir) : Nat :=
  (entryAtD t p).1

/-- `TreeMap._subtree_first_position` (binary_search_tree.py 31-36):
walk left while a left child exists, as a path relative to the walk's
start. -/
def firstPath : BTree → List Dir
  | BTree.leaf => []
  | BTree.node l _ _ _ =>
    match l with
    | BTree.leaf => []
    | BTree.node _ _ _ _ => Dir.L :: firstPath l

/-- The upward phase of `TreeMap.after` (binary_search_tree.py 71-77) on
a reversed path: climb while the walk node is its parent's right child;
the answer is the first ancestor reached from a left child (`none` once
the root is passed). -/
def climbRight : List Dir → Option (List Dir)
  | [] => none
  | Dir.R :: rest => climbRight rest
  | Dir.L :: rest => some rest.reverse

/-- `TreeMap.after` (binary_search_tree.py 66-77): in-order successor of
position `p`, `none` when `p` is the last position. -/
def after (t : BTree) (p : List Dir) : Option (List Dir) :=
  match subtreeAt t p with
  | some (BTree.node _ _ _ r) =>
    match r with
    | BTree.leaf => climbRight p.reverse
    | BTree.node _ _ _ _ => some (p ++ Dir.R :: firstPath r)
  | _ => none

/-- `TreeMap._subtree_search` (binary_search_tree.py 19-29) as the path
of the returned position: stop at a matching key, else descend while the
relevant child exists; the final node is where the search fails. -/
def subtreeSearch : BTree → Nat → List Dir
  | BTree.leaf, _ => []
  | BTree.node l k0 _ r, k =>
    if k = k0 then []
    else if k < k0 then
      match l with
      | BTree.leaf => []
      | BTree.node _ _ _ _ => Dir.L :: subtreeSearch l k
    else
      match r with
      | BTree.leaf => []
      | BTree.node _ _ _ _ => Dir.R :: subtreeSearch r k

/-- `TreeMap.__getitem__` (binary_search_tree.py 128-136): `none` is the
`KeyError` on an empty map or when the search lands on a different
key. -/
def treeGet (t : BTree) (k : Nat) : Option Nat :=
  match t with
  | BTree.leaf => none
  | BTree.node _ _ _ _ =>
    let p := subtreeSearch t k
    if k = keyAtD t p then some (entryAtD t p).2 else none

/-- `TreeMap.__setitem__` (binary_search_tree.py 138-152) with the
descent of `_subtree_search` inlined: overwrite the value at a matching
key, otherwise attach a new leaf under the final search node (left if
the new key is smaller, right if larger); `_add_root`, `_add_left` and
`_add_right` are modelled from the spec as leaf attachment. -/
def treeSet : BTree → Nat → Nat → BTree
  | BTree.leaf, k, v => BTree.node BTree.leaf k v BTree.leaf
  | BTree.node l k0 v0 r, k, v =>
    if k = k0 then BTree.node l k0 v r
    else if k < k0 then
      match l with
      | BTree.leaf =>
        BTree.node (BTree.node BTree.leaf k v BTree.leaf) k0 v0 r
      | BTree.node _ _ _ _ => BTree.node (treeSet l k v) k0 v0 r
    else
      match r with
      | BTree.leaf =>
        BTree.node l k0 v0 (BTree.node BTree.leaf k v BTree.leaf)
      | BTree.node _ _ _ _ => BTree.node l k0 v0 (treeSet r k v)

/-- The entry at `TreeMap._subtree_last_position` (binary_search_tree.py
38-43) of a subtree: walk right while a right child exists. -/
def lastEntry : BTree → Nat × Nat
  | BTree.leaf => (0, 0)
  | BTree.node l k v r =>
    match r with
    | BTree.leaf => (k, v)
    | BTree.node _ _ _ _ => lastEntry r

/-- Removal of the `_subtree_last_position` node of a subtree; that node
has no right child, so the modelled-from-the-spec single-child `_delete`
promotes its left child in place. -/
def dropLastNode : BTree → BTree
  | BTree.leaf => BTree.leaf
  | BTree.node l k v r =>
    match r with
    | BTree.leaf => l
    | BTree.node _ _ _ _ => BTree.node l k v (dropLastNode r)

/-- Modelled from the spec: rewrite the subtree at a valid position (an
invalid path leaves a leaf). -/
def updateAt : BTree → List Dir → (BTree → BTree) → BTree
  | t, [], f => f t
  | BTree.leaf, _ :: _, _ => BTree.leaf
  | BTree.node l k v r, Dir.L :: q, f => BTree.node (updateAt l q f) k v r
  | BTree.node l k v r, Dir.R :: q, f => BTree.node l k v (updateAt r q f)

/-- `TreeMap.delete` (binary_search_tree.py 161-169): with two children,
replace the entry at `p` by the entry of the in-order predecessor (the
last position of the left subtree) and delete the predecessor's node;
with at most one child, the modelled-from-the-spec `_delete` promotes
the remaining child.  `none` is the invalid-position error. -/
def treeDeletePos (t : BTree) (p : List Dir) : Option BTree :=
  match subtreeAt t p with
  | some (BTree.node l0 _ _ r0) =>
    if l0 ≠ BTree.leaf ∧ r0 ≠ BTree.leaf then
      some (updateAt t p fun s =>
        match s with
        | BTree.node l1 _ _ r1 =>
          BTree.node (dropLastNode l1) (lastEntry l1).1 (lastEntry l1).2 r1
        | BTree.leaf => BTree.leaf)
    else
      some (updateAt t p fun s =>
        match s with
        | BTree.node l1 _ _ r1 => if l1 = BTree.leaf then r1 else l1
        | BTree.leaf => BTree.leaf)
  | _ => none

/-- `TreeMap.__delitem__` (binary_search_tree.py 171-178): `none` is the
`KeyError` (empty map, or the search lands on a different key). -/
def treeDelKey (t : BTree) (k : Nat) : Option BTree :=
  match t with
  | BTree.leaf => none
  | BTree.node _ _ _ _ =>
    let p := subtreeSearch t k
    if k = keyAtD t p then treeDeletePos t p else none

/-- The loop of `TreeMap.__iter__` (binary_search_tree.py 154-159),
one fuel unit per yielded key. -/
def treeIterLoop (t : BTree) : Option (List Dir) → Nat → List Nat
  | _, 0 => []
  | none, _ => []
  | some p, fuel + 1 => keyAtD t p :: treeIterLoop t (after t p) fuel

/-- `TreeMap.__iter__` (binary_search_tree.py 154-159): walk `after`
from `first()`; the tree's size bounds the number of iterations. -/
def treeIter (t : BTree) : List Nat :=
  treeIterLoop t
    (match t with
     | BTree.leaf => none
     | BTree.node _ _ _ _ => some (firstPath t))
    (treeSize t)

/-- The `while` loop of `TreeMap.find_range` (binary_search_tree.py
124-126): yield entries while the position exists and its key is below
`stop`. -/
def treeRangeLoop (t : BTree) (stop : Option Nat) :
    Option (List Dir) → Nat → List (Nat × Nat)
  | _, 0 => []
  | none, _ => []
  | some p, fuel + 1 =>
    if stopOk stop (keyAtD t p) then
      entryAtD t p :: treeRangeLoop t stop (after t p) fuel
    else []

/-- `TreeMap.find_range` (binary_search_tree.py 111-126): start at
`first()` or at the search position for `start` (advanced once by
`after` when its key is below `start`), then yield while below
`stop`. -/
def treeFindRange (t : BTree) (start stop : Option Nat) :
    List (Nat × Nat) :=
  match t with
  | BTree.leaf => []
  | BTree.node _ _ _ _ =>
    let p0 : Option (List Dir) :=
      match start with
      | none => some (firstPath t)
      | some s =>
        let p := subtreeSearch t s
        if keyAtD t p < s then after t p else some p
    treeRangeLoop t stop p0 (treeSize t)

/-- `TreeMap.find_ge` (binary_search_tree.py 101-109).  The return line
parses as `return (p.key(), (p.value() if p is not None else None))`, so
`p.key()` is evaluated even when `after` returned `None`;
`Except.error ()` is that `AttributeError`. -/
def treeFindGe (t : BTree) (k : Nat) : Except Unit (Option (Nat × Nat)) :=
  match t with
  | BTree.leaf => Except.ok none
  | BTree.node _ _ _ _ =>
    let p := subtreeSearch t k
    if keyAtD t p < k then
      match after t p with
      | none => Except.error ()
      | some q => Except.ok (some (entryAtD t q))
    else Except.ok (some (entryAtD t p))

/-- The binary-search-tree invariant, stated on the in-order entry
sequence: keys strictly increase. -/
def BST (t : BTree) : Prop := SortedKeys (inorder t)

/-- States of a `TreeMap` reachable from the constructor through the
map contract. -/
inductive TreeReachable : BTree → Prop where
  | init : TreeReachable BTree.leaf
  | set (t k v) : TreeReachable t → TreeReachable (treeSet t k v)
  | del (t k t') : TreeReachable t → treeDelKey t k = some t' →
      TreeReachable t'

theorem inorder_length_size (t : BTree) : (inorder t).length = treeSize t := by
  induction t with
  | leaf => rfl
  | node l k v r ihl ihr =>
    rw [inorder, treeSize, List.length_append, List.length_cons, ← ihl, ← ihr]
    omega

/-- The in-order list of positions (paths) of a tree's nodes. -/
def pathsInorder : BTree → List (List Dir)
  | BTree.leaf => []
  | BTree.node l _ _ r =>
    (pathsInorder l).map (fun q => Dir.L :: q) ++
      ([] :: (pathsInorder r).map (fun q => Dir.R :: q))

theorem pathsInorder_length (t : BTree) :
    (pathsInorder t).length = (inorder t).length := by
  induction t with
  | leaf => rfl
  | node l k v r ihl ihr =>
    rw [pathsInorder, inorder, List.length_append, List.length_append,
      List.length_cons, List.length_cons, List.length_map, List.length_map,
      ihl, ihr]

theorem pathsInorder_valid (t : BTree) :
    ∀ p ∈ pathsInorder t, ∃ a b c d, subtreeAt t p = some (BTree.node a b c d) := by
  induction t with
  | leaf => intro p hp; exact absurd hp (by simp [pathsInorder])
  | node l k v r ihl ihr =>
    intro p hp
    rw [pathsInorder] at hp
    rcases List.mem_append.mp hp with hp | hp
    · rcases List.mem_map.mp hp with ⟨q, hq, he⟩
      rcases ihl q hq with ⟨a, b, c, d, hs⟩
      exact ⟨a, b, c, d, by rw [← he]; exact hs⟩
    · rcases List.mem_cons.mp hp with hp | hp
      · exact ⟨l, k, v, r, by rw [hp]; rfl⟩
      · rcases List.mem_map.mp hp with ⟨q, hq, he⟩
        rcases ihr q hq with ⟨a, b, c, d, hs⟩
        exact ⟨a, b, c, d, by rw [← he]; exact hs⟩

theorem pathsInorder_entries (t : BTree) :
    (pathsInorder t).map (entryAtD t) = inorder t := by
  induction t with
  | leaf => rfl
  | node l k v r ihl ihr =>
    rw [pathsInorder, inorder, List.map_append, List.map_cons]
    have h1 : ((pathsInorder l).map (fun q => Dir.L :: q)).map
        (entryAtD (BTree.node l k v r)) = (pathsInorder l).map (entryAtD l) := by
      rw [List.map_map]
      rfl
    have h2 : ((pathsInorder r).map (fun q => Dir.R :: q)).map
        (entryAtD (BTree.node l k v r)) = (pathsInorder r).map (entryAtD r) := by
      rw [List.map_map]
      rfl
    rw [h1, h2, ihl, ihr]
    rfl

theorem getD_map_entryAtD (t : BTree) (ps : List (List Dir)) (j : Nat)
    (hj : j < ps.length) :
    (ps.map (entryAtD t)).getD j (0, 0) = entryAtD t (ps.getD j []) := by
  rw [List.getD_eq_getElem _ _ (by simpa using hj), List.getElem_map,
    List.getD_eq_getElem _ _ hj]

theorem entryAtD_pathsInorder (t : BTree) (j : Nat)
    (hj : j < (pathsInorder t).length) :
    entryAtD t ((pathsInorder t).getD j []) = (inorder t).getD j (0, 0) := by
  rw [← getD_map_entryAtD t _ j hj, pathsInorder_entries]

theorem climbRight_snoc_L (w : List Dir) :
    climbRight (w ++ [Dir.L]) =
      some (match climbRight w with | some x => Dir.L :: x | none => []) := by
  induction w with
  | nil => rfl
  | cons d rest ih =>
    cases d with
    | R =>
      rw [List.cons_append]
      show climbRight (rest ++ [Dir.L]) = _
      rw [ih]
      rfl
    | L =>
      rw [List.cons_append]
      show some ((rest ++ [Dir.L]).reverse) = _
      rw [List.reverse_append]
      rfl

theorem climbRight_snoc_R (w : List Dir) :
    climbRight (w ++ [Dir.R]) = (climbRight w).map (fun x => Dir.R :: x) := by
  induction w with
  | nil => rfl
  | cons d rest ih =>
    cases d with
    | R =>
      rw [List.cons_append]
      show climbRight (rest ++ [Dir.R]) = _
      rw [ih]
      rfl
    | L =>
      rw [List.cons_append]
      show some ((rest ++ [Dir.R]).reverse) = _
      rw [List.reverse_append]
      rfl

theorem after_subL (l : BTree) (k v : Nat) (r : BTree) (q : List Dir)
    (a : BTree) (b c : Nat) (d : BTree)
    (hq : subtreeAt l q = some (BTree.node a b c d)) :
    after (BTree.node l k v r) (Dir.L :: q) =
      match after l q with
      | some x => some (Dir.L :: x)
      | none => some [] := by
  have hstep : subtreeAt (BTree.node l k v r) (Dir.L :: q) = subtreeAt l q := rfl
  rw [after, hstep, hq, after, hq]
  cases d with
  | node d1 d2 d3 d4 => rfl
  | leaf =>
    show climbRight (Dir.L :: q).reverse = _
    rw [List.reverse_cons, climbRight_snoc_L]
    cases h : climbRight q.reverse <;> rfl

theorem after_subR (l : BTree) (k v : Nat) (r : BTree) (q : List Dir)
    (a : BTree) (b c : Nat) (d : BTree)
    (hq : subtreeAt r q = some (BTree.node a b c d)) :
    after (BTree.node l k v r) (Dir.R :: q) =
      (after r q).map (fun x => Dir.R :: x) := by
  have hstep : subtreeAt (BTree.node l k v r) (Dir.R :: q) = subtreeAt r q := rfl
  rw [after, hstep, hq, after, hq]
  cases d with
  | node d1 d2 d3 d4 => rfl
  | leaf =>
    show climbRight (Dir.R :: q).reverse = _
    rw [List.reverse_cons, climbRight_snoc_R]

/-- The walk `p := after(p)` starting at `p0` visits exactly the
positions `ps` and then lands on `pend`. -/
def ChainThrough (t : BTree) : Option (List Dir) → List (List Dir) →
    Option (List Dir) → Prop
  | p0, [], pend => p0 = pend
  | p0, q :: rest, pend => p0 = some q ∧ ChainThrough t (after t q) rest pend

theorem chainThrough_append (t : BTree) :
    ∀ (xs : List (List Dir)) (ys : List (List Dir)) p0 pmid pend,
      ChainThrough t p0 xs pmid → ChainThrough t pmid ys pend →
      ChainThrough t p0 (xs ++ ys) pend := by
  intro xs
  induction xs with
  | nil =>
    intro ys p0 pmid pend h1 h2
    have h : p0 = pmid := h1
    rw [List.nil_append]
    rw [h]
    exact h2
  | cons q rest ih =>
    intro ys p0 pmid pend h1 h2
    rcases h1 with ⟨he, h1⟩
    exact ⟨he, ih ys _ pmid pend h1 h2⟩

theorem chainThrough_liftL (l : BTree) (k v : Nat) (r : BTree) :
    ∀ (psl : List (List Dir)),
      (∀ q ∈ psl, ∃ a b c d, subtreeAt l q = some (BTree.node a b c d)) →
      ∀ q0, ChainThrough l (some q0) psl none →
      ChainThrough (BTree.node l k v r) (some (Dir.L :: q0))
        (psl.map (fun q => Dir.L :: q)) (some []) := by
  intro psl
  induction psl with
  | nil =>
    intro _ q0 h
    exact absurd h (by simp [ChainThrough])
  | cons q rest ih =>
    intro hvalid q0 h
    rcases h with ⟨he, h⟩
    injection he with he
    subst he
    rcases hvalid q0 (List.mem_cons_self _ _) with ⟨a, b, c, d, hs⟩
    rw [List.map_cons]
    refine ⟨rfl, ?_⟩
    rw [after_subL l k v r q0 a b c d hs]
    cases rest with
    | nil =>
      have hnone : after l q0 = none := h
      rw [hnone]
      exact rfl
    | cons q2 rest2 =>
      have hsome : after l q0 = some q2 := h.1
      rw [hsome]
      exact ih (fun x hx => hvalid x (List.mem_cons_of_mem _ hx)) q2
        (hsome ▸ h)

theorem chainThrough_liftR (l : BTree) (k v : Nat) (r : BTree) :
    ∀ (psr : List (List Dir)),
      (∀ q ∈ psr, ∃ a b c d, subtreeAt r q = some (BTree.node a b c d)) →
      ∀ q0, ChainThrough r (some q0) psr none →
      ChainThrough (BTree.node l k v r) (some (Dir.R :: q0))
        (psr.map (fun q => Dir.R :: q)) none := by
  intro psr
  induction psr with
  | nil =>
    intro _ q0 h
    exact absurd h (by simp [ChainThrough])
  | cons q rest ih =>
    intro hvalid q0 h
    rcases h with ⟨he, h⟩
    injection he with he
    subst he
    rcases hvalid q0 (List.mem_cons_self _ _) with ⟨a, b, c, d, hs⟩
    rw [List.map_cons]
    refine ⟨rfl, ?_⟩
    rw [after_subR l k v r q0 a b c d hs]
    cases rest with
    | nil =>
      have hnone : after r q0 = none := h
      rw [hnone]
      exact rfl
    | cons q2 rest2 =>
      have hsome : after r q0 = some q2 := h.1
      rw [hsome]
      exact ih (fun x hx => hvalid x (List.mem_cons_of_mem _ hx)) q2
        (hsome ▸ h)

/-- The in-order walk of the whole tree: starting from `first()`, the
`after` steps visit every node in in-order and then stop. -/
theorem mainChain (t : BTree) (ht : t ≠ BTree.leaf) :
    ChainThrough t (some (firstPath t)) (pathsInorder t) none := by
  induction t with
  | leaf => exact absurd rfl ht
  | node l k v r ihl ihr =>
    have hroot : ChainThrough (BTree.node l k v r) (some [])
        ([] :: (pathsInorder r).map (fun q => Dir.R :: q)) none := by
      refine ⟨rfl, ?_⟩
      cases r with
      | leaf =>
        show after (BTree.node l k v BTree.leaf) [] = none
        rfl
      | node rl rk rv rr =>
        have hafter : after (BTree.node l k v (BTree.node rl rk rv rr)) [] =
            some (Dir.R :: firstPath (BTree.node rl rk rv rr)) := rfl
        rw [hafter]
        exact chainThrough_liftR l k v _ (pathsInorder _)
          (pathsInorder_valid _) (firstPath _) (ihr (by simp))
    cases l with
    | leaf =>
      rw [pathsInorder]
      show ChainThrough _ (some (firstPath (BTree.node BTree.leaf k v r))) _ _
      have hfp : firstPath (BTree.node BTree.leaf k v r) = [] := rfl
      rw [hfp]
      exact hroot
    | node ll lk lv lr =>
      have hchain1 := chainThrough_liftL (BTree.node ll lk lv lr) k v r
        (pathsInorder _) (pathsInorder_valid _) (firstPath _) (ihl (by simp))
      have hfp : firstPath (BTree.node (BTree.node ll lk lv lr) k v r) =
          Dir.L :: firstPath (BTree.node ll lk lv lr) := rfl
      rw [pathsInorder, hfp]
      exact chainThrough_append _ _ _ _ _ _ hchain1 hroot

theorem chainThrough_suffix (t : BTree) :
    ∀ (xs ys : List (List Dir)) (q : List Dir) p0,
      ChainThrough t p0 (xs ++ q :: ys) none →
      ChainThrough t (some q) (q :: ys) none := by
  intro xs
  induction xs with
  | nil =>
    intro ys q p0 h
    rcases h with ⟨he, h⟩
    exact ⟨rfl, h⟩
  | cons x rest ih =>
    intro ys q p0 h
    exact ih ys q _ h.2

theorem treeIterLoop_chain (t : BTree) :
    ∀ (ps : List (List Dir)) (p0 : Option (List Dir)) (fuel : Nat),
      ChainThrough t p0 ps none → ps.length ≤ fuel →
      treeIterLoop t p0 fuel = ps.map (keyAtD t) := by
  intro ps
  induction ps with
  | nil =>
    intro p0 fuel h _
    have hp : p0 = none := h
    subst hp
    cases fuel <;> rfl
  | cons q rest ih =>
    intro p0 fuel h hfuel
    rcases h with ⟨he, h⟩
    subst he
    cases fuel with
    | zero => exact absurd hfuel (by simp)
    | succ f =>
      rw [treeIterLoop, List.map_cons]
      rw [ih (after t q) f h (by simp at hfuel; omega)]

theorem treeRangeLoop_chain (t : BTree) (stop : Option Nat) :
    ∀ (ps : List (List Dir)) (p0 : Option (List Dir)) (fuel : Nat),
      ChainThrough t p0 ps none → ps.length ≤ fuel →
      treeRangeLoop t stop p0 fuel =
        (ps.map (entryAtD t)).takeWhile (fun e => stopOk stop e.1) := by
  intro ps
  induction ps with
  | nil =>
    intro p0 fuel h _
    have hp : p0 = none := h
    subst hp
    cases fuel <;> rfl
  | cons q rest ih =>
    intro p0 fuel h hfuel
    rcases h with ⟨he, h⟩
    subst he
    cases fuel with
    | zero => exact absurd hfuel (by simp)
    | succ f =>
      rw [treeRangeLoop, List.map_cons, List.takeWhile_cons]
      have hk : keyAtD t q = (entryAtD t q).1 := rfl
      by_cases hstop : stopOk stop (entryAtD t q).1 = true
      · rw [hk, if_pos hstop, if_pos hstop,
          ih (after t q) f h (by simp at hfuel; omega)]
      · rw [hk, if_neg (by simpa using hstop), if_neg (by simpa using hstop)]

/-- `__iter__` yields exactly the in-order key sequence. -/
theorem treeIter_inorder (t : BTree) :
    treeIter t = (inorder t).map Prod.fst := by
  cases t with
  | leaf => rfl
  | node l k v r =>
    rw [treeIter]
    have hchain := mainChain (BTree.node l k v r) (by simp)
    rw [treeIterLoop_chain (BTree.node l k v r) (pathsInorder _) _ _ hchain
      (by rw [pathsInorder_length, inorder_length_size])]
    have hkey : (pathsInorder (BTree.node l k v r)).map
        (keyAtD (BTree.node l k v r)) =
        ((pathsInorder (BTree.node l k v r)).map
          (entryAtD (BTree.node l k v r))).map Prod.fst := by
      rw [List.map_map]
      rfl
    rw [hkey, pathsInorder_entries]

/-- The walk restarted at in-order position `j` visits the remaining
positions. -/
theorem chainThrough_drop (t : BTree) (ht : t ≠ BTree.leaf) (j : Nat)
    (hj : j < (pathsInorder t).length) :
    ChainThrough t (some ((pathsInorder t).getD j []))
      ((pathsInorder t).drop j) none := by
  have hchain := mainChain t ht
  have hsplit : pathsInorder t = (pathsInorder t).take j ++
      ((pathsInorder t).getD j [] :: (pathsInorder t).drop (j + 1)) := by
    rw [List.getD_eq_getElem _ _ hj, ← List.drop_eq_getElem_cons hj,
      List.take_append_drop]
  rw [hsplit] at hchain
  have hsuffix := chainThrough_suffix t _ _ _ _ hchain
  have hdrop : (pathsInorder t).drop j =
      (pathsInorder t).getD j [] :: (pathsInorder t).drop (j + 1) := by
    rw [List.getD_eq_getElem _ _ hj, ← List.drop_eq_getElem_cons hj]
  rw [hdrop]
  exact hsuffix

theorem bst_node (l : BTree) (k v : Nat) (r : BTree)
    (hs : BST (BTree.node l k v r)) :
    BST l ∧ BST r ∧ (∀ x ∈ (inorder l).map Prod.fst, x < k) ∧
      (∀ x ∈ (inorder r).map Prod.fst, k < x) := by
  rw [BST, SortedKeys, inorder, List.map_append, List.map_cons,
    List.pairwise_append] at hs
  rcases hs with ⟨h1, h2, h3⟩
  rw [List.pairwise_cons] at h2
  exact ⟨h1, h2.2, fun x hx => h3 x hx k (List.mem_cons_self _ _),
    fun x hx => h2.1 x hx⟩

theorem inorder_getD_left (l : BTree) (k v : Nat) (r : BTree) (i : Nat)
    (hi : i < (inorder l).length) :
    (inorder (BTree.node l k v r)).getD i (0, 0) = (inorder l).getD i (0, 0) := by
  rw [inorder, List.getD_append _ _ _ _ hi]

theorem inorder_getD_mid (l : BTree) (k v : Nat) (r : BTree) :
    (inorder (BTree.node l k v r)).getD (inorder l).length (0, 0) = (k, v) := by
  rw [inorder, List.getD_append_right _ _ _ _ (le_refl _), Nat.sub_self]
  rfl

theorem inorder_getD_right (l : BTree) (k v : Nat) (r : BTree) (i : Nat)
    (hi : (inorder l).length < i) :
    (inorder (BTree.node l k v r)).getD i (0, 0) =
      (inorder r).getD (i - (inorder l).length - 1) (0, 0) := by
  rw [inorder, List.getD_append_right _ _ _ _ (le_of_lt hi)]
  rcases Nat.exists_eq_add_of_lt hi with ⟨m, hm⟩
  have h2 : i - (inorder l).length - 1 = m := by omega
  have h1 : i - (inorder l).length = m + 1 := by omega
  rw [h2, h1, List.getD_cons_succ]

theorem getD_map_cons (d : Dir) (ps : List (List Dir)) (j : Nat)
    (hj : j < ps.length) :
    (ps.map (fun q => d :: q)).getD j [] = d :: ps.getD j [] := by
  rw [List.getD_eq_getElem _ _ (by simpa using hj), List.getElem_map,
    List.getD_eq_getElem _ _ hj]

theorem paths_getD_left (l : BTree) (k v : Nat) (r : BTree) (j : Nat)
    (hj : j < (pathsInorder l).length) :
    (pathsInorder (BTree.node l k v r)).getD j [] =
      Dir.L :: (pathsInorder l).getD j [] := by
  rw [pathsInorder, List.getD_append _ _ _ _ (by simpa using hj),
    getD_map_cons Dir.L _ _ hj]

theorem paths_getD_mid (l : BTree) (k v : Nat) (r : BTree) :
    (pathsInorder (BTree.node l k v r)).getD (pathsInorder l).length [] = [] := by
  rw [pathsInorder, List.getD_append_right _ _ _ _ (by simp)]
  have he : (pathsInorder l).length -
      ((pathsInorder l).map (fun q => Dir.L :: q)).length = 0 := by
    simp
  rw [he]
  rfl

theorem paths_getD_right (l : BTree) (k v : Nat) (r : BTree) (j : Nat)
    (hj : j < (pathsInorder r).length) :
    (pathsInorder (BTree.node l k v r)).getD
        ((pathsInorder l).length + 1 + j) [] =
      Dir.R :: (pathsInorder r).getD j [] := by
  rw [pathsInorder, List.getD_append_right _ _ _ _ (by simp; omega)]
  have he : (pathsInorder l).length + 1 + j -
      ((pathsInorder l).map (fun q => Dir.L :: q)).length = j + 1 := by
    simp
    omega
  rw [he, List.getD_cons_succ, getD_map_cons Dir.R _ _ hj]

theorem key_getD_mem (es : List (Nat × Nat)) (i : Nat) (hi : i < es.length) :
    (es.getD i (0, 0)).1 ∈ es.map Prod.fst := by
  rw [List.getD_eq_getElem _ _ hi]
  exact List.mem_map.mpr ⟨_, List.getElem_mem _, rfl⟩

theorem pathsInorder_node_length (l : BTree) (k v : Nat) (r : BTree) :
    (pathsInorder (BTree.node l k v r)).length =
      (pathsInorder l).length + 1 + (pathsInorder r).length := by
  rw [pathsInorder]
  simp
  omega

theorem inorder_node_length (l : BTree) (k v : Nat) (r : BTree) :
    (inorder (BTree.node l k v r)).length =
      (inorder l).length + 1 + (inorder r).length := by
  rw [inorder]
  simp
  omega

theorem subtreeSearch_node (l : BTree) (k0 v0 : Nat) (r : BTree) (k : Nat) :
    subtreeSearch (BTree.node l k0 v0 r) k =
      if k = k0 then []
      else if k < k0 then
        match l with
        | BTree.leaf => []
        | BTree.node _ _ _ _ => Dir.L :: subtreeSearch l k
      else
        match r with
        | BTree.leaf => []
        | BTree.node _ _ _ _ => Dir.R :: subtreeSearch r k := by
  cases l <;> cases r <;> rfl

/-- Bracketing of `_subtree_search`: the returned position sits at an
in-order index `j`; every key at an earlier index is below the target
`s` and every key at a later index is above it. -/
theorem searchBracket (t : BTree) :
    BST t → t ≠ BTree.leaf → ∀ s : Nat,
    ∃ j, j < (pathsInorder t).length ∧
      subtreeSearch t s = (pathsInorder t).getD j [] ∧
      (∀ i, i < j → ((inorder t).getD i (0, 0)).1 < s) ∧
      (∀ i, j < i → i < (inorder t).length →
        s < ((inorder t).getD i (0, 0)).1) := by
  induction t with
  | leaf => intro _ ht _; exact absurd rfl ht
  | node l k v r ihl ihr =>
    intro hs _ s
    rcases bst_node l k v r hs with ⟨hbl, hbr, hkl, hkr⟩
    have hpl : (pathsInorder l).length = (inorder l).length :=
      pathsInorder_length l
    have hpr : (pathsInorder r).length = (inorder r).length :=
      pathsInorder_length r
    have hlen := pathsInorder_node_length l k v r
    have hilen := inorder_node_length l k v r
    rcases Nat.lt_trichotomy s k with hlt | heq | hgt
    · -- target below the node key: descend left
      cases l with
      | leaf =>
        refine ⟨0, by omega, ?_, by omega, ?_⟩
        · rw [subtreeSearch_node, if_neg (by omega), if_pos hlt]
          have hmid := paths_getD_mid BTree.leaf k v r
          exact hmid.symm
        · intro i hi hin
          have hi0 : (inorder BTree.leaf).length < i := by
            show 0 < i
            omega
          rw [inorder_getD_right BTree.leaf k v r i hi0]
          have hm : i - (inorder BTree.leaf).length - 1 < (inorder r).length := by
            have h0 : (inorder BTree.leaf).length = 0 := rfl
            omega
          have := hkr _ (key_getD_mem (inorder r) _ hm)
          omega
      | node ll lk lv lr =>
        rcases ihl hbl (by simp) s with ⟨jl, hjl, hjeq, hc1, hc2⟩
        refine ⟨jl, by omega, ?_, ?_, ?_⟩
        · rw [subtreeSearch_node, if_neg (by omega), if_pos hlt]
          show Dir.L :: subtreeSearch (BTree.node ll lk lv lr) s = _
          rw [hjeq, paths_getD_left _ k v r jl hjl]
        · intro i hi
          rw [inorder_getD_left _ k v r i (by omega)]
          exact hc1 i hi
        · intro i hi hin
          by_cases hcase : i < (inorder (BTree.node ll lk lv lr)).length
          · rw [inorder_getD_left _ k v r i hcase]
            exact hc2 i hi hcase
          · by_cases hcase2 : i = (inorder (BTree.node ll lk lv lr)).length
            · rw [hcase2, inorder_getD_mid]
              exact hlt
            · have hgt2 : (inorder (BTree.node ll lk lv lr)).length < i := by
                omega
              rw [inorder_getD_right _ k v r i hgt2]
              have hm : i - (inorder (BTree.node ll lk lv lr)).length - 1 <
                  (inorder r).length := by omega
              have := hkr _ (key_getD_mem (inorder r) _ hm)
              omega
    · -- target equals the node key: found at the root position
      refine ⟨(pathsInorder l).length, by omega, ?_, ?_, ?_⟩
      · rw [subtreeSearch_node, if_pos heq]
        exact (paths_getD_mid l k v r).symm
      · intro i hi
        rw [inorder_getD_left l k v r i (by omega)]
        have hm : i < (inorder l).length := by omega
        have := hkl _ (key_getD_mem (inorder l) _ hm)
        omega
      · intro i hi hin
        have hgt2 : (inorder l).length < i := by omega
        rw [inorder_getD_right l k v r i hgt2]
        have hm : i - (inorder l).length - 1 < (inorder r).length := by omega
        have := hkr _ (key_getD_mem (inorder r) _ hm)
        omega
    · -- target above the node key: descend right
      cases r with
      | leaf =>
        refine ⟨(pathsInorder l).length, by omega, ?_, ?_, by
          intro i hi hin
          have h0 : (inorder BTree.leaf).length = 0 := rfl
          omega⟩
        · rw [subtreeSearch_node, if_neg (by omega), if_neg (by omega)]
          exact (paths_getD_mid l k v BTree.leaf).symm
        · intro i hi
          rw [inorder_getD_left l k v BTree.leaf i (by omega)]
          have hm : i < (inorder l).length := by omega
          have := hkl _ (key_getD_mem (inorder l) _ hm)
          omega
      | node rl rk rv rr =>
        rcases ihr hbr (by simp) s with ⟨jr, hjr, hjeq, hc1, hc2⟩
        refine ⟨(pathsInorder l).length + 1 + jr, by omega, ?_, ?_, ?_⟩
        · rw [subtreeSearch_node, if_neg (by omega), if_neg (by omega)]
          show Dir.R :: subtreeSearch (BTree.node rl rk rv rr) s = _
          rw [hjeq, paths_getD_right l k v _ jr hjr]
        · intro i hi
          by_cases hcase : i < (inorder l).length
          · rw [inorder_getD_left l k v _ i hcase]
            have := hkl _ (key_getD_mem (inorder l) _ hcase)
            omega
          · by_cases hcase2 : i = (inorder l).length
            · rw [hcase2, inorder_getD_mid]
              exact hgt
            · have hgt2 : (inorder l).length < i := by omega
              rw [inorder_getD_right l k v _ i hgt2]
              exact hc1 _ (by omega)
        · intro i hi hin
          have hgt2 : (inorder l).length < i := by omega
          rw [inorder_getD_right l k v _ i hgt2]
          exact hc2 _ (by omega) (by omega)

theorem treeGet_node (l : BTree) (k0 v0 : Nat) (r : BTree) (k : Nat) :
    treeGet (BTree.node l k0 v0 r) k =
      if k = keyAtD (BTree.node l k0 v0 r)
          (subtreeSearch (BTree.node l k0 v0 r) k) then
        some (entryAtD (BTree.node l k0 v0 r)
          (subtreeSearch (BTree.node l k0 v0 r) k)).2
      else none := rfl

/-- `__getitem__` succeeds exactly on the keys present in the tree. -/
theorem treeGet_iff_mem (t : BTree) (hs : BST t) (x : Nat) :
    (treeGet t x).isSome = true ↔ x ∈ (inorder t).map Prod.fst := by
  cases t with
  | leaf => simp [treeGet, inorder]
  | node l k v r =>
    rcases searchBracket (BTree.node l k v r) hs (by simp) x with
      ⟨j, hj, heq, hc1, hc2⟩
    have hjlen : j < (inorder (BTree.node l k v r)).length := by
      rw [← pathsInorder_length]
      exact hj
    have hkey : keyAtD (BTree.node l k v r)
        (subtreeSearch (BTree.node l k v r) x) =
        ((inorder (BTree.node l k v r)).getD j (0, 0)).1 := by
      rw [keyAtD, heq, entryAtD_pathsInorder _ j hj]
    rw [treeGet_node]
    by_cases hx : x = ((inorder (BTree.node l k v r)).getD j (0, 0)).1
    · rw [hkey, if_pos hx]
      constructor
      · intro _
        rw [hx]
        exact key_getD_mem _ j hjlen
      · intro _
        rfl
    · rw [hkey, if_neg hx]
      constructor
      · intro h
        exact absurd h (by simp)
      · intro hmem
        exfalso
        rcases List.mem_map.mp hmem with ⟨e, he, hex⟩
        rcases List.mem_iff_getElem.mp he with ⟨i, hi, hei⟩
        have hgd : (inorder (BTree.node l k v r)).getD i (0, 0) = e := by
          rw [List.getD_eq_getElem _ _ hi, hei]
        rcases Nat.lt_trichotomy i j with hij | hij | hij
        · have := hc1 i hij
          rw [hgd, hex] at this
          omega
        · rw [← hij] at hx
          rw [hgd, hex] at hx
          exact hx rfl
        · have := hc2 i hij hi
          rw [hgd, hex] at this
          omega

theorem treeSet_node (l : BTree) (k0 v0 : Nat) (r : BTree) (k v : Nat) :
    treeSet (BTree.node l k0 v0 r) k v =
      if k = k0 then BTree.node l k0 v r
      else if k < k0 then
        match l with
        | BTree.leaf => BTree.node (BTree.node BTree.leaf k v BTree.leaf) k0 v0 r
        | BTree.node _ _ _ _ => BTree.node (treeSet l k v) k0 v0 r
      else
        match r with
        | BTree.leaf => BTree.node l k0 v0 (BTree.node BTree.leaf k v BTree.leaf)
        | BTree.node _ _ _ _ => BTree.node l k0 v0 (treeSet r k v) := by
  cases l <;> cases r <;> rfl

theorem treeSet_ne_leaf (t : BTree) (k v : Nat) : treeSet t k v ≠ BTree.leaf := by
  cases t with
  | leaf => simp [treeSet]
  | node l k0 v0 r =>
    rw [treeSet_node]
    by_cases h1 : k = k0
    · rw [if_pos h1]
      simp
    · rw [if_neg h1]
      by_cases h2 : k < k0
      · rw [if_pos h2]
        cases l <;> simp
      · rw [if_neg h2]
        cases r <;> simp

/-- Round-trip on the tree variant: after `__setitem__`, `__getitem__`
finds the value, on every tree. -/
theorem treeGet_treeSet_self (t : BTree) (k v : Nat) :
    treeGet (treeSet t k v) k = some v := by
  induction t with
  | leaf =>
    show treeGet (BTree.node BTree.leaf k v BTree.leaf) k = some v
    simp [treeGet_node, subtreeSearch_node, keyAtD, entryAtD, subtreeAt]
  | node l k0 v0 r ihl ihr =>
    rw [treeSet_node]
    by_cases h1 : k = k0
    · rw [if_pos h1]
      rw [treeGet_node, subtreeSearch_node, if_pos h1]
      have hk : keyAtD (BTree.node l k0 v r) [] = k0 := rfl
      rw [hk, if_pos h1]
      rfl
    · rw [if_neg h1]
      by_cases h2 : k < k0
      · rw [if_pos h2]
        cases l with
        | leaf =>
          show treeGet (BTree.node (BTree.node BTree.leaf k v BTree.leaf)
            k0 v0 r) k = some v
          rw [treeGet_node, subtreeSearch_node, if_neg h1, if_pos h2]
          simp [subtreeSearch_node, keyAtD, entryAtD, subtreeAt]
        | node ll lk lv lr =>
          show treeGet (BTree.node (treeSet (BTree.node ll lk lv lr) k v)
            k0 v0 r) k = some v
          rcases hln : treeSet (BTree.node ll lk lv lr) k v with _ | ⟨a, b, c, d⟩
          · exact absurd hln (treeSet_ne_leaf _ k v)
          · rw [hln] at ihl
            rw [treeGet_node] at ihl
            rw [treeGet_node, subtreeSearch_node, if_neg h1, if_pos h2]
            have hstep : keyAtD
                (BTree.node (BTree.node a b c d) k0 v0 r)
                (Dir.L :: subtreeSearch (BTree.node a b c d) k) =
                keyAtD (BTree.node a b c d)
                  (subtreeSearch (BTree.node a b c d) k) := rfl
            have hstep2 : entryAtD
                (BTree.node (BTree.node a b c d) k0 v0 r)
                (Dir.L :: subtreeSearch (BTree.node a b c d) k) =
                entryAtD (BTree.node a b c d)
                  (subtreeSearch (BTree.node a b c d) k) := rfl
            by_cases hcond : k = keyAtD (BTree.node a b c d)
                (subtreeSearch (BTree.node a b c d) k)
            · rw [if_pos hcond] at ihl
              show (if k = keyAtD (BTree.node (BTree.node a b c d) k0 v0 r)
                  (Dir.L :: subtreeSearch (BTree.node a b c d) k) then _
                else none) = some v
              rw [hstep, if_pos hcond, hstep2]
              exact ihl
            · rw [if_neg hcond] at ihl
              exact absurd ihl (by simp)
      · rw [if_neg h2]
        cases r with
        | leaf =>
          show treeGet (BTree.node l k0 v0
            (BTree.node BTree.leaf k v BTree.leaf)) k = some v
          rw [treeGet_node, subtreeSearch_node, if_neg h1, if_neg h2]
          simp [subtreeSearch_node, keyAtD, entryAtD, subtreeAt]
        | node rl rk rv rr =>
          show treeGet (BTree.node l k0 v0
            (treeSet (BTree.node rl rk rv rr) k v)) k = some v
          rcases hrn : treeSet (BTree.node rl rk rv rr) k v with _ | ⟨a, b, c, d⟩
          · exact absurd hrn (treeSet_ne_leaf _ k v)
          · rw [hrn] at ihr
            rw [treeGet_node] at ihr
            rw [treeGet_node, subtreeSearch_node, if_neg h1, if_neg h2]
            have hstep : keyAtD
                (BTree.node l k0 v0 (BTree.node a b c d))
                (Dir.R :: subtreeSearch (BTree.node a b c d) k) =
                keyAtD (BTree.node a b c d)
                  (subtreeSearch (BTree.node a b c d) k) := rfl
            have hstep2 : entryAtD
                (BTree.node l k0 v0 (BTree.node a b c d))
                (Dir.R :: subtreeSearch (BTree.node a b c d) k) =
                entryAtD (BTree.node a b c d)
                  (subtreeSearch (BTree.node a b c d) k) := rfl
            by_cases hcond : k = keyAtD (BTree.node a b c d)
                (subtreeSearch (BTree.node a b c d) k)
            · rw [if_pos hcond] at ihr
              show (if k = keyAtD (BTree.node l k0 v0 (BTree.node a b c d))
                  (Dir.R :: subtreeSearch (BTree.node a b c d) k) then _
                else none) = some v
              rw [hstep, if_pos hcond, hstep2]
              exact ihr
            · rw [if_neg hcond] at ihr
              exact absurd ihr (by simp)

/-- `__setitem__` keeps the in-order keys strictly sorted and adds
exactly the written key to the key set. -/
theorem treeSet_sorted_mem (t : BTree) (k v : Nat) (hs : BST t) :
    BST (treeSet t k v) ∧
    (∀ x, x ∈ (inorder (treeSet t k v)).map Prod.fst ↔
      x = k ∨ x ∈ (inorder t).map Prod.fst) := by
  induction t with
  | leaf =>
    constructor
    · show SortedKeys (inorder (BTree.node BTree.leaf k v BTree.leaf))
      simp [inorder, SortedKeys]
    · intro x
      show x ∈ (inorder (BTree.node BTree.leaf k v BTree.leaf)).map Prod.fst ↔ _
      simp [inorder]
  | node l k0 v0 r ihl ihr =>
    rcases bst_node l k0 v0 r hs with ⟨hbl, hbr, hkl, hkr⟩
    by_cases h1 : k = k0
    · have htree : treeSet (BTree.node l k0 v0 r) k v
          = BTree.node l k0 v r := by
        rw [treeSet_node, if_pos h1]
      rw [htree]
      subst h1
      have hkeys : (inorder (BTree.node l k v r)).map Prod.fst
          = (inorder (BTree.node l k v0 r)).map Prod.fst := by
        simp [inorder]
      constructor
      · show SortedKeys (inorder (BTree.node l k v r))
        rw [SortedKeys, hkeys]
        exact hs
      · intro x
        rw [hkeys]
        constructor
        · exact Or.inr
        · rintro (hx | hx)
          · subst hx
            simp [inorder]
          · exact hx
    · by_cases h2 : k < k0
      · cases l with
        | leaf =>
          have htree : treeSet (BTree.node BTree.leaf k0 v0 r) k v
              = BTree.node (BTree.node BTree.leaf k v BTree.leaf) k0 v0 r := by
            rw [treeSet_node, if_neg h1, if_pos h2]
          rw [htree]
          constructor
          · show SortedKeys (inorder (BTree.node
              (BTree.node BTree.leaf k v BTree.leaf) k0 v0 r))
            rw [SortedKeys]
            simp only [inorder, List.nil_append, List.map_append, List.map_cons,
              List.map_nil, List.cons_append, List.nil_append]
            rw [List.pairwise_cons]
            refine ⟨?_, ?_⟩
            · intro x hx
              rcases List.mem_cons.mp hx with hx | hx
              · omega
              · have := hkr x (by simpa using hx)
                omega
            · rw [List.pairwise_cons]
              exact ⟨fun x hx => hkr x (by simpa using hx), hbr⟩
          · intro x
            simp only [inorder, List.nil_append, List.map_append, List.map_cons,
              List.map_nil, List.cons_append, List.nil_append]
            simp [List.mem_cons]
        | node ll lk lv lr =>
          have htree : treeSet (BTree.node (BTree.node ll lk lv lr) k0 v0 r) k v
              = BTree.node (treeSet (BTree.node ll lk lv lr) k v) k0 v0 r := by
            rw [treeSet_node, if_neg h1, if_pos h2]
          rw [htree]
          rcases ihl hbl with ⟨hbst', hmem'⟩
          constructor
          · show SortedKeys (inorder (BTree.node
              (treeSet (BTree.node ll lk lv lr) k v) k0 v0 r))
            rw [SortedKeys, inorder, List.map_append, List.map_cons,
              List.pairwise_append]
            refine ⟨hbst', ?_, ?_⟩
            · rw [List.pairwise_cons]
              exact ⟨fun x hx => hkr x hx, hbr⟩
            · intro x hx y hy
              have hxlt : x < k0 := by
                rcases (hmem' x).mp hx with hx | hx
                · omega
                · exact hkl x hx
              rcases List.mem_cons.mp hy with hy | hy
              · omega
              · have := hkr y hy
                omega
          · intro x
            rw [inorder, List.map_append, List.map_cons, List.mem_append,
              List.mem_cons]
            rw [inorder, List.map_append, List.map_cons, List.mem_append,
              List.mem_cons]
            rw [hmem' x]
            tauto
      · have h3 : k0 < k := by omega
        cases r with
        | leaf =>
          have htree : treeSet (BTree.node l k0 v0 BTree.leaf) k v
              = BTree.node l k0 v0 (BTree.node BTree.leaf k v BTree.leaf) := by
            rw [treeSet_node, if_neg h1, if_neg h2]
          rw [htree]
          constructor
          · show SortedKeys (inorder (BTree.node l k0 v0
              (BTree.node BTree.leaf k v BTree.leaf)))
            rw [SortedKeys, inorder, List.map_append, List.map_cons,
              List.pairwise_append]
            refine ⟨hbl, ?_, ?_⟩
            · simp only [inorder, List.nil_append, List.map_cons, List.map_nil]
              rw [List.pairwise_cons]
              refine ⟨?_, by simp⟩
              intro x hx
              rcases List.mem_cons.mp hx with hx | hx
              · omega
              · exact absurd hx (by simp)
            · intro x hx y hy
              have hxlt : x < k0 := hkl x hx
              simp only [inorder, List.nil_append, List.map_cons,
                List.map_nil] at hy
              rcases List.mem_cons.mp hy with hy | hy
              · omega
              · rcases List.mem_cons.mp hy with hy | hy
                · omega
                · exact absurd hy (by simp)
          · intro x
            simp only [inorder, List.map_append, List.map_cons, List.map_nil,
              List.mem_append, List.mem_cons, List.nil_append, List.not_mem_nil]
            tauto
        | node rl rk rv rr =>
          have htree : treeSet (BTree.node l k0 v0 (BTree.node rl rk rv rr)) k v
              = BTree.node l k0 v0 (treeSet (BTree.node rl rk rv rr) k v) := by
            rw [treeSet_node, if_neg h1, if_neg h2]
          rw [htree]
          rcases ihr hbr with ⟨hbst', hmem'⟩
          constructor
          · show SortedKeys (inorder (BTree.node l k0 v0
              (treeSet (BTree.node rl rk rv rr) k v)))
            rw [SortedKeys, inorder, List.map_append, List.map_cons,
              List.pairwise_append]
            refine ⟨hbl, ?_, ?_⟩
            · rw [List.pairwise_cons]
              refine ⟨?_, hbst'⟩
              intro x hx
              rcases (hmem' x).mp hx with hx | hx
              · omega
              · exact hkr x hx
            · intro x hx y hy
              have hxlt : x < k0 := hkl x hx
              rcases List.mem_cons.mp hy with hy | hy
              · omega
              · rcases (hmem' y).mp hy with hy | hy
                · omega
                · have := hkr y hy
                  omega
          · intro x
            rw [inorder, List.map_append, List.map_cons, List.mem_append,
              List.mem_cons]
            rw [inorder, List.map_append, List.map_cons, List.mem_append,
              List.mem_cons]
            rw [hmem' x]
            tauto

theorem inorder_dropLast (l : BTree) (hl : l ≠ BTree.leaf) :
    inorder l = inorder (dropLastNode l) ++ [lastEntry l] := by
  induction l with
  | leaf => exact absurd rfl hl
  | node a b c d iha ihd =>
    cases d with
    | leaf =>
      have h1 : dropLastNode (BTree.node a b c BTree.leaf) = a := rfl
      have h2 : lastEntry (BTree.node a b c BTree.leaf) = (b, c) := rfl
      rw [h1, h2, inorder]
      rfl
    | node d1 d2 d3 d4 =>
      have h1 : dropLastNode (BTree.node a b c (BTree.node d1 d2 d3 d4)) =
          BTree.node a b c (dropLastNode (BTree.node d1 d2 d3 d4)) := rfl
      have h2 : lastEntry (BTree.node a b c (BTree.node d1 d2 d3 d4)) =
          lastEntry (BTree.node d1 d2 d3 d4) := rfl
      rw [h1, h2, inorder, ihd (by simp), inorder]
      simp [List.append_assoc]

theorem updateAt_infix (t : BTree) :
    ∀ (p : List Dir) (s : BTree), subtreeAt t p = some s →
    ∃ pre post, inorder t = pre ++ (inorder s ++ post) ∧
      (∀ f, inorder (updateAt t p f) = pre ++ (inorder (f s) ++ post)) := by
  induction t with
  | leaf =>
    intro p s h
    cases p with
    | nil =>
      injection h with h
      subst h
      exact ⟨[], [], by simp, fun f => by simp [updateAt]⟩
    | cons d q => exact absurd h (by simp [subtreeAt])
  | node a b c d iha ihd =>
    intro p s h
    cases p with
    | nil =>
      injection h with h
      subst h
      exact ⟨[], [], by simp, fun f => by simp [updateAt]⟩
    | cons dir q =>
      cases dir with
      | L =>
        have hq : subtreeAt a q = some s := h
        rcases iha q s hq with ⟨pre, post, hdec, hupd⟩
        refine ⟨pre, post ++ ((b, c) :: inorder d), ?_, ?_⟩
        · rw [inorder, hdec]
          simp [List.append_assoc]
        · intro f
          have hu : updateAt (BTree.node a b c d) (Dir.L :: q) f =
              BTree.node (updateAt a q f) b c d := rfl
          rw [hu, inorder, hupd f]
          simp [List.append_assoc]
      | R =>
        have hq : subtreeAt d q = some s := h
        rcases ihd q s hq with ⟨pre, post, hdec, hupd⟩
        refine ⟨inorder a ++ ((b, c) :: pre), post, ?_, ?_⟩
        · rw [inorder, hdec]
          simp [List.append_assoc]
        · intro f
          have hu : updateAt (BTree.node a b c d) (Dir.R :: q) f =
              BTree.node a b c (updateAt d q f) := rfl
          rw [hu, inorder, hupd f]
          simp [List.append_assoc]

theorem subtreeAt_nil (t : BTree) : subtreeAt t [] = some t := by
  cases t <;> rfl

theorem subtreeAt_updateAt_self (t : BTree) :
    ∀ (p : List Dir) (s : BTree) (f : BTree → BTree),
      subtreeAt t p = some s →
      subtreeAt (updateAt t p f) p = some (f s) := by
  induction t with
  | leaf =>
    intro p s f h
    cases p with
    | nil =>
      injection h with h
      subst h
      have hu : updateAt BTree.leaf [] f = f BTree.leaf := rfl
      rw [hu, subtreeAt_nil]
    | cons d q => exact absurd h (by simp [subtreeAt])
  | node a b c d iha ihd =>
    intro p s f h
    cases p with
    | nil =>
      injection h with h
      subst h
      have hu : updateAt (BTree.node a b c d) [] f = f (BTree.node a b c d) := rfl
      rw [hu, subtreeAt_nil]
    | cons dir q =>
      cases dir with
      | L => exact iha q s f h
      | R => exact ihd q s f h

theorem sorted_remove_middle (A B C D : List Nat) (k0 : Nat)
    (hold : (A ++ ((B ++ k0 :: C) ++ D)).Pairwise (· < ·)) :
    (A ++ ((B ++ C) ++ D)).Pairwise (· < ·) ∧
    (∀ x, x ∈ A ++ ((B ++ C) ++ D) ↔
      x ∈ A ++ ((B ++ k0 :: C) ++ D) ∧ x ≠ k0) := by
  have hsub : List.Sublist (A ++ ((B ++ C) ++ D))
      (A ++ ((B ++ k0 :: C) ++ D)) :=
    (((List.sublist_cons_self k0 C).append_left B).append_right D).append_left A
  have hnd : (A ++ ((B ++ k0 :: C) ++ D)).Nodup :=
    hold.imp (fun h => ne_of_lt h)
  have hnd2 : ((A ++ B) ++ k0 :: (C ++ D)).Nodup := by
    simpa [List.append_assoc] using hnd
  have hk0 := (List.nodup_middle.mp hnd2)
  have hk0notin : k0 ∉ (A ++ B) ++ (C ++ D) :=
    (List.nodup_cons.mp hk0).1
  refine ⟨hold.sublist hsub, ?_⟩
  intro x
  constructor
  · intro hx
    refine ⟨hsub.subset hx, ?_⟩
    intro he
    subst he
    apply hk0notin
    simpa [List.append_assoc] using hx
  · rintro ⟨hx, hne⟩
    simp only [List.mem_append, List.mem_cons] at hx ⊢
    tauto

theorem treeDeletePos_eq (t : BTree) (p : List Dir) (l0 : BTree) (k0 v0 : Nat)
    (r0 : BTree) (hv : subtreeAt t p = some (BTree.node l0 k0 v0 r0)) :
    treeDeletePos t p =
      if l0 ≠ BTree.leaf ∧ r0 ≠ BTree.leaf then
        some (updateAt t p fun s =>
          match s with
          | BTree.node l1 _ _ r1 =>
            BTree.node (dropLastNode l1) (lastEntry l1).1 (lastEntry l1).2 r1
          | BTree.leaf => BTree.leaf)
      else
        some (updateAt t p fun s =>
          match s with
          | BTree.node l1 _ _ r1 => if l1 = BTree.leaf then r1 else l1
          | BTree.leaf => BTree.leaf) := by
  rw [treeDeletePos, hv]

/-- `TreeMap.delete` at a valid position: the BST property is kept, the
entry count drops by one, and exactly the deleted key leaves the key
set. -/
theorem treeDeletePos_spec (t : BTree) (p : List Dir) (l0 : BTree)
    (k0 v0 : Nat) (r0 : BTree) (hs : BST t)
    (hv : subtreeAt t p = some (BTree.node l0 k0 v0 r0)) :
    ∃ t', treeDeletePos t p = some t' ∧ BST t' ∧
      (inorder t').length + 1 = (inorder t).length ∧
      (∀ x, x ∈ (inorder t').map Prod.fst ↔
        x ∈ (inorder t).map Prod.fst ∧ x ≠ k0) := by
  rcases updateAt_infix t p _ hv with ⟨pre, post, hdec, hupd⟩
  rw [treeDeletePos_eq t p l0 k0 v0 r0 hv]
  have hmain : ∀ (f : BTree → BTree),
      inorder (f (BTree.node l0 k0 v0 r0)) = inorder l0 ++ inorder r0 →
      BST (updateAt t p f) ∧
      (inorder (updateAt t p f)).length + 1 = (inorder t).length ∧
      (∀ x, x ∈ (inorder (updateAt t p f)).map Prod.fst ↔
        x ∈ (inorder t).map Prod.fst ∧ x ≠ k0) := by
    intro f hf
    have hnew : inorder (updateAt t p f) =
        pre ++ ((inorder l0 ++ inorder r0) ++ post) := by
      rw [hupd f, hf]
    have holdeq : inorder t =
        pre ++ ((inorder l0 ++ (k0, v0) :: inorder r0) ++ post) := by
      rw [hdec, inorder]
    have hknew : (inorder (updateAt t p f)).map Prod.fst
        = pre.map Prod.fst ++ (((inorder l0).map Prod.fst ++
          (inorder r0).map Prod.fst) ++ post.map Prod.fst) := by
      rw [hnew, List.map_append, List.map_append, List.map_append]
    have hkold : (inorder t).map Prod.fst
        = pre.map Prod.fst ++ (((inorder l0).map Prod.fst ++
          k0 :: (inorder r0).map Prod.fst) ++ post.map Prod.fst) := by
      rw [holdeq, List.map_append, List.map_append, List.map_append,
        List.map_cons]
    have hold : ((pre.map Prod.fst) ++ (((inorder l0).map Prod.fst ++
        k0 :: (inorder r0).map Prod.fst) ++ (post.map Prod.fst))).Pairwise
        (· < ·) := by
      have hh := hs
      rw [BST, SortedKeys, hkold] at hh
      exact hh
    rcases sorted_remove_middle _ _ _ _ k0 hold with ⟨hsorted, hmem⟩
    refine ⟨?_, ?_, ?_⟩
    · rw [BST, SortedKeys, hknew]
      exact hsorted
    · rw [hnew, holdeq]
      simp
      omega
    · intro x
      rw [hknew, hkold]
      exact hmem x
  by_cases hc : l0 ≠ BTree.leaf ∧ r0 ≠ BTree.leaf
  · rw [if_pos hc]
    refine ⟨_, rfl, ?_⟩
    apply hmain
    show inorder (BTree.node (dropLastNode l0) (lastEntry l0).1
      (lastEntry l0).2 r0) = _
    rw [inorder]
    rw [inorder_dropLast l0 hc.1]
    simp [List.append_assoc]
  · rw [if_neg hc]
    refine ⟨_, rfl, ?_⟩
    apply hmain
    by_cases hl0 : l0 = BTree.leaf
    · show inorder (if l0 = BTree.leaf then r0 else l0) = _
      rw [if_pos hl0, hl0]
      rfl
    · have hr0 : r0 = BTree.leaf := by tauto
      show inorder (if l0 = BTree.leaf then r0 else l0) = _
      rw [if_neg hl0, hr0]
      simp [inorder]

/-- `__delitem__` keeps the BST invariant and removes exactly the given
key. -/
theorem treeDelKey_spec (t : BTree) (k : Nat) (t' : BTree) (hs : BST t)
    (h : treeDelKey t k = some t') :
    BST t' ∧ (∀ x, x ∈ (inorder t').map Prod.fst ↔
      x ∈ (inorder t).map Prod.fst ∧ x ≠ k) ∧
    (inorder t').length + 1 = (inorder t).length := by
  cases t with
  | leaf => exact absurd h (by simp [treeDelKey])
  | node l k0 v0 r =>
    have hdk : treeDelKey (BTree.node l k0 v0 r) k =
        (if k = keyAtD (BTree.node l k0 v0 r)
            (subtreeSearch (BTree.node l k0 v0 r) k) then
          treeDeletePos (BTree.node l k0 v0 r)
            (subtreeSearch (BTree.node l k0 v0 r) k)
        else none) := rfl
    rw [hdk] at h
    by_cases hcond : k = keyAtD (BTree.node l k0 v0 r)
        (subtreeSearch (BTree.node l k0 v0 r) k)
    · rw [if_pos hcond] at h
      rcases searchBracket (BTree.node l k0 v0 r) hs (by simp) k with
        ⟨j, hj, heq, _, _⟩
      have hpmem : (pathsInorder (BTree.node l k0 v0 r)).getD j [] ∈
          pathsInorder (BTree.node l k0 v0 r) := by
        rw [List.getD_eq_getElem _ _ hj]
        exact List.getElem_mem _
      rcases pathsInorder_valid _ _ hpmem with ⟨a, b, c, d, hv⟩
      rw [← heq] at hv
      have hkey : keyAtD (BTree.node l k0 v0 r)
          (subtreeSearch (BTree.node l k0 v0 r) k) = b := by
        rw [keyAtD, entryAtD, hv]
      rcases treeDeletePos_spec (BTree.node l k0 v0 r) _ a b c d hs hv with
        ⟨t'', heq2, hbst, hlen, hmem⟩
      rw [heq2] at h
      injection h with h
      subst h
      refine ⟨hbst, ?_, hlen⟩
      intro x
      rw [hmem x, hcond, hkey]
    · rw [if_neg hcond] at h
      exact absurd h (by simp)

/-- Every reachable tree state satisfies the BST invariant. -/
theorem treeReachable_bst (t : BTree) (h : TreeReachable t) : BST t := by
  induction h with
  | init =>
    show SortedKeys (inorder BTree.leaf)
    simp [inorder, SortedKeys]
  | set t k v _ ih => exact (treeSet_sorted_mem t k v ih).1
  | del t k t' _ hdel ih => exact (treeDelKey_spec t k t' ih hdel).1

theorem treeFindRange_node (l : BTree) (k v : Nat) (r : BTree)
    (start stop : Option Nat) :
    treeFindRange (BTree.node l k v r) start stop =
      treeRangeLoop (BTree.node l k v r) stop
        (match start with
         | none => some (firstPath (BTree.node l k v r))
         | some s =>
           if keyAtD (BTree.node l k v r)
               (subtreeSearch (BTree.node l k v r) s) < s then
             after (BTree.node l k v r) (subtreeSearch (BTree.node l k v r) s)
           else some (subtreeSearch (BTree.node l k v r) s))
        (treeSize (BTree.node l k v r)) := by
  cases start <;> rfl

/-- `find_range` on a BST yields exactly the entries whose key lies in
`[start, stop)` (with `None` bounds unbounded), in in-order sequence. -/
theorem treeFindRange_eq_filter (t : BTree) (hs : BST t)
    (start stop : Option Nat) :
    treeFindRange t start stop =
      (inorder t).filter (fun e => startOk start e.1 && stopOk stop e.1) := by
  cases t with
  | leaf => rfl
  | node l k v r =>
    have hfuel : (pathsInorder (BTree.node l k v r)).length =
        treeSize (BTree.node l k v r) := by
      rw [pathsInorder_length, inorder_length_size]
    have hiolen : (inorder (BTree.node l k v r)).length =
        treeSize (BTree.node l k v r) := inorder_length_size _
    rw [treeFindRange_node]
    cases start with
    | none =>
      have hchain := mainChain (BTree.node l k v r) (by simp)
      rw [treeRangeLoop_chain _ stop _ _ _ hchain (le_of_eq hfuel)]
      rw [pathsInorder_entries]
      rw [takeWhile_eq_filter_sorted _ hs _ (stopOk_mono stop)]
      apply List.filter_congr
      intro e _
      simp [startOk]
    | some s =>
      show treeRangeLoop (BTree.node l k v r) stop
          (if keyAtD (BTree.node l k v r)
              (subtreeSearch (BTree.node l k v r) s) < s then
            after (BTree.node l k v r) (subtreeSearch (BTree.node l k v r) s)
          else some (subtreeSearch (BTree.node l k v r) s))
          (treeSize (BTree.node l k v r)) =
        (inorder (BTree.node l k v r)).filter
          (fun e => startOk (some s) e.1 && stopOk stop e.1)
      rcases searchBracket (BTree.node l k v r) hs (by simp) s with
        ⟨j, hj, heq, hc1, hc2⟩
      have hjio : j < (inorder (BTree.node l k v r)).length := by
        rw [← pathsInorder_length]
        exact hj
      have hkeyj : keyAtD (BTree.node l k v r)
          (subtreeSearch (BTree.node l k v r) s) =
          ((inorder (BTree.node l k v r)).getD j (0, 0)).1 := by
        rw [keyAtD, heq, entryAtD_pathsInorder _ j hj]
      have hdrop1 : (pathsInorder (BTree.node l k v r)).drop j =
          (pathsInorder (BTree.node l k v r)).getD j [] ::
            (pathsInorder (BTree.node l k v r)).drop (j + 1) := by
        rw [List.getD_eq_getElem _ _ hj, ← List.drop_eq_getElem_cons hj]
      have hch := chainThrough_drop (BTree.node l k v r) (by simp) j hj
      by_cases hlt : ((inorder (BTree.node l k v r)).getD j (0, 0)).1 < s
      · rw [hkeyj, if_pos hlt, heq]
        rw [hdrop1] at hch
        have hch2 : ChainThrough (BTree.node l k v r)
            (after (BTree.node l k v r)
              ((pathsInorder (BTree.node l k v r)).getD j []))
            ((pathsInorder (BTree.node l k v r)).drop (j + 1)) none := hch.2
        rw [treeRangeLoop_chain _ stop _ _ _ hch2
          (by rw [List.length_drop]; omega)]
        rw [List.map_drop, pathsInorder_entries]
        rw [takeWhile_eq_filter_sorted _
          (sortedKeys_drop _ hs (j + 1)) _ (stopOk_mono stop)]
        conv_rhs => rw [← List.take_append_drop (j + 1)
          (inorder (BTree.node l k v r))]
        rw [List.filter_append]
        have h1 : ((inorder (BTree.node l k v r)).take (j + 1)).filter
            (fun e => startOk (some s) e.1 && stopOk stop e.1) = [] := by
          rw [List.filter_eq_nil_iff]
          intro e he
          rcases List.mem_iff_getElem.mp he with ⟨i, hi, hei⟩
          have hij : i < j + 1 := by
            have := hi
            simp [List.length_take] at this
            omega
          have hilen : i < (inorder (BTree.node l k v r)).length := by omega
          have hkey : e.1 < s := by
            have hgd : (inorder (BTree.node l k v r)).getD i (0, 0) = e := by
              rw [List.getD_eq_getElem _ _ hilen, ← hei, List.getElem_take]
            by_cases hij2 : i < j
            · have := hc1 i hij2
              rw [hgd] at this
              exact this
            · have hieq : i = j := by omega
              rw [← hgd, hieq]
              exact hlt
          simp [startOk]
          intro hst
          omega
        have h2 : ((inorder (BTree.node l k v r)).drop (j + 1)).filter
            (fun e => startOk (some s) e.1 && stopOk stop e.1) =
            ((inorder (BTree.node l k v r)).drop (j + 1)).filter
              (fun e => stopOk stop e.1) := by
          apply List.filter_congr
          intro e he
          rcases List.mem_iff_getElem.mp he with ⟨i, hi, hei⟩
          have hlen2 : j + 1 + i < (inorder (BTree.node l k v r)).length := by
            have := hi
            simp [List.length_drop] at this
            omega
          have hge : s ≤ e.1 := by
            have hgd : (inorder (BTree.node l k v r)).getD (j + 1 + i) (0, 0)
                = e := by
              rw [List.getD_eq_getElem _ _ hlen2, ← hei, List.getElem_drop]
            have := hc2 (j + 1 + i) (by omega) hlen2
            rw [hgd] at this
            omega
          simp [startOk, hge]
        rw [h1, h2]
        simp
      · rw [hkeyj, if_neg hlt, heq]
        rw [treeRangeLoop_chain _ stop _ _ _ hch
          (by rw [List.length_drop]; omega)]
        rw [List.map_drop, pathsInorder_entries]
        rw [takeWhile_eq_filter_sorted _
          (sortedKeys_drop _ hs j) _ (stopOk_mono stop)]
        conv_rhs => rw [← List.take_append_drop j
          (inorder (BTree.node l k v r))]
        rw [List.filter_append]
        have h1 : ((inorder (BTree.node l k v r)).take j).filter
            (fun e => startOk (some s) e.1 && stopOk stop e.1) = [] := by
          rw [List.filter_eq_nil_iff]
          intro e he
          rcases List.mem_iff_getElem.mp he with ⟨i, hi, hei⟩
          have hij : i < j := by
            have := hi
            simp [List.length_take] at this
            omega
          have hilen : i < (inorder (BTree.node l k v r)).length := by omega
          have hkey : e.1 < s := by
            have hgd : (inorder (BTree.node l k v r)).getD i (0, 0) = e := by
              rw [List.getD_eq_getElem _ _ hilen, ← hei, List.getElem_take]
            have := hc1 i hij
            rw [hgd] at this
            exact this
          simp [startOk]
          intro hst
          omega
        have h2 : ((inorder (BTree.node l k v r)).drop j).filter
            (fun e => startOk (some s) e.1 && stopOk stop e.1) =
            ((inorder (BTree.node l k v r)).drop j).filter
              (fun e => stopOk stop e.1) := by
          apply List.filter_congr
          intro e he
          rcases List.mem_iff_getElem.mp he with ⟨i, hi, hei⟩
          have hlen2 : j + i < (inorder (BTree.node l k v r)).length := by
            have := hi
            simp [List.length_drop] at this
            omega
          have hge : s ≤ e.1 := by
            have hgd : (inorder (BTree.node l k v r)).getD (j + i) (0, 0)
                = e := by
              rw [List.getD_eq_getElem _ _ hlen2, ← hei, List.getElem_drop]
            by_cases hi0 : i = 0
            · subst hi0
              have hjj : j + 0 = j := by omega
              rw [hjj] at hgd
              rw [← hgd]
              omega
            · have := hc2 (j + i) (by omega) hlen2
              rw [hgd] at this
              omega
          simp [startOk, hge]
        rw [h1, h2]
        simp

/-! ## Reachability for `UnsortedListMap` and iteration lemmas -/

/-- States of an `UnsortedListMap` reachable from the empty
constructor through the map contract. -/
inductive UnsortedReachable : List (Nat × Nat) → Prop where
  | init : UnsortedReachable []
  | set (t k v) : UnsortedReachable t → UnsortedReachable (uSet t k v)
  | del (t k t') : UnsortedReachable t → uDel t k = some t' →
      UnsortedReachable t'

/-- Every reachable `UnsortedListMap` state has pairwise-distinct
keys. -/
theorem unsortedReachable_nodup (t : List (Nat × Nat))
    (h : UnsortedReachable t) : (uKeys t).Nodup := by
  induction h with
  | init => exact List.nodup_nil
  | set t k v _ ih => exact nodup_uKeys_uSet t k v ih
  | del t k t' _ hdel ih =>
    rcases uDel_spec t k with ⟨_, hnone⟩ | ⟨t1, v0, t2, hteq, hk1, hsome⟩
    · rw [hnone] at hdel
      exact absurd hdel (by simp)
    · rw [hsome] at hdel
      injection hdel with hdel
      subst hdel
      rw [hteq, uKeys_append, uKeys_cons] at ih
      rw [uKeys_append]
      exact ih.sublist ((List.sublist_cons_self k (uKeys t2)).append_left _)

theorem sorted_nodup (t : List (Nat × Nat)) (hs : SortedKeys t) :
    (t.map Prod.fst).Nodup :=
  hs.imp (fun h => ne_of_lt h)

theorem mem_fst_iff_pair (t : List (Nat × Nat)) (x : Nat) :
    x ∈ t.map Prod.fst ↔ ∃ v, (x, v) ∈ t := by
  constructor
  · intro h
    rcases List.mem_map.mp h with ⟨e, he, hex⟩
    exact ⟨e.2, by rw [← hex]; exact he⟩
  · rintro ⟨v, hv⟩
    exact List.mem_map.mpr ⟨(x, v), hv, rfl⟩

/-! ## Concrete evaluations used by the boundary-query findings -/

theorem findIndex_singleton_base (k low : Nat) :
    findIndex [(5, 1)] k low low = low := by
  rw [findIndex]
  simp

theorem findIndex_singleton_3 : findIndex [(5, 1)] 3 0 1 = 0 := by
  rw [findIndex]
  norm_num [keyD, entryD]
  exact findIndex_singleton_base 3 0

theorem findIndex_singleton_5 : findIndex [(5, 1)] 5 0 1 = 0 := by
  rw [findIndex]
  norm_num [keyD, entryD]

theorem findIndex_nil (k : Nat) : findIndex [] k 0 0 = 0 := by
  rw [findIndex]
  simp

theorem sSet_nil (k v : Nat) : sSet [] k v = [(k, v)] := by
  have hj : findIndex [] k 0 ([] : List (Nat × Nat)).length = 0 := by
    show findIndex [] k 0 0 = 0
    exact findIndex_nil k
  rw [sSet]
  simp [hj]

theorem sortedReachable_singleton : SortedReachable [(5, 1)] := by
  have h := SortedReachable.set [] 5 1 SortedReachable.init
  rw [sSet_nil] at h
  exact h

theorem sFindGt_singleton_raises : sFindGt [(5, 1)] 3 = Except.error () := by
  rw [sFindGt]
  norm_num [findIndex_singleton_3, itemEqRawKey]
  rfl

theorem sGet_singleton : sGet [(5, 1)] 5 = some 1 := by
  rw [sGet]
  norm_num [findIndex_singleton_5, keyD, entryD]

theorem sFindLe_singleton_none : sFindLe [(5, 1)] 5 = none := by
  rw [sFindLe]
  norm_num [findIndex_singleton_5]

/-- The chaining state after one `set(5, 7)` from a fresh map (used by
the concrete witnesses below). -/
def chainOneEntry : ChainMap :=
  ⟨(List.replicate 11 (none : Option (List (Nat × Nat)))).set 5
    (some [(5, 7)]), 1⟩

/-- The probing state after one `set(5, 7)` from a fresh map. -/
def probeOneEntry : ProbeMap :=
  ⟨(List.replicate 11 PSlot.empty).set 5 (PSlot.item 5 7), 1⟩

/-! ## Claim theorems -/

/-- C1: for every map variant (UnsortedListMap, ChainHashMap,
ProbeHashMap, SortedTableMap, TreeMap), on every reachable state, after
`set(k, v)` completes a `get(k)` returns `v` (for the hash variants the
fuelled `__setitem__` completing is the hypothesis). -/
theorem claim_C1_roundtrip :
    (∀ t k v, UnsortedReachable t → uGet (uSet t k v) k = some v) ∧
    (∀ hf m k v f m', ChainReachable hf m → chainSetAux hf f m k v = some m' →
      chainGet hf m' k = some v) ∧
    (∀ hf m k v f m', ProbeReachable hf m → probeSetAux hf f m k v = some m' →
      probeGet hf m' k = Res.ok v) ∧
    (∀ t k v, SortedReachable t → sGet (sSet t k v) k = some v) ∧
    (∀ t k v, TreeReachable t → treeGet (treeSet t k v) k = some v) := by
  refine ⟨?_, ?_, ?_, ?_, ?_⟩
  · intro t k v _
    exact uGet_uSet_self t k v
  · intro hf m k v f m' hr hstep
    exact (chainSetAux_spec hf f m k v m' (chainReachable_wf hf m hr) hstep).2
  · intro hf m k v f m' hr hstep
    exact (probeSetAux_spec hf f m k v m' (probeReachable_wf hf m hr) hstep).2
  · intro t k v hr
    exact sGet_sSet_self t k v (sortedReachable_sorted t hr)
  · intro t k v _
    exact treeGet_treeSet_self t k v

theorem claim_C1_roundtrip_witness :
    uGet (uSet [] 5 7) 5 = some 7 ∧
    chainGet madExample chainOneEntry 5 = some 7 ∧
    probeGet madExample probeOneEntry 5 = Res.ok 7 ∧
    sGet (sSet [] 5 7) 5 = some 7 ∧
    treeGet (treeSet BTree.leaf 5 7) 5 = some 7 :=
  ⟨claim_C1_roundtrip.1 [] 5 7 UnsortedReachable.init,
   claim_C1_roundtrip.2.1 madExample ⟨List.replicate 11 none, 0⟩ 5 7 1
     chainOneEntry ChainReachable.init (by decide),
   claim_C1_roundtrip.2.2.1 madExample ⟨List.replicate 11 PSlot.empty, 0⟩ 5 7 1
     probeOneEntry ProbeReachable.init (by decide),
   claim_C1_roundtrip.2.2.2.1 [] 5 7 SortedReachable.init,
   claim_C1_roundtrip.2.2.2.2 BTree.leaf 5 7 TreeReachable.init⟩

/-- C2: for SortedTableMap and TreeMap, on every reachable state
`find_range(start, stop)` yields exactly the entries with
`start ≤ key < stop` (`None` bounds unbounded), in strictly ascending
key order. -/
theorem claim_C2_find_range :
    (∀ t start stop, SortedReachable t →
      sFindRange t start stop =
        t.filter (fun e => startOk start e.1 && stopOk stop e.1) ∧
      SortedKeys (sFindRange t start stop)) ∧
    (∀ t start stop, TreeReachable t →
      treeFindRange t start stop =
        (inorder t).filter (fun e => startOk start e.1 && stopOk stop e.1) ∧
      SortedKeys (treeFindRange t start stop)) := by
  constructor
  · intro t start stop hr
    have hs := sortedReachable_sorted t hr
    have hfil := sFindRange_eq_filter t hs start stop
    refine ⟨hfil, ?_⟩
    rw [SortedKeys, hfil]
    exact hs.sublist ((List.filter_sublist t).map Prod.fst)
  · intro t start stop hr
    have hs := treeReachable_bst t hr
    have hfil := treeFindRange_eq_filter t hs start stop
    refine ⟨hfil, ?_⟩
    rw [SortedKeys, hfil]
    exact hs.sublist ((List.filter_sublist (inorder t)).map Prod.fst)

theorem claim_C2_find_range_witness :
    (sFindRange [(5, 1)] (some 3) (some 9) =
      List.filter (fun e => startOk (some 3) e.1 && stopOk (some 9) e.1)
        [(5, 1)] ∧
      SortedKeys (sFindRange [(5, 1)] (some 3) (some 9))) ∧
    (treeFindRange (treeSet BTree.leaf 5 1) (some 3) (some 9) =
      List.filter (fun e => startOk (some 3) e.1 && stopOk (some 9) e.1)
        (inorder (treeSet BTree.leaf 5 1)) ∧
      SortedKeys (treeFindRange (treeSet BTree.leaf 5 1) (some 3) (some 9))) :=
  ⟨claim_C2_find_range.1 [(5, 1)] (some 3) (some 9) sortedReachable_singleton,
   claim_C2_find_range.2 (treeSet BTree.leaf 5 1) (some 3) (some 9)
     (TreeReachable.set BTree.leaf 5 1 TreeReachable.init)⟩

/-- C3: on a BST state, deleting at a position whose node has two
children succeeds, copies the entry of the in-order predecessor (the
last position of the left subtree) into the position, preserves the BST
property, and removes exactly the deleted key from the key set. -/
theorem claim_C3_delete_two_children (t : BTree) (p : List Dir) (l0 : BTree)
    (k0 v0 : Nat) (r0 : BTree) (hs : BST t)
    (hv : subtreeAt t p = some (BTree.node l0 k0 v0 r0))
    (hl : l0 ≠ BTree.leaf) (hr : r0 ≠ BTree.leaf) :
    ∃ t', treeDeletePos t p = some t' ∧
      entryAtD t' p = lastEntry l0 ∧
      BST t' ∧
      (∀ x, x ∈ (inorder t').map Prod.fst ↔
        x ∈ (inorder t).map Prod.fst ∧ x ≠ k0) := by
  rcases treeDeletePos_spec t p l0 k0 v0 r0 hs hv with
    ⟨t', heq, hbst, hlen, hmem⟩
  have heq2 : treeDeletePos t p = some (updateAt t p fun s =>
      match s with
      | BTree.node l1 _ _ r1 =>
        BTree.node (dropLastNode l1) (lastEntry l1).1 (lastEntry l1).2 r1
      | BTree.leaf => BTree.leaf) := by
    rw [treeDeletePos_eq t p l0 k0 v0 r0 hv, if_pos ⟨hl, hr⟩]
  rw [heq] at heq2
  injection heq2 with heq2
  refine ⟨t', heq, ?_, hbst, hmem⟩
  have hsub := subtreeAt_updateAt_self t p (BTree.node l0 k0 v0 r0)
    (fun s =>
      match s with
      | BTree.node l1 _ _ r1 =>
        BTree.node (dropLastNode l1) (lastEntry l1).1 (lastEntry l1).2 r1
      | BTree.leaf => BTree.leaf) hv
  rw [heq2, entryAtD, hsub]

theorem claim_C3_delete_two_children_witness :
    ∃ t', treeDeletePos (BTree.node (BTree.node BTree.leaf 30 2 BTree.leaf)
        50 1 (BTree.node BTree.leaf 70 3 BTree.leaf)) [] = some t' ∧
      entryAtD t' [] = lastEntry (BTree.node BTree.leaf 30 2 BTree.leaf) ∧
      BST t' ∧
      (∀ x, x ∈ (inorder t').map Prod.fst ↔
        x ∈ (inorder (BTree.node (BTree.node BTree.leaf 30 2 BTree.leaf)
          50 1 (BTree.node BTree.leaf 70 3 BTree.leaf))).map Prod.fst ∧
        x ≠ 50) :=
  claim_C3_delete_two_children _ [] (BTree.node BTree.leaf 30 2 BTree.leaf)
    50 1 (BTree.node BTree.leaf 70 3 BTree.leaf)
    (by
      show ((inorder (BTree.node (BTree.node BTree.leaf 30 2 BTree.leaf)
        50 1 (BTree.node BTree.leaf 70 3 BTree.leaf))).map Prod.fst).Pairwise
        (fun a b => a < b)
      decide)
    (by decide) (by decide) (by decide)

/-- C4: refuted termination claim for ProbeHashMap — after eleven
insert/delete rounds from a fresh map the reachable state `stA 11` is
all tombstones, and `get` of an absent key runs the `_find_slot` loop
forever (no fuel suffices), because `_resize` counts only live entries
against the load threshold. -/
theorem claim_C4_probe_termination :
    ProbeReachable madExample (stA 11) ∧
    probeGet madExample (stA 11) 100 = Res.div ∧
    (∀ fuel fa, findSlot (stA 11).table 100 fuel
      (madExample 100 % (stA 11).table.length) fa = none) :=
  allAvail_get_diverges

/-- C5: for ProbeHashMap, deleting key `k` on a reachable state leaves
every other stored key retrievable with its value (tombstones do not
break probe chains). -/
theorem claim_C5_tombstone_integrity (hf : Nat → Nat) (m : ProbeMap) (k : Nat)
    (m' : ProbeMap) (hr : ProbeReachable hf m)
    (hdel : probeDel hf m k = Res.ok m') (k2 v2 : Nat) (hne : k2 ≠ k)
    (hget : probeGet hf m k2 = Res.ok v2) :
    probeGet hf m' k2 = Res.ok v2 :=
  (probeDel_spec hf m (probeReachable_wf hf m hr) k m' hdel).2.2.2 k2 v2 hne hget

theorem claim_C5_tombstone_integrity_witness :
    probeGet madExample
      ⟨(((List.replicate 11 PSlot.empty).set 1 (PSlot.item 1 10)).set 2
        (PSlot.item 2 20)).set 1 PSlot.avail, 1⟩ 2 = Res.ok 20 :=
  claim_C5_tombstone_integrity madExample
    ⟨((List.replicate 11 PSlot.empty).set 1 (PSlot.item 1 10)).set 2
      (PSlot.item 2 20), 2⟩ 1
    ⟨(((List.replicate 11 PSlot.empty).set 1 (PSlot.item 1 10)).set 2
      (PSlot.item 2 20)).set 1 PSlot.avail, 1⟩
    (ProbeReachable.set
      ⟨(List.replicate 11 PSlot.empty).set 1 (PSlot.item 1 10), 1⟩ 2 20 1 _
      (ProbeReachable.set ⟨List.replicate 11 PSlot.empty, 0⟩ 1 10 1 _
        ProbeReachable.init (by decide))
      (by decide))
    (by decide) 2 20 (by decide) (by decide)

/-- C6: refuted `find_gt` claim for SortedTableMap — on the reachable
state `[(5, 1)]` a key strictly greater than 3 is present, yet
`find_gt(3)` raises `AttributeError` (the guard compares the `_Item` at
the found index against the raw key through `_Item.__eq__`). -/
theorem claim_C6_find_gt :
    SortedReachable [(5, 1)] ∧ sFindGt [(5, 1)] 3 = Except.error () :=
  ⟨sortedReachable_singleton, sFindGt_singleton_raises⟩

/-- C7: refuted `find_ge` claim for TreeMap — on the reachable
single-entry state with key 5, `find_ge(7)` evaluates `p.key()` on the
`None` returned by `after` (the conditional expression only guards
`p.value()`), raising `AttributeError` instead of returning `None`. -/
theorem claim_C7_find_ge :
    TreeReachable (treeSet BTree.leaf 5 1) ∧
    treeFindGe (treeSet BTree.leaf 5 1) 7 = Except.error () :=
  ⟨TreeReachable.set BTree.leaf 5 1 TreeReachable.init, rfl⟩

/-- C8: refuted `find_le` claim for SortedTableMap — on the reachable
state `[(5, 1)]` the key 5 is present (and is the minimum), yet
`find_le(5)` returns `None` because the `j > 0` guard discards the
match at index 0. -/
theorem claim_C8_find_le :
    SortedReachable [(5, 1)] ∧ sGet [(5, 1)] 5 = some 1 ∧
    sFindLe [(5, 1)] 5 = none :=
  ⟨sortedReachable_singleton, sGet_singleton, sFindLe_singleton_none⟩

/-- C9: for ChainHashMap and ProbeHashMap, whenever `set(k, v)`
completes on a reachable state (resize included), the live count obeys
`n ≤ capacity / 2` for the resulting capacity. -/
theorem claim_C9_load_factor :
    (∀ hf m k v f m', ChainReachable hf m → chainSetAux hf f m k v = some m' →
      m'.n ≤ m'.table.length / 2) ∧
    (∀ hf m k v f m', ProbeReachable hf m → probeSetAux hf f m k v = some m' →
      m'.n ≤ m'.table.length / 2) := by
  constructor
  · intro hf m k v f m' hr hstep
    have hw := (chainSetAux_spec hf f m k v m' (chainReachable_wf hf m hr)
      hstep).1
    have := hw.load
    omega
  · intro hf m k v f m' hr hstep
    have hw := (probeSetAux_spec hf f m k v m' (probeReachable_wf hf m hr)
      hstep).1
    have := hw.load
    omega

theorem claim_C9_load_factor_witness :
    chainOneEntry.n ≤ chainOneEntry.table.length / 2 ∧
    probeOneEntry.n ≤ probeOneEntry.table.length / 2 :=
  ⟨claim_C9_load_factor.1 madExample ⟨List.replicate 11 none, 0⟩ 5 7 1
     chainOneEntry ChainReachable.init (by decide),
   claim_C9_load_factor.2 madExample ⟨List.replicate 11 PSlot.empty, 0⟩ 5 7 1
     probeOneEntry ProbeReachable.init (by decide)⟩

/-- C10: for every variant, on every reachable state, iterating yields
exactly the present keys (each exactly once), the number of yielded keys
equals `len()`, and the hash variants' counter `n` equals the number of
live stored entries. -/
theorem claim_C10_iteration :
    (∀ t, UnsortedReachable t → (uKeys t).Nodup ∧
      (∀ x, x ∈ uKeys t ↔ (uGet t x).isSome) ∧
      (uKeys t).length = t.length) ∧
    (∀ hf m, ChainReachable hf m → (chainKeys m.table).Nodup ∧
      (∀ x, x ∈ chainKeys m.table ↔ (chainGet hf m x).isSome) ∧
      m.n = (chainKeys m.table).length) ∧
    (∀ hf m, ProbeReachable hf m → (probeKeys m.table).Nodup ∧
      (∀ x, x ∈ probeKeys m.table ↔ ∃ v, probeGet hf m x = Res.ok v) ∧
      m.n = (probeKeys m.table).length) ∧
    (∀ t, SortedReachable t → (t.map Prod.fst).Nodup ∧
      (∀ x, x ∈ t.map Prod.fst ↔ (sGet t x).isSome) ∧
      (t.map Prod.fst).length = t.length) ∧
    (∀ t, TreeReachable t → treeIter t = (inorder t).map Prod.fst ∧
      (treeIter t).Nodup ∧
      (∀ x, x ∈ treeIter t ↔ (treeGet t x).isSome) ∧
      (treeIter t).length = treeSize t) := by
  refine ⟨?_, ?_, ?_, ?_, ?_⟩
  · intro t hr
    refine ⟨unsortedReachable_nodup t hr, ?_, by simp [uKeys]⟩
    intro x
    exact (uGet_isSome_iff t x).symm
  · intro hf m hr
    have hw := chainReachable_wf hf m hr
    refine ⟨hw.nodup, ?_, hw.count⟩
    intro x
    rw [← chainGet_some_iff_mem hf m hw x, Option.isSome_iff_exists]
  · intro hf m hr
    have hw := probeReachable_wf hf m hr
    refine ⟨hw.nodup, ?_, hw.count⟩
    intro x
    exact (probeGet_ok_iff_mem hf m hw x).symm
  · intro t hr
    have hs := sortedReachable_sorted t hr
    refine ⟨sorted_nodup t hs, ?_, by simp⟩
    intro x
    rw [mem_fst_iff_pair, Option.isSome_iff_exists]
    constructor
    · rintro ⟨v, hv⟩
      exact ⟨v, (sGet_eq_some_iff t hs x v).mpr hv⟩
    · rintro ⟨v, hv⟩
      exact ⟨v, (sGet_eq_some_iff t hs x v).mp hv⟩
  · intro t hr
    have hb := treeReachable_bst t hr
    refine ⟨treeIter_inorder t, ?_, ?_, ?_⟩
    · rw [treeIter_inorder]
      exact sorted_nodup (inorder t) hb
    · intro x
      rw [treeIter_inorder]
      exact (treeGet_iff_mem t hb x).symm
    · rw [treeIter_inorder, List.length_map, inorder_length_size]

theorem claim_C10_iteration_witness :
    ((uKeys [(5, 7)]).Nodup ∧ (5 ∈ uKeys [(5, 7)] ↔
      (uGet [(5, 7)] 5).isSome) ∧ (uKeys [(5, 7)]).length = [(5, 7)].length) ∧
    ((chainKeys chainOneEntry.table).Nodup ∧
      (chainKeys chainOneEntry.table).length = chainOneEntry.n) ∧
    ((probeKeys probeOneEntry.table).Nodup ∧
      (probeKeys probeOneEntry.table).length = probeOneEntry.n) ∧
    (([(5, 1)].map Prod.fst).Nodup ∧ (5 ∈ [(5, 1)].map Prod.fst ↔
      (sGet [(5, 1)] 5).isSome)) ∧
    (treeIter (treeSet BTree.leaf 5 1) =
      (inorder (treeSet BTree.leaf 5 1)).map Prod.fst ∧
      (treeIter (treeSet BTree.leaf 5 1)).length =
        treeSize (treeSet BTree.leaf 5 1)) := by
  have h1 := claim_C10_iteration.1 [(5, 7)]
    (UnsortedReachable.set [] 5 7 UnsortedReachable.init)
  have h2 := claim_C10_iteration.2.1 madExample chainOneEntry
    (ChainReachable.set ⟨List.replicate 11 none, 0⟩ 5 7 1 chainOneEntry
      ChainReachable.init (by decide))
  have h3 := claim_C10_iteration.2.2.1 madExample probeOneEntry
    (ProbeReachable.set ⟨List.replicate 11 PSlot.empty, 0⟩ 5 7 1 probeOneEntry
      ProbeReachable.init (by decide))
  have h4 := claim_C10_iteration.2.2.2.1 [(5, 1)] sortedReachable_singleton
  have h5 := claim_C10_iteration.2.2.2.2 (treeSet BTree.leaf 5 1)
    (TreeReachable.set BTree.leaf 5 1 TreeReachable.init)
  exact ⟨⟨h1.1, h1.2.1 5, h1.2.2⟩, ⟨h2.1, h2.2.2.symm⟩, ⟨h3.1, h3.2.2.symm⟩,
    ⟨h4.1, h4.2.1 5⟩, ⟨h5.1, h5.2.2.2⟩⟩

end DSA
